import Mathlib

/-!
Verification of `zscaler_egress_ips.py` (Zscaler-Tools / egress-ip-generator).

The development shallowly embeds the two core components of the script:

* the JSON traversal of `fetch_zscaler_egress_ips` (the HTTP fetch itself is
  excluded; the embedding takes the parsed response document), and
* `summarize_ip_blocks`, including the semantics of the Python standard
  library functions it calls: `ipaddress.ip_network(..., strict=False)` and
  `ipaddress.collapse_addresses` (CPython's `ipaddress` module).

Machine integers are modelled as `Nat` with explicit bounds; Python strings
are modelled as `String` / `List Char`; fallible Python code (exceptions)
is modelled with `Option` / `Except`.
-/

namespace ZscalerEgress

/-- A parsed JSON value, the shape of data produced by `resp.json()`.
JSON numbers are modelled as integers (the feed's annotation ids are
integers; floats do not occur in the fields this program inspects). -/
inductive JVal : Type where
  | null
  | bool (b : Bool)
  | num (n : Int)
  | str (s : String)
  | arr (elems : List JVal)
  | obj (fields : List (String × JVal))

/-- Python truthiness of a JSON value (`if x:`): `None`, `False`, `0`,
`""`, `[]` and `{}` are falsy, everything else truthy. -/
def pyTruthy : JVal → Bool
  | .null => false
  | .bool b => b
  | .num n => n != 0
  | .str s => s != ""
  | .arr l => !l.isEmpty
  | .obj l => !l.isEmpty

/-- First-match association lookup in a JSON object's field list. -/
def jLookup (fields : List (String × JVal)) (k : String) : Option JVal :=
  match fields with
  | [] => none
  | (k1, v) :: rest => if k1 = k then some v else jLookup rest k

/-- Python `v.get(key, default)`: only mappings have `.get`; calling it on
any other value raises (`AttributeError`), modelled as `.error ()`. -/
def pyGetD (v : JVal) (key : String) (default : JVal) : Except Unit JVal :=
  match v with
  | .obj fields => .ok ((jLookup fields key).getD default)
  | _ => .error ()

/-- Python iteration `for x in v`: lists yield their elements, strings
yield one-character strings, dicts yield their keys; other values raise
(`TypeError`). -/
def pyIter (v : JVal) : Except Unit (List JVal) :=
  match v with
  | .arr l => .ok l
  | .str s => .ok (s.data.map fun c => .str (String.mk [c]))
  | .obj fields => .ok (fields.map fun kv => .str kv.1)
  | _ => .error ()

/-- Python `v[i]` with a non-negative integer index: list indexing with an
`IndexError` on overflow, string indexing yields a one-character string;
anything else raises. -/
def pyIndexNat (v : JVal) (i : Nat) : Except Unit JVal :=
  match v with
  | .arr l =>
    match l[i]? with
    | some x => .ok x
    | none => .error ()
  | .str s =>
    match s.data[i]? with
    | some c => .ok (.str (String.mk [c]))
    | none => .error ()
  | _ => .error ()

/-- Python `v[k]` with a string key: dict lookup with `KeyError` when the
key is missing; list/string subscripts with a string key raise `TypeError`. -/
def pyIndexStr (v : JVal) (k : String) : Except Unit JVal :=
  match v with
  | .obj fields =>
    match jLookup fields k with
    | some x => .ok x
    | none => .error ()
  | _ => .error ()

/-- Python `v[1:]`: slicing is defined for lists and strings and raises
(`TypeError`) for anything else. -/
def pySliceFrom1 (v : JVal) : Except Unit JVal :=
  match v with
  | .arr l => .ok (.arr (l.drop 1))
  | .str s => .ok (.str (String.mk (s.data.drop 1)))
  | _ => .error ()

/-- One flat record produced by the extractor, mirroring the dict literal
built in `fetch_zscaler_egress_ips` (`.get` without default yields `None`,
modelled as `JVal.null`). -/
structure AddressRecord where
  ip_address : JVal
  region : JVal
  location : JVal
  multivip : Bool
  ready : Bool

/-- Whether a JSON value is the number `3` (the Python comparison
`note.get("id") == 3`; no other JSON value compares equal to `3`). -/
def isNum3 : JVal → Bool
  | .num 3 => true
  | _ => false

/-- The scan `any(note.get("id") == 3 for note in notes)`, including
Python `any`'s short-circuit: notes after the first match are not touched. -/
def anyNoteId3 : List JVal → Except Unit Bool
  | [] => .ok false
  | note :: rest => do
    let idv ← pyGetD note "id" .null
    if isNum3 idv then .ok true else anyNoteId3 rest

/-- Building one emitted record from a leaf entry (either a plain entry or
a `multivip` group member), mirroring the body of the two `results.append`
branches: `ready` is the negated notes scan, the three data fields are
`.get` with `None` default. -/
def mkLeafRecord (mv : Bool) (entry : JVal) : Except Unit AddressRecord := do
  let notesVal ← pyGetD entry "notes" (.arr [])
  let notes ← pyIter notesVal
  let has3 ← anyNoteId3 notes
  let ip ← pyGetD entry "ip_address" .null
  let rg ← pyGetD entry "region" .null
  let lc ← pyGetD entry "location" .null
  return { ip_address := ip, region := rg, location := lc, multivip := mv, ready := !has3 }

/-- The per-entry branch of the traversal: a truthy `multivip` flag makes
the entry a group whose `data` members are each emitted as leaves;
otherwise the entry itself is a leaf. -/
def recordsOfEntry (entry : JVal) : Except Unit (List AddressRecord) := do
  let mvv ← pyGetD entry "multivip" .null
  if pyTruthy mvv then
    let subsVal ← pyGetD entry "data" (.arr [])
    let subs ← pyIter subsVal
    subs.mapM (mkLeafRecord true)
  else
    let r ← mkLeafRecord false entry
    return [r]

/-- One column of a region row: iterate `col.get("data", [])`. -/
def recordsOfCol (col : JVal) : Except Unit (List AddressRecord) := do
  let dataVal ← pyGetD col "data" (.arr [])
  let items ← pyIter dataVal
  let rss ← items.mapM recordsOfEntry
  return rss.flatten

/-- One region row: iterate `region.get("cols", [])`. -/
def recordsOfRow (row : JVal) : Except Unit (List AddressRecord) := do
  let colsVal ← pyGetD row "cols" (.arr [])
  let cols ← pyIter colsVal
  let rss ← cols.mapM recordsOfCol
  return rss.flatten

/-- The mandatory section-selection path
`data.get("data", [])[6]["body"]["json"]["rows"][1:]`. -/
def sectionRows (doc : JVal) : Except Unit JVal := do
  let dataField ← pyGetD doc "data" (.arr [])
  let sect ← pyIndexNat dataField 6
  let body ← pyIndexStr sect "body"
  let bjson ← pyIndexStr body "json"
  let rows ← pyIndexStr bjson "rows"
  pySliceFrom1 rows

/-- The JSON traversal of `fetch_zscaler_egress_ips`, taking the already
parsed response document (the HTTP fetch is out of scope). Emitted record
order follows document order of rows, columns, entries and sub-entries. -/
def fetch_zscaler_egress_ips (doc : JVal) : Except Unit (List AddressRecord) := do
  let entriesVal ← sectionRows doc
  let entries ← pyIter entriesVal
  let rss ← entries.mapM recordsOfRow
  return rss.flatten

/-- Whether the mandatory section-selection path is structurally present
(the traversal through `data[6].body.json.rows[1:]` succeeds). -/
def mandatoryPathOk (doc : JVal) : Bool :=
  match sectionRows doc with
  | .ok _ => true
  | .error _ => false

/-! String primitives used by the summarizer embedding.  Python strings
are worked with as `List Char`. -/

/-- The ASCII whitespace characters stripped by Python's `str.strip()`
(the feed's address strings are ASCII; non-ASCII unicode whitespace is not
modelled). -/
def isPySpace (c : Char) : Bool :=
  c = ' ' || c = '\t' || c = '\n' || c = '\r' || c = '\x0b' || c = '\x0c'

/-- Python `str.strip()`: remove leading and trailing whitespace. -/
def pyStrip (cs : List Char) : List Char :=
  ((cs.dropWhile isPySpace).reverse.dropWhile isPySpace).reverse

/-- Python `str.split(sep)` for a one-character separator: always returns
at least one (possibly empty) part, and empty parts are kept. -/
def splitOnChar (sep : Char) : List Char → List (List Char)
  | [] => [[]]
  | c :: rest =>
    if c = sep then [] :: splitOnChar sep rest
    else
      match splitOnChar sep rest with
      | [] => [[c]]
      | p :: ps => (c :: p) :: ps

/-- Python `sep.join(parts)` for a one-character separator. -/
def joinSep (sep : Char) : List (List Char) → List Char
  | [] => []
  | [p] => p
  | p :: ps => p ++ sep :: joinSep sep ps

/-- ASCII decimal digit test (Python's `_DECIMAL_DIGITS` /
`str.isdigit()` restricted to ASCII, which is all these parsers accept);
48 and 57 are the ASCII codes of `0` and `9`. -/
def isDec (c : Char) : Bool := 48 ≤ c.toNat && c.toNat ≤ 57

/-- Value of a decimal digit character. -/
def decVal (c : Char) : Nat := c.toNat - 48

/-- ASCII hexadecimal digit test (Python's `_HEX_DIGITS`): a decimal
digit, `a`-`f` (codes 97-102) or `A`-`F` (codes 65-70). -/
def isHexDigit (c : Char) : Bool :=
  isDec c || (97 ≤ c.toNat && c.toNat ≤ 102) || (65 ≤ c.toNat && c.toNat ≤ 70)

/-- Value of a hexadecimal digit character. -/
def hexVal (c : Char) : Nat :=
  if isDec c then decVal c
  else if 97 ≤ c.toNat && c.toNat ≤ 102 then c.toNat - 97 + 10
  else c.toNat - 65 + 10

/-- Value of a string of decimal digits (used after the digit guards, like
Python's `int(s, 10)`). -/
def decListVal (cs : List Char) : Nat :=
  cs.foldl (fun acc c => acc * 10 + decVal c) 0

/-- Value of a string of hexadecimal digits (`int(s, 16)` after guards). -/
def hexListVal (cs : List Char) : Nat :=
  cs.foldl (fun acc c => acc * 16 + hexVal c) 0

/-- Decimal digit character (inverse of `decVal` on `0..9`). -/
def decChar (n : Nat) : Char :=
  match n with
  | 0 => '0' | 1 => '1' | 2 => '2' | 3 => '3' | 4 => '4'
  | 5 => '5' | 6 => '6' | 7 => '7' | 8 => '8' | _ => '9'

/-- Lowercase hexadecimal digit character. -/
def hexChar (n : Nat) : Char :=
  match n with
  | 0 => '0' | 1 => '1' | 2 => '2' | 3 => '3' | 4 => '4'
  | 5 => '5' | 6 => '6' | 7 => '7' | 8 => '8' | 9 => '9'
  | 10 => 'a' | 11 => 'b' | 12 => 'c' | 13 => 'd' | 14 => 'e' | _ => 'f'

/-- Decimal rendering of a natural number, as Python's `str(n)`: no sign,
no leading zeros, `"0"` for zero. -/
def natToDec (n : Nat) : List Char :=
  if h : n < 10 then [decChar n]
  else
    have : n / 10 < n := Nat.div_lt_self (by omega) (by omega)
    natToDec (n / 10) ++ [decChar (n % 10)]

/-- Lowercase hexadecimal rendering of a natural number, as Python's
`'%x' % n`: no leading zeros, `"0"` for zero. -/
def natToHex (n : Nat) : List Char :=
  if h : n < 16 then [hexChar n]
  else
    have : n / 16 < n := Nat.div_lt_self (by omega) (by omega)
    natToHex (n / 16) ++ [hexChar (n % 16)]

/-! Network values and the parsing semantics of
`ipaddress.ip_network(s, strict=False)` (CPython's `ipaddress` module). -/

/-- A CIDR block within one address family: integer network address and
prefix length.  The family's bit width (32 or 128) is passed separately
to the functions below. -/
structure Net where
  addr : Nat
  plen : Nat
deriving DecidableEq

/-- An IPv4 or IPv6 network, as returned by `ipaddress.ip_network`. -/
inductive IPNet : Type where
  | v4 (n : Net)
  | v6 (n : Net)
deriving DecidableEq

/-- Number of trailing zero bits of a positive number (`tzNat 0 = 0` by
convention; callers special-case zero).  CPython computes this as
`(~n & (n - 1)).bit_length()`. -/
def tzNat (n : Nat) : Nat :=
  if h : n = 0 then 0
  else if n % 2 = 1 then 0
  else
    have : n / 2 < n := Nat.div_lt_self (by omega) (by omega)
    tzNat (n / 2) + 1

/-- CPython `_count_righthand_zero_bits(number, bits)`: the number of
trailing zero bits, capped at `bits`; all of `bits` for zero. -/
def countRighthandZeroBits (number bits : Nat) : Nat :=
  if number = 0 then bits else min bits (tzNat number)

/-- CPython `_prefix_from_ip_int` for one family: turn a netmask integer
(ones followed by zeros) into a prefix length, `none` when the bit
pattern is not a valid netmask. -/
def plenFromIpInt (bits ipInt : Nat) : Option Nat :=
  let tzc := countRighthandZeroBits ipInt bits
  let p := bits - tzc
  if ipInt / 2 ^ tzc = 2 ^ p - 1 then some p else none

/-- CPython `_parse_octet`: at most three ASCII decimal digits, no leading
zero except `"0"` itself, value at most 255. -/
def parseOctet (cs : List Char) : Option Nat :=
  if cs.isEmpty then none
  else if !cs.all isDec then none
  else if cs.length > 3 then none
  else if cs ≠ ['0'] ∧ cs.head? = some '0' then none
  else if decListVal cs > 255 then none
  else some (decListVal cs)

/-- CPython `IPv4Address._ip_int_from_string`: exactly four octets
separated by dots. -/
def parseIPv4Int (cs : List Char) : Option Nat :=
  if cs.isEmpty then none
  else
    match splitOnChar '.' cs with
    | [o1, o2, o3, o4] =>
      match parseOctet o1, parseOctet o2, parseOctet o3, parseOctet o4 with
      | some b1, some b2, some b3, some b4 =>
        some (((b1 * 256 + b2) * 256 + b3) * 256 + b4)
      | _, _, _, _ => none
    | _ => none

/-- CPython `_prefix_from_prefix_string`: ASCII digits only (so no sign
and no whitespace; leading zeros are allowed here), value at most `bits`. -/
def parsePlenStr (bits : Nat) (cs : List Char) : Option Nat :=
  if cs.isEmpty then none
  else if !cs.all isDec then none
  else if decListVal cs ≤ bits then some (decListVal cs)
  else none

/-- CPython `IPv4Network._make_netmask` on a string argument: first try a
plain prefix length, then a dotted-decimal netmask, then a hostmask. -/
def v4MaskToPlen (cs : List Char) : Option Nat :=
  match parsePlenStr 32 cs with
  | some p => some p
  | none =>
    match parseIPv4Int cs with
    | none => none
    | some ip =>
      match plenFromIpInt 32 ip with
      | some p => some p
      | none => plenFromIpInt 32 (2 ^ 32 - 1 - ip)

/-- CPython `IPv6Address._parse_hextet`: one to four hex digits. -/
def parseHextet (cs : List Char) : Option Nat :=
  if !cs.all isHexDigit then none
  else if cs.length > 4 then none
  else if cs.isEmpty then none
  else some (hexListVal cs)

/-- Left fold of already-validated hextets into an address integer
(the accumulation loop of `IPv6Address._ip_int_from_string`). -/
def foldHextets : List (List Char) → Nat → Option Nat
  | [], acc => some acc
  | p :: rest, acc =>
    match parseHextet p with
    | none => none
    | some h => foldHextets rest (acc * 2 ^ 16 + h)

/-- The scan over interior parts locating the `::` position: `some none`
when there is no empty interior part, `some (some i)` for exactly one at
index `i`, `none` (an error) for more than one. -/
def findSkip : List (List Char) → Nat → Option Nat → Option (Option Nat)
  | [], _, acc => some acc
  | p :: rest, i, acc =>
    if p.isEmpty then
      match acc with
      | some _ => none
      | none => findSkip rest (i + 1) (some i)
    else findSkip rest (i + 1) acc

/-- The embedded-IPv4 normalization step of
`IPv6Address._ip_int_from_string`: when the last `:`-part contains a dot
it is parsed as an IPv4 address and replaced by its two hextets. -/
def normalizeV6Parts (parts0 : List (List Char)) : Option (List (List Char)) :=
  match parts0.getLast? with
  | some lastPart =>
    if lastPart.contains '.' then
      match parseIPv4Int lastPart with
      | some v4 => some (parts0.dropLast ++ [natToHex (v4 / 2 ^ 16), natToHex (v4 % 2 ^ 16)])
      | none => none
    else some parts0
  | none => some parts0

/-- `parts_hi` of `IPv6Address._ip_int_from_string`: the number of
hextets before the `::` at part index `i` (one less when the first part
is empty, i.e. the address starts with `::`). -/
def v6Hi (parts : List (List Char)) (i : Nat) : Nat :=
  if parts.head? = some [] then i - 1 else i

/-- `parts_lo`: the number of hextets after the `::` at part index `i`. -/
def v6Lo (parts : List (List Char)) (i : Nat) : Nat :=
  if parts.getLast? = some [] then parts.length - i - 1 - 1 else parts.length - i - 1

/-- The accumulation step of `IPv6Address._ip_int_from_string` when a
`::` was found at part index `i`: `parts_hi` leading and `parts_lo`
trailing hextets around `parts_skipped` zero hextets; a leading or
trailing `:` is only permitted as part of `::`. -/
def parseV6WithSkip (parts : List (List Char)) (i : Nat) : Option Nat :=
  if parts.head? = some [] ∧ i - 1 ≠ 0 then none
  else if parts.getLast? = some [] ∧ parts.length - i - 1 - 1 ≠ 0 then none
  else if 8 < v6Hi parts i + v6Lo parts i then none
  else if 8 - (v6Hi parts i + v6Lo parts i) < 1 then none
  else
    match foldHextets (parts.take (v6Hi parts i)) 0 with
    | none => none
    | some hiVal =>
      foldHextets (parts.drop (parts.length - v6Lo parts i))
        (hiVal * 2 ^ (16 * (8 - (v6Hi parts i + v6Lo parts i))))

/-- The accumulation over normalized parts: at most 9 parts, locate the
`::`, and in its absence require exactly 8 non-empty-ended parts. -/
def parseV6Parts (parts : List (List Char)) : Option Nat :=
  if parts.length > 9 then none
  else
    match findSkip (parts.drop 1).dropLast 1 none with
    | none => none
    | some none =>
      if parts.length ≠ 8 then none
      else if parts.head? = some [] then none
      else if parts.getLast? = some [] then none
      else foldHextets parts 0
    | some (some i) => parseV6WithSkip parts i

/-- CPython `IPv6Address._ip_int_from_string`: split on `:`, at least 3
and at most 9 parts, optional embedded IPv4 in the last part, at most one
`::`, leading/trailing `:` only as part of `::`.  Scoped addresses
(`%zone`) are not modelled: a `%` makes a hextet fail, where CPython
would accept a zone id (the feed contains no scoped addresses). -/
def parseIPv6Int (cs : List Char) : Option Nat :=
  if cs.isEmpty then none
  else if (splitOnChar ':' cs).length < 3 then none
  else
    match normalizeV6Parts (splitOnChar ':' cs) with
    | none => none
    | some parts => parseV6Parts parts

/-- CPython `IPv4Network(s, strict=False)`: split on `/` (at most one),
parse the address, parse the prefix, and clear the host bits. -/
def parseV4Network (cs : List Char) : Option Net :=
  match splitOnChar '/' cs with
  | [a] => (parseIPv4Int a).map fun ip => { addr := ip, plen := 32 }
  | [a, m] =>
    match parseIPv4Int a, v4MaskToPlen m with
    | some ip, some p => some { addr := ip - ip % 2 ^ (32 - p), plen := p }
    | _, _ => none
  | _ => none

/-- CPython `IPv6Network(s, strict=False)`. -/
def parseV6Network (cs : List Char) : Option Net :=
  match splitOnChar '/' cs with
  | [a] => (parseIPv6Int a).map fun ip => { addr := ip, plen := 128 }
  | [a, m] =>
    match parseIPv6Int a, parsePlenStr 128 m with
    | some ip, some p => some { addr := ip - ip % 2 ^ (128 - p), plen := p }
    | _, _ => none
  | _ => none

/-- CPython `ipaddress.ip_network(s, strict=False)`: try IPv4 then IPv6;
`none` models the `ValueError` when both fail. -/
def ipNetworkOfChars (cs : List Char) : Option IPNet :=
  match parseV4Network cs with
  | some n => some (.v4 n)
  | none => (parseV6Network cs).map .v6

/-- `ipaddress.ip_network` on a Lean string. -/
def ip_network (s : String) : Option IPNet :=
  ipNetworkOfChars s.data

/-! The semantics of `ipaddress.collapse_addresses` (one address family). -/

/-- CPython `net.supernet()`: halve the prefix; a `/0` network is its own
supernet. -/
def supernet (bits : Nat) (n : Net) : Net :=
  if n.plen = 0 then n
  else { addr := n.addr - n.addr % 2 ^ (bits - (n.plen - 1)), plen := n.plen - 1 }

/-- First-match lookup in the association list modelling the `subnets`
dict of `_collapse_addresses_internal`. -/
def assocGet (k : Net) (l : List (Net × Net)) : Option Net :=
  (l.find? fun pr => pr.1 == k).map Prod.snd

/-- Deletion of a key from the `subnets` association list (keys are kept
unique by the merge loop, matching dict semantics). -/
def assocErase (k : Net) (l : List (Net × Net)) : List (Net × Net) :=
  l.eraseP fun pr => pr.1 == k

/-- The merge loop of `_collapse_addresses_internal`: repeatedly pop a
network, and either record it under its supernet or, when its sibling is
already recorded, replace both by the supernet.  `toMerge` is kept with
the top of CPython's stack (`to_merge.pop()` pops from the end) at its
head.  New dict entries are put at the front: the later sort makes the
entry order immaterial, since the recorded values are pairwise distinct. -/
def mergeLoop (bits : Nat) : List Net → List (Net × Net) → List (Net × Net)
  | [], subnets => subnets
  | net :: toMerge, subnets =>
    match h : assocGet (supernet bits net) subnets with
    | none => mergeLoop bits toMerge ((supernet bits net, net) :: subnets)
    | some existing =>
      if existing = net then mergeLoop bits toMerge subnets
      else mergeLoop bits (supernet bits net :: toMerge) (assocErase (supernet bits net) subnets)
termination_by toMerge subnets => 2 * toMerge.length + subnets.length
decreasing_by
  · simp only [List.length_cons]
    omega
  · simp only [List.length_cons]
    omega
  · unfold assocGet at h
    rw [Option.map_eq_some'] at h
    obtain ⟨pr, hfind, hsnd⟩ := h
    have hmem := List.mem_of_find?_eq_some hfind
    have hp := List.find?_some hfind
    have hlen : (subnets.eraseP fun pr => pr.1 == supernet bits net).length =
        subnets.length - 1 := List.length_eraseP_of_mem hmem hp
    have hpos : 0 < subnets.length := List.length_pos.mpr (by rintro rfl; simp at hmem)
    unfold assocErase
    simp only [List.length_cons]
    omega

/-- The network order used by CPython's `sorted` on networks of one
family: by network address, then by netmask (equivalently prefix length). -/
def netLe (a b : Net) : Prop :=
  a.addr < b.addr ∨ (a.addr = b.addr ∧ a.plen ≤ b.plen)

instance : DecidableRel netLe := fun a b => by unfold netLe; infer_instance

instance : IsTrans Net netLe :=
  ⟨by intro a b c hab hbc; unfold netLe at *; omega⟩

instance : IsTotal Net netLe :=
  ⟨by intro a b; unfold netLe; omega⟩

instance : IsAntisymm Net netLe := by
  constructor
  intro a b hab hba
  unfold netLe at hab hba
  cases a with
  | mk aa ap =>
    cases b with
    | mk ba bp =>
      simp only [Net.mk.injEq]
      simp only at hab hba
      omega

/-- Broadcast address of a block (its highest covered address). -/
def bcast (bits : Nat) (n : Net) : Nat := n.addr + 2 ^ (bits - n.plen) - 1

/-- The final loop of `_collapse_addresses_internal`: walk the sorted
networks and drop each one whose range is already inside the last kept
network (`last.broadcast_address >= net.broadcast_address`). -/
def filterSubsumed (bits : Nat) : List Net → Option Net → List Net
  | [], _ => []
  | net :: rest, kept =>
    match kept with
    | some l =>
      if bcast bits net ≤ bcast bits l then filterSubsumed bits rest (some l)
      else net :: filterSubsumed bits rest (some net)
    | none => net :: filterSubsumed bits rest (some net)

/-- CPython `_collapse_addresses_internal`: merge siblings to a fixed
point, sort, and drop subsumed networks. -/
def collapseInternal (bits : Nat) (nets : List Net) : List Net :=
  let merged := mergeLoop bits nets.reverse []
  filterSubsumed bits ((merged.map Prod.snd).insertionSort netLe) none

/-- CPython `_find_address_range` body: group a run of consecutive
addresses, emitting `(first, last)` pairs. -/
def findRangesAux (first lastA : Nat) : List Nat → List (Nat × Nat)
  | [] => [(first, lastA)]
  | ip :: rest =>
    if ip = lastA + 1 then findRangesAux first ip rest
    else (first, lastA) :: findRangesAux ip ip rest

/-- CPython `_find_address_range`: maximal consecutive runs of a sorted
deduplicated address list. -/
def find_address_range : List Nat → List (Nat × Nat)
  | [] => []
  | ip :: rest => findRangesAux ip ip rest

/-- The `nbits` computation of one `summarize_address_range` step: the
largest aligned block size at `first` fitting below `lastA`
(`_count_righthand_zero_bits` capped by `(last - first + 1).bit_length() - 1`,
the latter being the base-2 logarithm). -/
def rangeNbits (bits first lastA : Nat) : Nat :=
  min (countRighthandZeroBits first bits) (Nat.log 2 (lastA - first + 1))

/-- CPython `summarize_address_range(first, last)`: greedily emit the
largest aligned block starting at `first` that fits in `[first, last]`.
The `ALL_ONES` overflow break is subsumed by the loop guard since
`last < 2 ^ bits` for valid addresses. -/
def summarize_address_range (bits first lastA : Nat) : List Net :=
  if h : first ≤ lastA then
    { addr := first, plen := bits - rangeNbits bits first lastA } ::
      summarize_address_range bits (first + 2 ^ rangeNbits bits first lastA) lastA
  else []
termination_by lastA + 1 - first
decreasing_by
  have hp : 0 < 2 ^ rangeNbits bits first lastA := pow_pos (by omega) _
  omega

/-- CPython `collapse_addresses` for one family: single addresses (full
prefix length) are deduplicated, sorted and turned into ranges, and the
summarized ranges together with the remaining networks are merged. -/
def collapse_addresses (bits : Nat) (input : List Net) : List Net :=
  let ips := (input.filter fun n => n.plen == bits).map Net.addr
  let nets := input.filter fun n => n.plen != bits
  let ipsSorted := ips.dedup.insertionSort (fun a b => a ≤ b)
  let addrs := ((find_address_range ipsSorted).map fun fl =>
    summarize_address_range bits fl.1 fl.2).flatten
  collapseInternal bits (addrs ++ nets)

/-! String rendering of networks (`str(net)` in CPython). -/

/-- CPython `IPv4Address.__str__`: dot-joined decimal octets. -/
def fmtV4Addr (a : Nat) : List Char :=
  joinSep '.'
    [natToDec (a / 2 ^ 24), natToDec (a / 2 ^ 16 % 256), natToDec (a / 2 ^ 8 % 256),
     natToDec (a % 256)]

/-- The eight 16-bit groups of an IPv6 address integer. -/
def hextetsOf (a : Nat) : List Nat :=
  [a / 2 ^ 112 % 65536, a / 2 ^ 96 % 65536, a / 2 ^ 80 % 65536, a / 2 ^ 64 % 65536,
   a / 2 ^ 48 % 65536, a / 2 ^ 32 % 65536, a / 2 ^ 16 % 65536, a % 65536]

/-- The scan in CPython `_compress_hextets` locating the best (longest,
leftmost) run of `"0"` hextets: arguments are the remaining parts, the
current index, best start, best length, current-run start, current-run
length. -/
def bestZeroRunAux : List (List Char) → Nat → Nat → Nat → Nat → Nat → Nat × Nat
  | [], _, bs, bl, _, _ => (bs, bl)
  | p :: rest, idx, bs, bl, cs, cl =>
    if p = ['0'] then
      let cs1 := if cl = 0 then idx else cs
      let cl1 := cl + 1
      if bl < cl1 then bestZeroRunAux rest (idx + 1) cs1 cl1 cs1 cl1
      else bestZeroRunAux rest (idx + 1) bs bl cs1 cl1
    else bestZeroRunAux rest (idx + 1) bs bl cs 0

/-- Best zero-hextet run of a part list: `(start, length)`. -/
def bestZeroRun (parts : List (List Char)) : Nat × Nat :=
  bestZeroRunAux parts 0 0 0 0 0

/-- CPython `_compress_hextets`: replace the best zero run (when longer
than one hextet) by an empty part, padding the ends so that the final
join produces `::`. -/
def compressHextets (parts : List (List Char)) : List (List Char) :=
  let br := bestZeroRun parts
  if 1 < br.2 then
    let withTail := if br.1 + br.2 = parts.length then parts ++ [[]] else parts
    let replaced := withTail.take br.1 ++ [[]] ++ withTail.drop (br.1 + br.2)
    if br.1 = 0 then [] :: replaced else replaced
  else parts

/-- CPython `IPv6Address.__str__`: compressed, lowercase, colon-joined
hextets. -/
def fmtV6Addr (a : Nat) : List Char :=
  joinSep ':' (compressHextets ((hextetsOf a).map natToHex))

/-- `str(IPv4Network)`: `<address>/<prefix length>`. -/
def fmtNetV4 (n : Net) : String := String.mk (fmtV4Addr n.addr ++ '/' :: natToDec n.plen)

/-- `str(IPv6Network)`. -/
def fmtNetV6 (n : Net) : String := String.mk (fmtV6Addr n.addr ++ '/' :: natToDec n.plen)

/-! The summarizer itself. -/

/-- Input record of `summarize_ip_blocks`.  Per the documented contract
the `ip_address` value is a string or absent/null; `ready` is modelled as
an arbitrary optional JSON value because the code tests it only for
truthiness via `item.get("ready", False)`. -/
structure SumRec where
  ip_address : Option String
  ready : Option JVal

/-- Output item of `summarize_ip_blocks`: the dict `{"ip_address": cidr}`. -/
structure OutItem where
  ip_address : String
deriving DecidableEq

/-- The readiness test `item.get("ready", False)` under Python truthiness. -/
def readyTruthy (e : SumRec) : Bool := pyTruthy (e.ready.getD (.bool false))

/-- The per-record parse step of `summarize_ip_blocks`: skip records that
are not ready, records with a missing or empty address (`if not raw`),
and records whose stripped address fails `ip_network` (the caught
`ValueError`). -/
def parsedNet (e : SumRec) : Option IPNet :=
  if !readyTruthy e then none
  else
    match e.ip_address with
    | none => none
    | some raw =>
      if raw = "" then none else ipNetworkOfChars (pyStrip raw.data)

/-- The `ipv4` list accumulated by the loop, in input order. -/
def ipv4Inputs (l : List SumRec) : List Net :=
  l.filterMap fun e =>
    match parsedNet e with
    | some (.v4 n) => some n
    | _ => none

/-- The `ipv6` list accumulated by the loop, in input order. -/
def ipv6Inputs (l : List SumRec) : List Net :=
  l.filterMap fun e =>
    match parsedNet e with
    | some (.v6 n) => some n
    | _ => none

/-- `summarize_ip_blocks`: collapse each family separately and emit the
collapsed IPv4 blocks followed by the collapsed IPv6 blocks, each as a
`{"ip_address": str(cidr)}` item.  The embedding is a total function:
the only Python exception on this path (`ValueError` from `ip_network`)
is caught by the code and modelled inside `parsedNet`. -/
def summarize_ip_blocks (entries : List SumRec) : List OutItem :=
  ((collapse_addresses 32 (ipv4Inputs entries)).map fun n => { ip_address := fmtNetV4 n })
    ++ ((collapse_addresses 128 (ipv6Inputs entries)).map fun n => { ip_address := fmtNetV6 n })

/-- An output item fed back into the summarizer exactly as returned:
the dict has an `ip_address` key and no `ready` key. -/
def refeedItem (o : OutItem) : SumRec := { ip_address := some o.ip_address, ready := none }

/-- An output item fed back with an added `ready: true` marker. -/
def refeedReadyItem (o : OutItem) : SumRec :=
  { ip_address := some o.ip_address, ready := some (.bool true) }

/-! Specification-side predicates about blocks. -/

/-- Validity of a block in a family of `bits` bits: prefix length in
range, block inside the address space, host bits clear. -/
def NetV (bits : Nat) (n : Net) : Prop :=
  n.plen ≤ bits ∧ n.addr + 2 ^ (bits - n.plen) ≤ 2 ^ bits ∧ n.addr % 2 ^ (bits - n.plen) = 0

/-- The address `x` lies in block `n`. -/
def covN (bits : Nat) (n : Net) (x : Nat) : Prop :=
  n.addr ≤ x ∧ x < n.addr + 2 ^ (bits - n.plen)

/-- The address `x` lies in some block of the list. -/
def covL (bits : Nat) (l : List Net) (x : Nat) : Prop := ∃ n ∈ l, covN bits n x

/-- Block `m` is contained in block `n`. -/
def netSub (bits : Nat) (m n : Net) : Prop :=
  n.addr ≤ m.addr ∧ m.addr + 2 ^ (bits - m.plen) ≤ n.addr + 2 ^ (bits - n.plen)

instance (bits : Nat) (m n : Net) : Decidable (netSub bits m n) := by
  unfold netSub
  infer_instance

/-- Blocks `m` and `n` cover no common address. -/
def netDisjoint (bits : Nat) (m n : Net) : Prop :=
  ∀ x, ¬(covN bits m x ∧ covN bits n x)

/-- Blocks `m` and `n` are distinct siblings: equal prefix length and a
common parent, so their union is exactly that parent block. -/
def netSiblings (bits : Nat) (m n : Net) : Prop :=
  m ≠ n ∧ m.plen = n.plen ∧ supernet bits m = supernet bits n

/-- The invariant of the `subnets` association list in the merge loop:
keys are unique (dict semantics) and every entry maps the supernet of a
valid recorded network to it. -/
def PairsWF (bits : Nat) (l : List (Net × Net)) : Prop :=
  (l.map Prod.fst).Nodup ∧ ∀ pr ∈ l, pr.1 = supernet bits pr.2 ∧ NetV bits pr.2

/-! Specification-side predicates about the feed document. -/

/-- A note entry carrying the sentinel identifier `3`. -/
def noteCarries3 (n : JVal) : Prop :=
  ∃ f, n = JVal.obj f ∧ jLookup f "id" = some (.num 3)

/-- The optional `notes` field, when present, is a sequence of mappings
(it may be absent, and any of its notes' fields may be absent). -/
def notesWT (f : List (String × JVal)) : Prop :=
  ∀ nv, jLookup f "notes" = some nv →
    ∃ ns, nv = JVal.arr ns ∧ ∀ n ∈ ns, ∃ g, n = JVal.obj g

/-- An entry is well-typed when it is a mapping and the optional nested
collections that the extractor walks (`data` of a group, `notes` of a
leaf) are, when present, sequences of mappings.  All scalar fields may be
absent. -/
def entryWT (e : JVal) : Prop :=
  ∃ f, e = JVal.obj f ∧
    (if pyTruthy ((jLookup f "multivip").getD .null) then
      ∀ dv, jLookup f "data" = some dv →
        ∃ subs, dv = JVal.arr subs ∧ ∀ s ∈ subs, ∃ g, s = JVal.obj g ∧ notesWT g
    else notesWT f)

/-- A column is well-typed when it is a mapping whose optional `data`
field, when present, is a sequence of well-typed entries. -/
def colWT (c : JVal) : Prop :=
  ∃ f, c = JVal.obj f ∧
    ∀ dv, jLookup f "data" = some dv →
      ∃ es, dv = JVal.arr es ∧ ∀ e ∈ es, entryWT e

/-- A row is well-typed when it is a mapping whose optional `cols` field,
when present, is a sequence of well-typed columns. -/
def rowWT (r : JVal) : Prop :=
  ∃ f, r = JVal.obj f ∧
    ∀ cv, jLookup f "cols" = some cv →
      ∃ cs, cv = JVal.arr cs ∧ ∀ c ∈ cs, colWT c

/-! Lemmas about the string primitives. -/

theorem splitOnChar_ne_nil (sep : Char) (cs : List Char) : splitOnChar sep cs ≠ [] := by
  induction cs with
  | nil => simp [splitOnChar]
  | cons c rest ih =>
    simp only [splitOnChar]
    by_cases hc : c = sep
    · simp [hc]
    · simp only [hc, if_false]
      cases hr : splitOnChar sep rest with
      | nil => simp
      | cons p ps => simp

theorem joinSep_splitOnChar (sep : Char) (cs : List Char) :
    joinSep sep (splitOnChar sep cs) = cs := by
  induction cs with
  | nil => simp [splitOnChar, joinSep]
  | cons c rest ih =>
    simp only [splitOnChar]
    by_cases hc : c = sep
    · simp only [hc, if_true]
      cases hr : splitOnChar sep rest with
      | nil => exact absurd hr (splitOnChar_ne_nil sep rest)
      | cons p ps =>
        rw [hr] at ih
        subst hc
        simpa [joinSep] using ih
    · simp only [hc, if_false]
      cases hr : splitOnChar sep rest with
      | nil => exact absurd hr (splitOnChar_ne_nil sep rest)
      | cons p ps =>
        rw [hr] at ih
        cases ps with
        | nil => simpa [joinSep] using ih
        | cons q qs => simpa [joinSep] using ih

theorem sep_not_mem_of_mem_splitOnChar (sep : Char) (cs : List Char) (p : List Char)
    (hp : p ∈ splitOnChar sep cs) : sep ∉ p := by
  induction cs generalizing p with
  | nil =>
    simp [splitOnChar] at hp
    simp [hp]
  | cons c rest ih =>
    simp only [splitOnChar] at hp
    by_cases hc : c = sep
    · simp only [hc, if_true, List.mem_cons] at hp
      rcases hp with h | h
      · simp [h]
      · exact ih p h
    · simp only [hc, if_false] at hp
      cases hr : splitOnChar sep rest with
      | nil => exact absurd hr (splitOnChar_ne_nil sep rest)
      | cons q qs =>
        rw [hr] at hp
        simp only [List.mem_cons] at hp
        rcases hp with h | h
        · subst h
          intro hmem
          rcases List.mem_cons.mp hmem with h1 | h1
          · exact hc h1.symm
          · exact ih q (hr ▸ List.mem_cons_self q qs) h1
        · exact ih p (hr ▸ List.mem_cons.mpr (Or.inr h))

theorem splitOnChar_of_not_mem (sep : Char) (cs : List Char) (h : sep ∉ cs) :
    splitOnChar sep cs = [cs] := by
  induction cs with
  | nil => simp [splitOnChar]
  | cons c rest ih =>
    simp only [List.mem_cons, not_or] at h
    simp only [splitOnChar, Ne.symm h.1, if_false]
    rw [ih h.2]

theorem splitOnChar_append (sep : Char) (a b : List Char) (ha : sep ∉ a) :
    splitOnChar sep (a ++ sep :: b) = a :: splitOnChar sep b := by
  induction a with
  | nil => simp [splitOnChar]
  | cons c a0 ih =>
    simp only [List.mem_cons, not_or] at ha
    simp only [List.cons_append, splitOnChar, Ne.symm ha.1, if_false, List.append_eq]
    rw [ih ha.2]

theorem mem_splitOnChar_of_mem (sep : Char) (cs : List Char) (c : Char) (hc : c ∈ cs) :
    c = sep ∨ ∃ p ∈ splitOnChar sep cs, c ∈ p := by
  by_cases h : c = sep
  · exact Or.inl h
  · right
    induction cs with
    | nil => simp at hc
    | cons d rest ih =>
      simp only [splitOnChar]
      by_cases hd : d = sep
      · simp only [hd, if_true]
        rcases List.mem_cons.mp hc with h1 | h1
        · exact absurd (hd ▸ h1) h
        · obtain ⟨p, hp, hcp⟩ := ih h1
          exact ⟨p, List.mem_cons.mpr (Or.inr hp), hcp⟩
      · simp only [hd, if_false]
        cases hr : splitOnChar sep rest with
        | nil => exact absurd hr (splitOnChar_ne_nil sep rest)
        | cons q qs =>
          rcases List.mem_cons.mp hc with h1 | h1
          · exact ⟨d :: q, List.mem_cons_self _ _, h1 ▸ List.mem_cons_self _ _⟩
          · obtain ⟨p, hp, hcp⟩ := ih h1
            rw [hr] at hp
            rcases List.mem_cons.mp hp with h2 | h2
            · exact ⟨d :: q, List.mem_cons_self _ _, h2 ▸ List.mem_cons.mpr (Or.inr hcp)⟩
            · exact ⟨p, List.mem_cons.mpr (Or.inr h2), hcp⟩

theorem mem_of_splitOnChar_length (sep : Char) (cs : List Char)
    (h : 1 < (splitOnChar sep cs).length) : sep ∈ cs := by
  by_contra hmem
  rw [splitOnChar_of_not_mem sep cs hmem] at h
  simp at h

/-! Lemmas about digits and decimal / hexadecimal rendering. -/

theorem decVal_decChar (n : Nat) (h : n < 10) : decVal (decChar n) = n := by
  interval_cases n <;> rfl

theorem isDec_decChar (n : Nat) (h : n < 10) : isDec (decChar n) = true := by
  interval_cases n <;> rfl

theorem decChar_eq_zero_iff (n : Nat) (h : n < 10) : decChar n = '0' ↔ n = 0 := by
  interval_cases n <;> simp <;> decide

theorem hexVal_hexChar (n : Nat) (h : n < 16) : hexVal (hexChar n) = n := by
  interval_cases n <;> rfl

theorem isHexDigit_hexChar (n : Nat) (h : n < 16) : isHexDigit (hexChar n) = true := by
  interval_cases n <;> rfl

theorem isDec_isHexDigit (c : Char) (h : isDec c = true) : isHexDigit c = true := by
  simp [isHexDigit, h]

theorem isHexDigit_ne_sep (c : Char) (h : isHexDigit c = true) :
    c ≠ '.' ∧ c ≠ ':' ∧ c ≠ '/' ∧ isPySpace c = false := by
  refine ⟨?_, ?_, ?_, ?_⟩
  · intro he; subst he; exact absurd h (by decide)
  · intro he; subst he; exact absurd h (by decide)
  · intro he; subst he; exact absurd h (by decide)
  · cases hs : isPySpace c
    · rfl
    · exfalso
      have hs2 : c = ' ' ∨ c = '\t' ∨ c = '\n' ∨ c = '\r' ∨ c = '\x0b' ∨ c = '\x0c' := by
        simpa [isPySpace, or_assoc] using hs
      rcases hs2 with h1 | h1 | h1 | h1 | h1 | h1 <;> subst h1 <;> exact absurd h (by decide)

theorem isDec_ne_sep (c : Char) (h : isDec c = true) :
    c ≠ '.' ∧ c ≠ ':' ∧ c ≠ '/' ∧ isPySpace c = false :=
  isHexDigit_ne_sep c (isDec_isHexDigit c h)

theorem natToDec_ne_nil (n : Nat) : natToDec n ≠ [] := by
  rw [natToDec]
  split
  · simp
  · simp

theorem natToDec_all_isDec (n : Nat) : (natToDec n).all isDec = true := by
  induction n using Nat.strong_induction_on with
  | _ n ih =>
    rw [natToDec]
    split
    · rename_i h
      simp [isDec_decChar n h]
    · rename_i h
      rw [List.all_append]
      rw [ih (n / 10) (Nat.div_lt_self (by omega) (by omega))]
      simp [isDec_decChar (n % 10) (Nat.mod_lt _ (by omega))]

theorem decListVal_append (a : List Char) (c : Char) :
    decListVal (a ++ [c]) = decListVal a * 10 + decVal c := by
  simp [decListVal, List.foldl_append]

theorem decListVal_natToDec (n : Nat) : decListVal (natToDec n) = n := by
  induction n using Nat.strong_induction_on with
  | _ n ih =>
    rw [natToDec]
    split
    · rename_i h
      simp [decListVal, decVal_decChar n h]
    · rename_i h
      rw [decListVal_append, ih (n / 10) (Nat.div_lt_self (by omega) (by omega)),
        decVal_decChar (n % 10) (Nat.mod_lt _ (by omega))]
      omega

theorem natToDec_head (n : Nat) (hn : 0 < n) : (natToDec n).head? ≠ some '0' := by
  induction n using Nat.strong_induction_on with
  | _ n ih =>
    rw [natToDec]
    split
    · rename_i h
      simp only [List.head?_cons]
      intro hc
      have hc2 : decChar n = '0' := by injection hc
      rw [decChar_eq_zero_iff n h] at hc2
      omega
    · rename_i h
      cases hd : natToDec (n / 10) with
      | nil => exact absurd hd (natToDec_ne_nil (n / 10))
      | cons x xs =>
        have := ih (n / 10) (Nat.div_lt_self (by omega) (by omega))
          (Nat.div_pos (by omega) (by omega))
        rw [hd] at this
        simpa using this

theorem natToDec_length_le (k n : Nat) (hk : 1 ≤ k) (h : n < 10 ^ k) :
    (natToDec n).length ≤ k := by
  induction k generalizing n with
  | zero => omega
  | succ k ihk =>
    rw [natToDec]
    split
    · simp
    · rename_i h10
      have hk1 : 1 ≤ k := by
        rcases Nat.eq_zero_or_pos k with hk0 | hk0
        · subst hk0; simp at h; omega
        · exact hk0
      have hdiv : n / 10 < 10 ^ k := by
        apply Nat.div_lt_of_lt_mul
        rw [pow_succ] at h
        omega
      have := ihk (n / 10) hk1 hdiv
      simp only [List.length_append, List.length_cons, List.length_nil]
      omega

theorem parseOctet_natToDec (b : Nat) (hb : b ≤ 255) : parseOctet (natToDec b) = some b := by
  have hne := natToDec_ne_nil b
  have hall := natToDec_all_isDec b
  have hlen : (natToDec b).length ≤ 3 := natToDec_length_le 3 b (by omega) (by omega)
  have hval : decListVal (natToDec b) = b := decListVal_natToDec b
  have hlead : ¬(natToDec b ≠ ['0'] ∧ (natToDec b).head? = some '0') := by
    rcases Nat.eq_zero_or_pos b with hb0 | hb0
    · subst hb0
      intro hx
      apply hx.1
      rw [natToDec]
      rw [dif_pos (by omega)]
      rfl
    · intro hx
      exact natToDec_head b hb0 hx.2
  unfold parseOctet
  rw [if_neg (by simp [hne]), if_neg (by simp [hall]), if_neg (by omega), if_neg hlead,
    hval, if_neg (by omega)]

theorem parsePlenStr_natToDec (bits p : Nat) (hp : p ≤ bits) :
    parsePlenStr bits (natToDec p) = some p := by
  have hne := natToDec_ne_nil p
  have hall := natToDec_all_isDec p
  have hval : decListVal (natToDec p) = p := decListVal_natToDec p
  unfold parsePlenStr
  rw [if_neg (by simp [hne]), if_neg (by simp [hall]), hval, if_pos hp]

theorem natToHex_ne_nil (n : Nat) : natToHex n ≠ [] := by
  rw [natToHex]
  split
  · simp
  · simp

theorem natToHex_all_isHexDigit (n : Nat) : (natToHex n).all isHexDigit = true := by
  induction n using Nat.strong_induction_on with
  | _ n ih =>
    rw [natToHex]
    split
    · rename_i h
      simp [isHexDigit_hexChar n h]
    · rename_i h
      rw [List.all_append]
      rw [ih (n / 16) (Nat.div_lt_self (by omega) (by omega))]
      simp [isHexDigit_hexChar (n % 16) (Nat.mod_lt _ (by omega))]

theorem hexListVal_append (a : List Char) (c : Char) :
    hexListVal (a ++ [c]) = hexListVal a * 16 + hexVal c := by
  simp [hexListVal, List.foldl_append]

theorem hexListVal_natToHex (n : Nat) : hexListVal (natToHex n) = n := by
  induction n using Nat.strong_induction_on with
  | _ n ih =>
    rw [natToHex]
    split
    · rename_i h
      simp [hexListVal, hexVal_hexChar n h]
    · rename_i h
      rw [hexListVal_append, ih (n / 16) (Nat.div_lt_self (by omega) (by omega)),
        hexVal_hexChar (n % 16) (Nat.mod_lt _ (by omega))]
      omega

theorem natToHex_length_le (k n : Nat) (hk : 1 ≤ k) (h : n < 16 ^ k) :
    (natToHex n).length ≤ k := by
  induction k generalizing n with
  | zero => omega
  | succ k ihk =>
    rw [natToHex]
    split
    · simp
    · rename_i h16
      have hk1 : 1 ≤ k := by
        rcases Nat.eq_zero_or_pos k with hk0 | hk0
        · subst hk0; simp at h; omega
        · exact hk0
      have hdiv : n / 16 < 16 ^ k := by
        apply Nat.div_lt_of_lt_mul
        rw [pow_succ] at h
        omega
      have := ihk (n / 16) hk1 hdiv
      simp only [List.length_append, List.length_cons, List.length_nil]
      omega

theorem parseHextet_natToHex (h : Nat) (hh : h < 65536) : parseHextet (natToHex h) = some h := by
  have hne := natToHex_ne_nil h
  have hall := natToHex_all_isHexDigit h
  have hlen : (natToHex h).length ≤ 4 := natToHex_length_le 4 h (by omega) (by omega)
  have hval : hexListVal (natToHex h) = h := hexListVal_natToHex h
  unfold parseHextet
  rw [if_neg (by simp [hall]), if_neg (by omega), if_neg (by simp [hne]), hval]

theorem natToHex_zero : natToHex 0 = ['0'] := by
  rw [natToHex]
  rw [dif_pos (by omega)]
  rfl

/-! Arithmetic lemmas about blocks. -/

theorem covN_self (bits : Nat) (n : Net) : covN bits n n.addr :=
  ⟨le_refl _, Nat.lt_add_of_pos_right (pow_pos (by omega) _)⟩

theorem covN_of_netSub (bits : Nat) (m n : Net) (x : Nat) (hsub : netSub bits m n)
    (hx : covN bits m x) : covN bits n x := by
  unfold netSub at hsub
  unfold covN at *
  omega

theorem aligned_mod_le (K k x : Nat) (hkK : k ≤ K) :
    x % 2 ^ K - x % 2 ^ k + 2 ^ k ≤ 2 ^ K := by
  have hdvd : 2 ^ k ∣ 2 ^ K := pow_dvd_pow 2 hkK
  have hzy : x % 2 ^ k = (x % 2 ^ K) % 2 ^ k := (Nat.mod_mod_of_dvd x hdvd).symm
  have hylt : x % 2 ^ K < 2 ^ K := Nat.mod_lt _ (pow_pos (by omega) _)
  have hmodle : (x % 2 ^ K) % 2 ^ k ≤ x % 2 ^ K := Nat.mod_le _ _
  have hsub : x % 2 ^ K - (x % 2 ^ K) % 2 ^ k = 2 ^ k * (x % 2 ^ K / 2 ^ k) := by
    have := Nat.div_add_mod (x % 2 ^ K) (2 ^ k)
    omega
  have hq : x % 2 ^ K / 2 ^ k < 2 ^ (K - k) := by
    apply Nat.div_lt_of_lt_mul
    calc x % 2 ^ K < 2 ^ K := hylt
    _ = 2 ^ k * 2 ^ (K - k) := by rw [← pow_add, Nat.add_sub_cancel' hkK]
  have hfin : 2 ^ k * (x % 2 ^ K / 2 ^ k) + 2 ^ k ≤ 2 ^ K := by
    have h2 : 2 ^ k * (x % 2 ^ K / 2 ^ k + 1) ≤ 2 ^ k * 2 ^ (K - k) :=
      Nat.mul_le_mul_left _ hq
    have h3 : 2 ^ k * (x % 2 ^ K / 2 ^ k + 1) = 2 ^ k * (x % 2 ^ K / 2 ^ k) + 2 ^ k := by ring
    rw [← pow_add, Nat.add_sub_cancel' hkK] at h2
    omega
  omega

theorem netSub_of_mem_of_plen_le (bits : Nat) (m n : Net) (hple : n.plen ≤ m.plen)
    (hm : m.addr % 2 ^ (bits - m.plen) = 0) (hn : n.addr % 2 ^ (bits - n.plen) = 0)
    (x : Nat) (hxm : covN bits m x) (hxn : covN bits n x) : netSub bits m n := by
  obtain ⟨hm1, hm2⟩ := hxm
  obtain ⟨hn1, hn2⟩ := hxn
  have hkK : bits - m.plen ≤ bits - n.plen := Nat.sub_le_sub_left hple bits
  have hnb : x % 2 ^ (bits - n.plen) = x - n.addr := by
    obtain ⟨q, hq⟩ := Nat.dvd_of_mod_eq_zero hn
    calc x % 2 ^ (bits - n.plen)
        = (2 ^ (bits - n.plen) * q + (x - n.addr)) % 2 ^ (bits - n.plen) := by
          congr 1
          omega
    _ = x - n.addr := by rw [Nat.mul_add_mod, Nat.mod_eq_of_lt (by omega)]
  have hmb : x % 2 ^ (bits - m.plen) = x - m.addr := by
    obtain ⟨q, hq⟩ := Nat.dvd_of_mod_eq_zero hm
    calc x % 2 ^ (bits - m.plen)
        = (2 ^ (bits - m.plen) * q + (x - m.addr)) % 2 ^ (bits - m.plen) := by
          congr 1
          omega
    _ = x - m.addr := by rw [Nat.mul_add_mod, Nat.mod_eq_of_lt (by omega)]
  have hle : x % 2 ^ (bits - m.plen) ≤ x % 2 ^ (bits - n.plen) := by
    rw [← Nat.mod_mod_of_dvd x (pow_dvd_pow 2 hkK)]
    exact Nat.mod_le _ _
  have hkey := aligned_mod_le (bits - n.plen) (bits - m.plen) x hkK
  unfold netSub
  omega

theorem nested_or_disjoint (bits : Nat) (m n : Net) (hm : NetV bits m) (hn : NetV bits n) :
    netSub bits m n ∨ netSub bits n m ∨ netDisjoint bits m n := by
  by_cases hd : ∃ x, covN bits m x ∧ covN bits n x
  · obtain ⟨x, hxm, hxn⟩ := hd
    rcases le_total n.plen m.plen with hple | hple
    · exact Or.inl (netSub_of_mem_of_plen_le bits m n hple hm.2.2 hn.2.2 x hxm hxn)
    · exact Or.inr (Or.inl (netSub_of_mem_of_plen_le bits n m hple hn.2.2 hm.2.2 x hxn hxm))
  · right; right
    intro x hx
    exact hd ⟨x, hx⟩

theorem netv_plen_zero (bits : Nat) (n : Net) (hv : NetV bits n) (h0 : n.plen = 0) :
    n = { addr := 0, plen := 0 } := by
  obtain ⟨h1, h2, h3⟩ := hv
  cases n with
  | mk a p =>
    simp only at h0
    subst h0
    simp only [Nat.sub_zero] at h2
    simp only [Net.mk.injEq, and_true]
    omega

theorem supernet_valid (bits : Nat) (n : Net) (hv : NetV bits n) :
    NetV bits (supernet bits n) := by
  unfold supernet
  split
  · exact hv
  · rename_i hp
    obtain ⟨h1, h2, h3⟩ := hv
    have hble : bits - (n.plen - 1) = (bits - n.plen) + 1 := by omega
    have hpos : 0 < 2 ^ (bits - n.plen) := pow_pos (by omega) _
    have halt : n.addr < 2 ^ bits := by omega
    have hdm := Nat.div_add_mod n.addr (2 ^ (bits - (n.plen - 1)))
    have heq : n.addr - n.addr % 2 ^ (bits - (n.plen - 1)) =
        2 ^ (bits - (n.plen - 1)) * (n.addr / 2 ^ (bits - (n.plen - 1))) := by omega
    have hsplit : 2 ^ (bits - (n.plen - 1)) * 2 ^ (n.plen - 1) = 2 ^ bits := by
      rw [← pow_add, Nat.sub_add_cancel (by omega)]
    have hq : n.addr / 2 ^ (bits - (n.plen - 1)) < 2 ^ (n.plen - 1) := by
      apply Nat.div_lt_of_lt_mul
      rw [hsplit]
      exact halt
    have hq2 : n.addr / 2 ^ (bits - (n.plen - 1)) + 1 ≤ 2 ^ (n.plen - 1) := hq
    have hstep : 2 ^ (bits - (n.plen - 1)) * (n.addr / 2 ^ (bits - (n.plen - 1))) +
        2 ^ (bits - (n.plen - 1)) ≤ 2 ^ bits := by
      have h4 : 2 ^ (bits - (n.plen - 1)) * (n.addr / 2 ^ (bits - (n.plen - 1)) + 1) ≤
          2 ^ (bits - (n.plen - 1)) * 2 ^ (n.plen - 1) := Nat.mul_le_mul_left _ hq2
      have h5 : 2 ^ (bits - (n.plen - 1)) * (n.addr / 2 ^ (bits - (n.plen - 1)) + 1) =
          2 ^ (bits - (n.plen - 1)) * (n.addr / 2 ^ (bits - (n.plen - 1))) +
          2 ^ (bits - (n.plen - 1)) := by ring
      omega
    refine ⟨?_, ?_, ?_⟩
    · show n.plen - 1 ≤ bits
      omega
    · show n.addr - n.addr % 2 ^ (bits - (n.plen - 1)) + 2 ^ (bits - (n.plen - 1)) ≤ 2 ^ bits
      omega
    · show (n.addr - n.addr % 2 ^ (bits - (n.plen - 1))) % 2 ^ (bits - (n.plen - 1)) = 0
      rw [heq, Nat.mul_mod_right]

theorem mod_double_cases (m r : Nat) (hm : 0 < m) (hdvd : m ∣ r) (hlt : r < 2 * m) :
    r = 0 ∨ r = m := by
  obtain ⟨t, ht⟩ := hdvd
  subst ht
  have : t < 2 := by
    by_contra hc
    push_neg at hc
    have := Nat.mul_le_mul_left m hc
    omega
  interval_cases t <;> omega

theorem covN_supernet (bits : Nat) (n : Net) (hv : NetV bits n) (x : Nat)
    (hx : covN bits n x) : covN bits (supernet bits n) x := by
  unfold supernet
  split
  · exact hx
  · rename_i hp
    obtain ⟨h1, h2, h3⟩ := hv
    obtain ⟨hx1, hx2⟩ := hx
    have hble : bits - (n.plen - 1) = (bits - n.plen) + 1 := by omega
    have hM2 : 2 ^ (bits - (n.plen - 1)) = 2 * 2 ^ (bits - n.plen) := by
      rw [hble, pow_succ]
      omega
    have hmodlt : n.addr % 2 ^ (bits - (n.plen - 1)) < 2 ^ (bits - (n.plen - 1)) :=
      Nat.mod_lt _ (pow_pos (by omega) _)
    have hdvdmod : 2 ^ (bits - n.plen) ∣ n.addr % 2 ^ (bits - (n.plen - 1)) := by
      apply Nat.dvd_of_mod_eq_zero
      rw [Nat.mod_mod_of_dvd]
      · exact h3
      · rw [hM2]
        exact ⟨2, by ring⟩
    have := mod_double_cases (2 ^ (bits - n.plen)) (n.addr % 2 ^ (bits - (n.plen - 1)))
      (pow_pos (by omega) _) hdvdmod (by omega)
    have hsle : n.addr % 2 ^ (bits - (n.plen - 1)) ≤ n.addr := Nat.mod_le _ _
    unfold covN
    simp only
    omega

theorem same_supernet_halves (bits : Nat) (u v : Net) (hu : NetV bits u) (hv : NetV bits v)
    (hne : u ≠ v) (hsup : supernet bits u = supernet bits v) (x : Nat) :
    covN bits (supernet bits u) x ↔ (covN bits u x ∨ covN bits v x) := by
  rcases Nat.eq_zero_or_pos u.plen with hup | hup
  · -- u is the whole address space, so is its supernet
    have hu0 : u = { addr := 0, plen := 0 } := netv_plen_zero bits u hu hup
    have hsu : supernet bits u = u := by rw [supernet, if_pos hup]
    constructor
    · intro h
      rw [hsu] at h
      exact Or.inl h
    · rintro (h | h)
      · rw [hsu]
        exact h
      · rw [hsu, hu0]
        obtain ⟨hx1, hx2⟩ := h
        exact ⟨Nat.zero_le x, by have := hv.2.1; simp only [Nat.sub_zero]; omega⟩
  · rcases Nat.eq_zero_or_pos v.plen with hvp | hvp
    · have hv0 : v = { addr := 0, plen := 0 } := netv_plen_zero bits v hv hvp
      have hsv : supernet bits v = v := by rw [supernet, if_pos hvp]
      rw [hsup, hsv]
      constructor
      · intro h
        exact Or.inr h
      · rintro (h | h)
        · rw [hv0]
          obtain ⟨hx1, hx2⟩ := h
          exact ⟨Nat.zero_le x, by have := hu.2.1; simp only [Nat.sub_zero]; omega⟩
        · exact h
    · -- both proper: they are the two halves of the common parent
      have hsu : supernet bits u =
          { addr := u.addr - u.addr % 2 ^ (bits - (u.plen - 1)), plen := u.plen - 1 } := by
        rw [supernet, if_neg (by omega)]
      have hsv : supernet bits v =
          { addr := v.addr - v.addr % 2 ^ (bits - (v.plen - 1)), plen := v.plen - 1 } := by
        rw [supernet, if_neg (by omega)]
      rw [hsu, hsv] at hsup
      have hpeq : u.plen = v.plen := by
        have h2 := congrArg Net.plen hsup
        simp only at h2
        omega
      obtain ⟨hu1, hu2, hu3⟩ := hu
      obtain ⟨hv1, hv2, hv3⟩ := hv
      have hble : bits - (u.plen - 1) = (bits - u.plen) + 1 := by omega
      have hM2 : 2 ^ (bits - (u.plen - 1)) = 2 * 2 ^ (bits - u.plen) := by
        rw [hble, pow_succ]
        omega
      have hMv2 : 2 ^ (bits - (v.plen - 1)) = 2 * 2 ^ (bits - v.plen) := by
        rw [← hpeq]
        exact hM2
      have haddr : u.addr - u.addr % 2 ^ (bits - (u.plen - 1)) =
          v.addr - v.addr % 2 ^ (bits - (v.plen - 1)) := by
        have h2 := congrArg Net.addr hsup
        simpa using h2
      have hru : 2 ^ (bits - u.plen) ∣ u.addr % 2 ^ (bits - (u.plen - 1)) := by
        apply Nat.dvd_of_mod_eq_zero
        rw [Nat.mod_mod_of_dvd]
        · exact hu3
        · rw [hM2]
          exact ⟨2, by ring⟩
      have hrv : 2 ^ (bits - v.plen) ∣ v.addr % 2 ^ (bits - (v.plen - 1)) := by
        apply Nat.dvd_of_mod_eq_zero
        rw [Nat.mod_mod_of_dvd]
        · exact hv3
        · rw [hMv2]
          exact ⟨2, by ring⟩
      have hrulr := mod_double_cases (2 ^ (bits - u.plen)) (u.addr % 2 ^ (bits - (u.plen - 1)))
        (pow_pos (by omega) _) hru
        (by
          have := Nat.mod_lt u.addr
            (show 0 < 2 ^ (bits - (u.plen - 1)) from pow_pos (by omega) _)
          omega)
      have hrvlr := mod_double_cases (2 ^ (bits - v.plen)) (v.addr % 2 ^ (bits - (v.plen - 1)))
        (pow_pos (by omega) _) hrv
        (by
          have := Nat.mod_lt v.addr
            (show 0 < 2 ^ (bits - (v.plen - 1)) from pow_pos (by omega) _)
          omega)
      have hneq : u.addr ≠ v.addr := by
        intro hEq
        apply hne
        cases u with
        | mk ua up =>
          cases v with
          | mk va vp => simp_all
      have huu : u.addr % 2 ^ (bits - (u.plen - 1)) ≤ u.addr := Nat.mod_le _ _
      have hvv : v.addr % 2 ^ (bits - (v.plen - 1)) ≤ v.addr := Nat.mod_le _ _
      have hsz : 2 ^ (bits - v.plen) = 2 ^ (bits - u.plen) := by rw [hpeq]
      rw [hsu]
      unfold covN
      simp only
      omega

/-! Validity bounds for parsed networks. -/

theorem hexVal_lt (c : Char) (h : isHexDigit c = true) : hexVal c < 16 := by
  unfold isHexDigit isDec at h
  simp only [Bool.or_eq_true, Bool.and_eq_true, decide_eq_true_eq] at h
  unfold hexVal decVal
  split
  · rename_i hc
    unfold isDec at hc
    simp only [Bool.and_eq_true, decide_eq_true_eq] at hc
    omega
  · rename_i hc
    split
    · rename_i hc2
      simp only [Bool.and_eq_true, decide_eq_true_eq] at hc2
      omega
    · rename_i hc2
      unfold isDec at hc
      simp only [Bool.and_eq_true, decide_eq_true_eq, not_and, not_le] at hc hc2
      omega

theorem hexListVal_aux_lt (cs : List Char) (hall : ∀ c ∈ cs, isHexDigit c = true) (acc : Nat) :
    cs.foldl (fun a c => a * 16 + hexVal c) acc < (acc + 1) * 16 ^ cs.length := by
  induction cs generalizing acc with
  | nil =>
    simp only [List.foldl_nil, List.length_nil, pow_zero, mul_one]
    omega
  | cons c rest ih =>
    simp only [List.foldl_cons, List.length_cons]
    have h1 := ih (fun d hd => hall d (List.mem_cons.mpr (Or.inr hd))) (acc * 16 + hexVal c)
    have h2 : hexVal c < 16 := hexVal_lt c (hall c (List.mem_cons_self c rest))
    have h3 : acc * 16 + hexVal c + 1 ≤ (acc + 1) * 16 := by omega
    have h4 : (acc * 16 + hexVal c + 1) * 16 ^ rest.length ≤ (acc + 1) * 16 * 16 ^ rest.length :=
      Nat.mul_le_mul_right _ h3
    have h5 : (acc + 1) * 16 * 16 ^ rest.length = (acc + 1) * 16 ^ (rest.length + 1) := by
      rw [pow_succ]
      ring
    omega

theorem parseHextet_lt (cs : List Char) (v : Nat) (h : parseHextet cs = some v) : v < 2 ^ 16 := by
  unfold parseHextet at h
  by_cases h1 : (!cs.all isHexDigit) = true
  · rw [if_pos h1] at h
    exact Option.noConfusion h
  · rw [if_neg h1] at h
    by_cases h2 : cs.length > 4
    · rw [if_pos h2] at h
      exact Option.noConfusion h
    · rw [if_neg h2] at h
      by_cases h3 : cs.isEmpty = true
      · rw [if_pos h3] at h
        exact Option.noConfusion h
      · rw [if_neg h3] at h
        injection h with h
        subst h
        have hall2 : ∀ c ∈ cs, isHexDigit c = true := by
          simpa using h1
        have hb := hexListVal_aux_lt cs hall2 0
        have hle : 16 ^ cs.length ≤ 16 ^ 4 := Nat.pow_le_pow_right (by omega) (by omega)
        unfold hexListVal
        have h4 : (16 : Nat) ^ 4 = 2 ^ 16 := by norm_num
        omega

theorem foldHextets_bound (ps : List (List Char)) (acc v : Nat)
    (h : foldHextets ps acc = some v) : v < (acc + 1) * 2 ^ (16 * ps.length) := by
  induction ps generalizing acc with
  | nil =>
    unfold foldHextets at h
    injection h with h
    subst h
    simp only [List.length_nil, Nat.mul_zero, pow_zero]
    omega
  | cons p rest ih =>
    unfold foldHextets at h
    cases hp : parseHextet p with
    | none => rw [hp] at h; exact Option.noConfusion h
    | some hx =>
      rw [hp] at h
      have hhx : hx < 2 ^ 16 := parseHextet_lt p hx hp
      have h1 := ih (acc * 2 ^ 16 + hx) h
      have h3 : acc * 2 ^ 16 + hx + 1 ≤ (acc + 1) * 2 ^ 16 := by omega
      have h4 : (acc * 2 ^ 16 + hx + 1) * 2 ^ (16 * rest.length) ≤
          (acc + 1) * 2 ^ 16 * 2 ^ (16 * rest.length) := Nat.mul_le_mul_right _ h3
      have h5 : (acc + 1) * 2 ^ 16 * 2 ^ (16 * rest.length) =
          (acc + 1) * 2 ^ (16 * (rest.length + 1)) := by
        rw [mul_assoc, ← pow_add]
        have h6 : 16 + 16 * rest.length = 16 * (rest.length + 1) := by ring
        rw [h6]
      simp only [List.length_cons]
      omega

theorem parseOctet_le (cs : List Char) (b : Nat) (h : parseOctet cs = some b) : b ≤ 255 := by
  unfold parseOctet at h
  split at h
  · exact Option.noConfusion h
  · split at h
    · exact Option.noConfusion h
    · split at h
      · exact Option.noConfusion h
      · split at h
        · exact Option.noConfusion h
        · split at h
          · exact Option.noConfusion h
          · injection h with h
            subst h
            rename_i hv
            omega

theorem parseIPv4Int_lt (cs : List Char) (v : Nat) (h : parseIPv4Int cs = some v) :
    v < 2 ^ 32 := by
  unfold parseIPv4Int at h
  split at h
  · exact Option.noConfusion h
  · split at h
    · rename_i o1 o2 o3 o4 heq
      cases h1 : parseOctet o1 with
      | none =>
        simp only [h1] at h
        exact Option.noConfusion h
      | some b1 =>
        cases h2 : parseOctet o2 with
        | none =>
          simp only [h1, h2] at h
          exact Option.noConfusion h
        | some b2 =>
          cases h3 : parseOctet o3 with
          | none =>
            simp only [h1, h2, h3] at h
            exact Option.noConfusion h
          | some b3 =>
            cases h4 : parseOctet o4 with
            | none =>
              simp only [h1, h2, h3, h4] at h
              exact Option.noConfusion h
            | some b4 =>
              simp only [h1, h2, h3, h4, Option.some.injEq] at h
              subst h
              have hb1 := parseOctet_le o1 b1 h1
              have hb2 := parseOctet_le o2 b2 h2
              have hb3 := parseOctet_le o3 b3 h3
              have hb4 := parseOctet_le o4 b4 h4
              have : (2 : Nat) ^ 32 = 4294967296 := by norm_num
              omega
    · exact Option.noConfusion h

theorem parsePlenStr_le (bits : Nat) (cs : List Char) (p : Nat)
    (h : parsePlenStr bits cs = some p) : p ≤ bits := by
  unfold parsePlenStr at h
  split at h
  · exact Option.noConfusion h
  · split at h
    · exact Option.noConfusion h
    · split at h
      · injection h with h
        subst h
        rename_i hle
        exact hle
      · exact Option.noConfusion h

theorem plenFromIpInt_le (bits ip p : Nat) (h : plenFromIpInt bits ip = some p) : p ≤ bits := by
  simp only [plenFromIpInt] at h
  split at h
  · injection h with h
    omega
  · exact Option.noConfusion h

theorem v4MaskToPlen_le (cs : List Char) (p : Nat) (h : v4MaskToPlen cs = some p) : p ≤ 32 := by
  unfold v4MaskToPlen at h
  cases h1 : parsePlenStr 32 cs with
  | some q =>
    simp only [h1] at h
    injection h with h
    subst h
    exact parsePlenStr_le 32 cs q h1
  | none =>
    simp only [h1] at h
    cases h2 : parseIPv4Int cs with
    | none =>
      simp only [h2] at h
      exact Option.noConfusion h
    | some ip =>
      simp only [h2] at h
      cases h3 : plenFromIpInt 32 ip with
      | some q =>
        simp only [h3] at h
        injection h with h
        subst h
        exact plenFromIpInt_le 32 ip q h3
      | none =>
        simp only [h3] at h
        exact plenFromIpInt_le 32 _ p h

theorem masked_netv (bits ip p : Nat) (hip : ip < 2 ^ bits) (hp : p ≤ bits) :
    NetV bits { addr := ip - ip % 2 ^ (bits - p), plen := p } := by
  have hpos : 0 < 2 ^ (bits - p) := pow_pos (by omega) _
  have hdm := Nat.div_add_mod ip (2 ^ (bits - p))
  have heq : ip - ip % 2 ^ (bits - p) = 2 ^ (bits - p) * (ip / 2 ^ (bits - p)) := by omega
  have hsplit : 2 ^ (bits - p) * 2 ^ p = 2 ^ bits := by
    rw [← pow_add, Nat.sub_add_cancel hp]
  have hq : ip / 2 ^ (bits - p) < 2 ^ p := by
    apply Nat.div_lt_of_lt_mul
    rw [hsplit]
    exact hip
  have hq2 : ip / 2 ^ (bits - p) + 1 ≤ 2 ^ p := hq
  have h4 : 2 ^ (bits - p) * (ip / 2 ^ (bits - p) + 1) ≤ 2 ^ (bits - p) * 2 ^ p :=
    Nat.mul_le_mul_left _ hq2
  have h5 : 2 ^ (bits - p) * (ip / 2 ^ (bits - p) + 1) =
      2 ^ (bits - p) * (ip / 2 ^ (bits - p)) + 2 ^ (bits - p) := by ring
  refine ⟨hp, ?_, ?_⟩
  · show ip - ip % 2 ^ (bits - p) + 2 ^ (bits - p) ≤ 2 ^ bits
    omega
  · show (ip - ip % 2 ^ (bits - p)) % 2 ^ (bits - p) = 0
    rw [heq, Nat.mul_mod_right]

theorem full_netv (bits ip : Nat) (hip : ip < 2 ^ bits) :
    NetV bits { addr := ip, plen := bits } := by
  refine ⟨le_refl _, ?_, ?_⟩
  · show ip + 2 ^ (bits - bits) ≤ 2 ^ bits
    simp only [Nat.sub_self, pow_zero]
    omega
  · show ip % 2 ^ (bits - bits) = 0
    simp [Nat.sub_self, Nat.mod_one]

theorem parseV4Network_valid (cs : List Char) (n : Net) (h : parseV4Network cs = some n) :
    NetV 32 n := by
  unfold parseV4Network at h
  split at h
  · rename_i a heq
    cases h1 : parseIPv4Int a with
    | none =>
      rw [h1] at h
      exact Option.noConfusion h
    | some ip =>
      rw [h1] at h
      simp only [Option.map_some', Option.some.injEq] at h
      subst h
      exact full_netv 32 ip (parseIPv4Int_lt a ip h1)
  · rename_i a m heq
    cases h1 : parseIPv4Int a with
    | none =>
      simp only [h1] at h
      exact Option.noConfusion h
    | some ip =>
      cases h2 : v4MaskToPlen m with
      | none =>
        simp only [h1, h2] at h
        exact Option.noConfusion h
      | some p =>
        simp only [h1, h2, Option.some.injEq] at h
        subst h
        exact masked_netv 32 ip p (parseIPv4Int_lt a ip h1) (v4MaskToPlen_le m p h2)
  · exact Option.noConfusion h

theorem parseV6WithSkip_lt (parts : List (List Char)) (i v : Nat)
    (h : parseV6WithSkip parts i = some v) : v < 2 ^ 128 := by
  unfold parseV6WithSkip at h
  split at h
  · exact Option.noConfusion h
  · split at h
    · exact Option.noConfusion h
    · split at h
      · exact Option.noConfusion h
      · split at h
        · exact Option.noConfusion h
        · rename_i h1 h2 h3 h4
          cases hf : foldHextets (parts.take (v6Hi parts i)) 0 with
          | none => rw [hf] at h; exact Option.noConfusion h
          | some hiVal =>
            rw [hf] at h
            have hhiLen : (parts.take (v6Hi parts i)).length ≤ v6Hi parts i := by
              simp [List.length_take]
            have hloLen : (parts.drop (parts.length - v6Lo parts i)).length ≤ v6Lo parts i := by
              simp only [List.length_drop]
              omega
            have hhiB := foldHextets_bound _ 0 hiVal hf
            have hhiB2 : hiVal < 2 ^ (16 * v6Hi parts i) := by
              have hmono : 2 ^ (16 * (parts.take (v6Hi parts i)).length) ≤
                  2 ^ (16 * v6Hi parts i) := Nat.pow_le_pow_right (by omega) (by omega)
              omega
            have hloB := foldHextets_bound _ _ v h
            have hvB : v < (hiVal * 2 ^ (16 * (8 - (v6Hi parts i + v6Lo parts i))) + 1) *
                2 ^ (16 * v6Lo parts i) := by
              have hmono : 2 ^ (16 * (parts.drop (parts.length - v6Lo parts i)).length) ≤
                  2 ^ (16 * v6Lo parts i) := Nat.pow_le_pow_right (by omega) (by omega)
              have := Nat.mul_le_mul_left
                (hiVal * 2 ^ (16 * (8 - (v6Hi parts i + v6Lo parts i))) + 1) hmono
              omega
            have hchain1 : hiVal * 2 ^ (16 * (8 - (v6Hi parts i + v6Lo parts i))) + 1 ≤
                2 ^ (16 * v6Hi parts i) * 2 ^ (16 * (8 - (v6Hi parts i + v6Lo parts i))) := by
              have hp : 0 < 2 ^ (16 * (8 - (v6Hi parts i + v6Lo parts i))) :=
                pow_pos (by omega) _
              have hm : (hiVal + 1) * 2 ^ (16 * (8 - (v6Hi parts i + v6Lo parts i))) ≤
                  2 ^ (16 * v6Hi parts i) * 2 ^ (16 * (8 - (v6Hi parts i + v6Lo parts i))) :=
                Nat.mul_le_mul_right _ (by omega)
              have hd : (hiVal + 1) * 2 ^ (16 * (8 - (v6Hi parts i + v6Lo parts i))) =
                  hiVal * 2 ^ (16 * (8 - (v6Hi parts i + v6Lo parts i))) +
                  2 ^ (16 * (8 - (v6Hi parts i + v6Lo parts i))) := by ring
              omega
            have hchain2 : (hiVal * 2 ^ (16 * (8 - (v6Hi parts i + v6Lo parts i))) + 1) *
                2 ^ (16 * v6Lo parts i) ≤
                2 ^ (16 * v6Hi parts i) * 2 ^ (16 * (8 - (v6Hi parts i + v6Lo parts i))) *
                2 ^ (16 * v6Lo parts i) := Nat.mul_le_mul_right _ hchain1
            have hfinal : 2 ^ (16 * v6Hi parts i) *
                2 ^ (16 * (8 - (v6Hi parts i + v6Lo parts i))) * 2 ^ (16 * v6Lo parts i) =
                2 ^ 128 := by
              rw [← pow_add, ← pow_add]
              congr 1
              omega
            omega

theorem parseV6Parts_lt (parts : List (List Char)) (v : Nat)
    (h : parseV6Parts parts = some v) : v < 2 ^ 128 := by
  unfold parseV6Parts at h
  split at h
  · exact Option.noConfusion h
  · split at h
    · exact Option.noConfusion h
    · rename_i hlen hskip
      split at h
      · exact Option.noConfusion h
      · split at h
        · exact Option.noConfusion h
        · split at h
          · exact Option.noConfusion h
          · rename_i h8 hh hl
            have := foldHextets_bound parts 0 v h
            have hlen8 : parts.length = 8 := by omega
            rw [hlen8] at this
            simpa using this
    · rename_i i hi
      exact parseV6WithSkip_lt parts i v h

theorem parseIPv6Int_lt (cs : List Char) (v : Nat) (h : parseIPv6Int cs = some v) :
    v < 2 ^ 128 := by
  unfold parseIPv6Int at h
  split at h
  · exact Option.noConfusion h
  · split at h
    · exact Option.noConfusion h
    · split at h
      · exact Option.noConfusion h
      · rename_i parts hparts
        exact parseV6Parts_lt parts v h

theorem parseV6Network_valid (cs : List Char) (n : Net) (h : parseV6Network cs = some n) :
    NetV 128 n := by
  unfold parseV6Network at h
  split at h
  · rename_i a heq
    cases h1 : parseIPv6Int a with
    | none =>
      rw [h1] at h
      exact Option.noConfusion h
    | some ip =>
      rw [h1] at h
      simp only [Option.map_some', Option.some.injEq] at h
      subst h
      exact full_netv 128 ip (parseIPv6Int_lt a ip h1)
  · rename_i a m heq
    cases h1 : parseIPv6Int a with
    | none =>
      simp only [h1] at h
      exact Option.noConfusion h
    | some ip =>
      cases h2 : parsePlenStr 128 m with
      | none =>
        simp only [h1, h2] at h
        exact Option.noConfusion h
      | some p =>
        simp only [h1, h2, Option.some.injEq] at h
        subst h
        exact masked_netv 128 ip p (parseIPv6Int_lt a ip h1) (parsePlenStr_le 128 m p h2)
  · exact Option.noConfusion h

theorem ipNetworkOfChars_v4_valid (cs : List Char) (n : Net)
    (h : ipNetworkOfChars cs = some (.v4 n)) : NetV 32 n := by
  unfold ipNetworkOfChars at h
  split at h
  · rename_i m hm
    injection h with h
    injection h with h
    subst h
    exact parseV4Network_valid cs _ hm
  · simp only [Option.map_eq_some'] at h
    obtain ⟨m, hm1, hm2⟩ := h
    exact IPNet.noConfusion hm2

theorem ipNetworkOfChars_v6_valid (cs : List Char) (n : Net)
    (h : ipNetworkOfChars cs = some (.v6 n)) : NetV 128 n := by
  unfold ipNetworkOfChars at h
  split at h
  · rename_i m hm
    injection h with h
    exact IPNet.noConfusion h
  · simp only [Option.map_eq_some'] at h
    obtain ⟨m, hm1, hm2⟩ := h
    injection hm2 with hm2
    subst hm2
    exact parseV6Network_valid cs m hm1

/-! Coverage of `summarize_address_range` and `find_address_range`. -/

theorem covL_nil (bits : Nat) (x : Nat) : ¬covL bits [] x := by
  rintro ⟨n, hn, _⟩
  simp at hn

theorem covL_cons (bits : Nat) (n : Net) (l : List Net) (x : Nat) :
    covL bits (n :: l) x ↔ covN bits n x ∨ covL bits l x := by
  unfold covL
  constructor
  · rintro ⟨m, hm, hc⟩
    rcases List.mem_cons.mp hm with hm | hm
    · subst hm
      exact Or.inl hc
    · exact Or.inr ⟨m, hm, hc⟩
  · rintro (hc | ⟨m, hm, hc⟩)
    · exact ⟨n, List.mem_cons_self n l, hc⟩
    · exact ⟨m, List.mem_cons.mpr (Or.inr hm), hc⟩

theorem covL_append (bits : Nat) (l1 l2 : List Net) (x : Nat) :
    covL bits (l1 ++ l2) x ↔ covL bits l1 x ∨ covL bits l2 x := by
  unfold covL
  constructor
  · rintro ⟨n, hn, hc⟩
    rcases List.mem_append.mp hn with h | h
    · exact Or.inl ⟨n, h, hc⟩
    · exact Or.inr ⟨n, h, hc⟩
  · rintro (⟨n, hn, hc⟩ | ⟨n, hn, hc⟩)
    · exact ⟨n, List.mem_append.mpr (Or.inl hn), hc⟩
    · exact ⟨n, List.mem_append.mpr (Or.inr hn), hc⟩

theorem tzNat_dvd (n : Nat) : 2 ^ tzNat n ∣ n := by
  induction n using Nat.strong_induction_on with
  | _ n ih =>
    rw [tzNat]
    split
    · rename_i h0
      subst h0
      simp
    · split
      · simp
      · rename_i h0 hodd
        have hrec := ih (n / 2) (Nat.div_lt_self (by omega) (by omega))
        obtain ⟨q, hq⟩ := hrec
        refine ⟨q, ?_⟩
        rw [pow_succ]
        calc n = 2 * (n / 2) := by omega
        _ = 2 * (2 ^ tzNat (n / 2) * q) := by rw [← hq]
        _ = 2 ^ tzNat (n / 2) * 2 * q := by ring

theorem crz_le (number bits : Nat) : countRighthandZeroBits number bits ≤ bits := by
  unfold countRighthandZeroBits
  split
  · omega
  · exact min_le_left _ _

theorem crz_dvd (number bits : Nat) : 2 ^ countRighthandZeroBits number bits ∣ number := by
  unfold countRighthandZeroBits
  split
  · rename_i h
    subst h
    exact dvd_zero _
  · exact dvd_trans (pow_dvd_pow 2 (min_le_right _ _)) (tzNat_dvd number)

theorem rangeNbits_le_bits (bits first lastA : Nat) : rangeNbits bits first lastA ≤ bits :=
  le_trans (min_le_left _ _) (crz_le first bits)

theorem rangeNbits_dvd (bits first lastA : Nat) : 2 ^ rangeNbits bits first lastA ∣ first :=
  dvd_trans (pow_dvd_pow 2 (min_le_left _ _)) (crz_dvd first bits)

theorem rangeNbits_size (bits first lastA : Nat) (h : first ≤ lastA) :
    2 ^ rangeNbits bits first lastA ≤ lastA - first + 1 := by
  have h1 : rangeNbits bits first lastA ≤ Nat.log 2 (lastA - first + 1) := min_le_right _ _
  calc 2 ^ rangeNbits bits first lastA
      ≤ 2 ^ Nat.log 2 (lastA - first + 1) := Nat.pow_le_pow_right (by omega) h1
  _ ≤ lastA - first + 1 := Nat.pow_log_le_self 2 (by omega)

theorem summarize_address_range_spec (bits first lastA : Nat) (hlast : lastA < 2 ^ bits) :
    (∀ n ∈ summarize_address_range bits first lastA, NetV bits n) ∧
    (∀ x, covL bits (summarize_address_range bits first lastA) x ↔ first ≤ x ∧ x ≤ lastA) := by
  have H : ∀ (k fst : Nat), lastA + 1 - fst ≤ k →
      (∀ n ∈ summarize_address_range bits fst lastA, NetV bits n) ∧
      (∀ x, covL bits (summarize_address_range bits fst lastA) x ↔ fst ≤ x ∧ x ≤ lastA) := by
    intro k
    induction k with
    | zero =>
      intro fst hk
      rw [summarize_address_range]
      rw [dif_neg (by omega)]
      refine ⟨by intro n hn; simp at hn, ?_⟩
      intro x
      constructor
      · intro hc
        exact absurd hc (covL_nil bits x)
      · intro hx
        omega
    | succ k ihk =>
      intro fst hk
      rw [summarize_address_range]
      split
      · rename_i h
        have hb := rangeNbits_le_bits bits fst lastA
        have hdvd := rangeNbits_dvd bits fst lastA
        have hsz := rangeNbits_size bits fst lastA h
        have hpos : 0 < 2 ^ rangeNbits bits fst lastA := pow_pos (by omega) _
        have hexp : bits - (bits - rangeNbits bits fst lastA) = rangeNbits bits fst lastA := by
          omega
        have hmod : fst % 2 ^ rangeNbits bits fst lastA = 0 := by
          obtain ⟨c, hc⟩ := hdvd
          calc fst % 2 ^ rangeNbits bits fst lastA
              = 2 ^ rangeNbits bits fst lastA * c % 2 ^ rangeNbits bits fst lastA :=
                congrArg (fun t => t % 2 ^ rangeNbits bits fst lastA) hc
          _ = 0 := Nat.mul_mod_right _ _
        have hrec := ihk (fst + 2 ^ rangeNbits bits fst lastA) (by omega)
        constructor
        · intro n hn
          rcases List.mem_cons.mp hn with hn | hn
          · subst hn
            refine ⟨?_, ?_, ?_⟩
            · show bits - rangeNbits bits fst lastA ≤ bits
              omega
            · show fst + 2 ^ (bits - (bits - rangeNbits bits fst lastA)) ≤ 2 ^ bits
              rw [hexp]
              omega
            · show fst % 2 ^ (bits - (bits - rangeNbits bits fst lastA)) = 0
              rw [hexp]
              exact hmod
          · exact hrec.1 n hn
        · intro x
          rw [covL_cons]
          have hcov : covN bits { addr := fst, plen := bits - rangeNbits bits fst lastA } x ↔
              fst ≤ x ∧ x < fst + 2 ^ rangeNbits bits fst lastA := by
            unfold covN
            simp only
            rw [hexp]
          rw [hcov, hrec.2 x]
          omega
      · rename_i h
        refine ⟨by intro n hn; simp at hn, ?_⟩
        intro x
        constructor
        · intro hc
          exact absurd hc (covL_nil bits x)
        · intro hx
          omega
  exact H (lastA + 1) first (by omega)

theorem findRangesAux_spec (l : List Nat) (first lastA : Nat) (hfl : first ≤ lastA) :
    (∀ p ∈ findRangesAux first lastA l, p.1 ≤ p.2 ∧ (p.2 = lastA ∨ p.2 ∈ l)) ∧
    (∀ x, (∃ p ∈ findRangesAux first lastA l, p.1 ≤ x ∧ x ≤ p.2) ↔
      (first ≤ x ∧ x ≤ lastA) ∨ x ∈ l) := by
  induction l generalizing first lastA with
  | nil =>
    constructor
    · intro p hp
      simp only [findRangesAux, List.mem_singleton] at hp
      subst hp
      exact ⟨hfl, Or.inl rfl⟩
    · intro x
      simp only [findRangesAux, List.mem_singleton, List.not_mem_nil, or_false]
      constructor
      · rintro ⟨p, hp, h1, h2⟩
        subst hp
        exact ⟨h1, h2⟩
      · rintro ⟨h1, h2⟩
        exact ⟨(first, lastA), rfl, h1, h2⟩
  | cons ip rest ih =>
    by_cases hc : ip = lastA + 1
    · have ih2 := ih first ip (by omega)
      constructor
      · intro p hp
        rw [findRangesAux, if_pos hc] at hp
        obtain ⟨hle, hmem⟩ := ih2.1 p hp
        refine ⟨hle, ?_⟩
        rcases hmem with h | h
        · exact Or.inr (h ▸ List.mem_cons_self ip rest)
        · exact Or.inr (List.mem_cons.mpr (Or.inr h))
      · intro x
        rw [findRangesAux, if_pos hc, ih2.2 x]
        simp only [List.mem_cons]
        constructor
        · rintro (⟨h1, h2⟩ | h)
          · rcases Nat.lt_or_ge x (lastA + 1) with h3 | h3
            · exact Or.inl ⟨h1, by omega⟩
            · exact Or.inr (Or.inl (by omega))
          · exact Or.inr (Or.inr h)
        · rintro (⟨h1, h2⟩ | h | h)
          · exact Or.inl ⟨h1, by omega⟩
          · exact Or.inl (by omega)
          · exact Or.inr h
    · have ih2 := ih ip ip (le_refl ip)
      constructor
      · intro p hp
        rw [findRangesAux, if_neg hc] at hp
        rcases List.mem_cons.mp hp with hp | hp
        · subst hp
          exact ⟨hfl, Or.inl rfl⟩
        · obtain ⟨hle, hmem⟩ := ih2.1 p hp
          refine ⟨hle, ?_⟩
          rcases hmem with h | h
          · exact Or.inr (h ▸ List.mem_cons_self ip rest)
          · exact Or.inr (List.mem_cons.mpr (Or.inr h))
      · intro x
        rw [findRangesAux, if_neg hc]
        constructor
        · rintro ⟨p, hp, h1, h2⟩
          rcases List.mem_cons.mp hp with hp2 | hp2
          · subst hp2
            exact Or.inl ⟨h1, h2⟩
          · have h3 := (ih2.2 x).mp ⟨p, hp2, h1, h2⟩
            rcases h3 with ⟨ha, hb⟩ | hmem
            · refine Or.inr ?_
              have hxip : x = ip := by omega
              exact hxip ▸ List.mem_cons_self ip rest
            · exact Or.inr (List.mem_cons.mpr (Or.inr hmem))
        · rintro (⟨h1, h2⟩ | hmem)
          · exact ⟨(first, lastA), List.mem_cons_self _ _, h1, h2⟩
          · rcases List.mem_cons.mp hmem with h | h
            · obtain ⟨p, hp, hh⟩ := (ih2.2 x).mpr (Or.inl ⟨by omega, by omega⟩)
              exact ⟨p, List.mem_cons.mpr (Or.inr hp), hh⟩
            · obtain ⟨p, hp, hh⟩ := (ih2.2 x).mpr (Or.inr h)
              exact ⟨p, List.mem_cons.mpr (Or.inr hp), hh⟩

theorem find_address_range_spec (l : List Nat) :
    (∀ p ∈ find_address_range l, p.1 ≤ p.2 ∧ p.2 ∈ l) ∧
    (∀ x, (∃ p ∈ find_address_range l, p.1 ≤ x ∧ x ≤ p.2) ↔ x ∈ l) := by
  cases l with
  | nil =>
    constructor
    · intro p hp
      simp [find_address_range] at hp
    · intro x
      simp [find_address_range]
  | cons ip rest =>
    have h := findRangesAux_spec rest ip ip (le_refl ip)
    unfold find_address_range
    constructor
    · intro p hp
      obtain ⟨h1, h2⟩ := h.1 p hp
      refine ⟨h1, ?_⟩
      rcases h2 with h2 | h2
      · exact h2 ▸ List.mem_cons_self ip rest
      · exact List.mem_cons.mpr (Or.inr h2)
    · intro x
      rw [h.2 x]
      simp only [List.mem_cons]
      constructor
      · rintro (⟨h1, h2⟩ | hm)
        · exact Or.inl (by omega)
        · exact Or.inr hm
      · rintro (hm | hm)
        · exact Or.inl (by omega)
        · exact Or.inr hm

theorem summarized_ranges_spec (bits : Nat) (l : List Nat) (hb : ∀ a ∈ l, a < 2 ^ bits) :
    (∀ n ∈ ((find_address_range l).map fun fl =>
      summarize_address_range bits fl.1 fl.2).flatten, NetV bits n) ∧
    (∀ x, covL bits ((find_address_range l).map fun fl =>
      summarize_address_range bits fl.1 fl.2).flatten x ↔ x ∈ l) := by
  obtain ⟨hp, hcov⟩ := find_address_range_spec l
  constructor
  · intro n hn
    rw [List.mem_flatten] at hn
    obtain ⟨sub, hsub, hnsub⟩ := hn
    rw [List.mem_map] at hsub
    obtain ⟨p, hpmem, hpeq⟩ := hsub
    have hbp : p.2 < 2 ^ bits := hb p.2 (hp p hpmem).2
    exact (summarize_address_range_spec bits p.1 p.2 hbp).1 n (hpeq ▸ hnsub)
  · intro x
    rw [← hcov x]
    constructor
    · rintro ⟨n, hn, hc⟩
      rw [List.mem_flatten] at hn
      obtain ⟨sub, hsub, hnsub⟩ := hn
      rw [List.mem_map] at hsub
      obtain ⟨p, hpmem, hpeq⟩ := hsub
      have hbp : p.2 < 2 ^ bits := hb p.2 (hp p hpmem).2
      have h2 := ((summarize_address_range_spec bits p.1 p.2 hbp).2 x).mp ⟨n, hpeq ▸ hnsub, hc⟩
      exact ⟨p, hpmem, h2⟩
    · rintro ⟨p, hpmem, h1, h2⟩
      have hbp : p.2 < 2 ^ bits := hb p.2 (hp p hpmem).2
      obtain ⟨n, hn, hc⟩ := ((summarize_address_range_spec bits p.1 p.2 hbp).2 x).mpr ⟨h1, h2⟩
      refine ⟨n, ?_, hc⟩
      rw [List.mem_flatten]
      exact ⟨_, List.mem_map.mpr ⟨p, hpmem, rfl⟩, hn⟩

/-! The merge loop of `_collapse_addresses_internal`. -/

theorem assocGet_none_iff (k : Net) (l : List (Net × Net)) :
    assocGet k l = none ↔ ∀ pr ∈ l, pr.1 ≠ k := by
  unfold assocGet
  rw [Option.map_eq_none', List.find?_eq_none]
  constructor
  · intro h pr hpr
    simpa using h pr hpr
  · intro h pr hpr
    simpa using h pr hpr

theorem assocGet_some_mem (k v : Net) (l : List (Net × Net)) (h : assocGet k l = some v) :
    (k, v) ∈ l := by
  unfold assocGet at h
  rw [Option.map_eq_some'] at h
  obtain ⟨pr, hfind, hsnd⟩ := h
  have hmem := List.mem_of_find?_eq_some hfind
  have hp := List.find?_some hfind
  have hk : pr.1 = k := by simpa using hp
  have hpr : pr = (k, v) := by
    cases pr with
    | mk a b => simp_all
  exact hpr ▸ hmem

theorem assoc_erase_decomp (k v : Net) (sn : List (Net × Net))
    (hwf : (sn.map Prod.fst).Nodup) (h : assocGet k sn = some v) :
    ∃ l1 l2, sn = l1 ++ (k, v) :: l2 ∧ assocErase k sn = l1 ++ l2 ∧
      (∀ pr ∈ l1, pr.1 ≠ k) ∧ (∀ pr ∈ l2, pr.1 ≠ k) := by
  have hmem := assocGet_some_mem k v sn h
  have hpa : (((k, v) : Net × Net).1 == k) = true := by simp
  obtain ⟨a1, l1, l2, hl1, hpa1, hsn, herase⟩ :=
    @List.exists_of_eraseP (Net × Net) (fun pr => pr.1 == k) sn (k, v) hmem hpa
  have ha1k : a1.1 = k := by simpa using hpa1
  have hl1ne : ∀ pr ∈ l1, pr.1 ≠ k := by
    intro pr hpr
    simpa using hl1 pr hpr
  have hnodup2 : k ∉ (l2.map Prod.fst) := by
    rw [hsn] at hwf
    simp only [List.map_append, List.map_cons] at hwf
    have h2 := (List.nodup_append.mp hwf).2.1
    rw [ha1k] at h2
    exact (List.nodup_cons.mp h2).1
  have ha1eq : a1 = (k, v) := by
    rcases List.mem_append.mp (hsn ▸ hmem) with hm | hm
    · exact absurd rfl (hl1ne _ hm)
    · rcases List.mem_cons.mp hm with hm | hm
      · exact hm.symm
      · exact absurd (List.mem_map.mpr ⟨(k, v), hm, rfl⟩) hnodup2
  subst ha1eq
  refine ⟨l1, l2, hsn, herase, hl1ne, ?_⟩
  intro pr hpr hk
  exact hnodup2 (List.mem_map.mpr ⟨pr, hpr, hk⟩)

theorem mergeLoop_nil (bits : Nat) (sn : List (Net × Net)) : mergeLoop bits [] sn = sn := by
  rw [mergeLoop]

theorem mergeLoop_cons_none (bits : Nat) (net : Net) (tm : List Net) (sn : List (Net × Net))
    (h : assocGet (supernet bits net) sn = none) :
    mergeLoop bits (net :: tm) sn = mergeLoop bits tm ((supernet bits net, net) :: sn) := by
  rw [mergeLoop]
  split
  · rfl
  · rename_i existing h2
    rw [h] at h2
    exact Option.noConfusion h2

theorem mergeLoop_cons_dup (bits : Nat) (net : Net) (tm : List Net) (sn : List (Net × Net))
    (h : assocGet (supernet bits net) sn = some net) :
    mergeLoop bits (net :: tm) sn = mergeLoop bits tm sn := by
  rw [mergeLoop]
  split
  · rename_i h2
    rw [h] at h2
    exact Option.noConfusion h2
  · rename_i existing h2
    rw [h] at h2
    injection h2 with h2
    subst h2
    rw [if_pos rfl]

theorem mergeLoop_cons_merge (bits : Nat) (net existing : Net) (tm : List Net)
    (sn : List (Net × Net)) (h : assocGet (supernet bits net) sn = some existing)
    (hne : existing ≠ net) :
    mergeLoop bits (net :: tm) sn =
      mergeLoop bits (supernet bits net :: tm) (assocErase (supernet bits net) sn) := by
  rw [mergeLoop]
  split
  · rename_i h2
    rw [h] at h2
    exact Option.noConfusion h2
  · rename_i ex2 h2
    rw [h] at h2
    injection h2 with h2
    subst h2
    rw [if_neg hne]

theorem mergeLoop_spec (bits : Nat) (k : Nat) :
    ∀ (tm : List Net) (sn : List (Net × Net)), 2 * tm.length + sn.length ≤ k →
    (∀ n ∈ tm, NetV bits n) → PairsWF bits sn →
    PairsWF bits (mergeLoop bits tm sn) ∧
    (∀ x, covL bits ((mergeLoop bits tm sn).map Prod.snd) x ↔
      covL bits tm x ∨ covL bits (sn.map Prod.snd) x) := by
  induction k with
  | zero =>
    intro tm sn hk htm hsn
    cases tm with
    | nil =>
      rw [mergeLoop_nil]
      refine ⟨hsn, fun x => ?_⟩
      constructor
      · intro h
        exact Or.inr h
      · rintro (h | h)
        · exact absurd h (covL_nil bits x)
        · exact h
    | cons net tm =>
      exfalso
      simp only [List.length_cons] at hk
      omega
  | succ k ihk =>
    intro tm sn hk htm hsn
    cases tm with
    | nil =>
      rw [mergeLoop_nil]
      refine ⟨hsn, fun x => ?_⟩
      constructor
      · intro h
        exact Or.inr h
      · rintro (h | h)
        · exact absurd h (covL_nil bits x)
        · exact h
    | cons net tm =>
      cases hget : assocGet (supernet bits net) sn with
      | none =>
        rw [mergeLoop_cons_none bits net tm sn hget]
        have hwf2 : PairsWF bits ((supernet bits net, net) :: sn) := by
          constructor
          · simp only [List.map_cons]
            rw [List.nodup_cons]
            refine ⟨?_, hsn.1⟩
            intro hmem
            rw [List.mem_map] at hmem
            obtain ⟨pr, hpr, hpr2⟩ := hmem
            exact (assocGet_none_iff _ _).mp hget pr hpr hpr2
          · intro pr hpr
            rcases List.mem_cons.mp hpr with h | h
            · subst h
              exact ⟨rfl, htm net (List.mem_cons_self _ _)⟩
            · exact hsn.2 pr h
        have hrec := ihk tm ((supernet bits net, net) :: sn)
          (by simp only [List.length_cons] at hk ⊢; omega)
          (fun n hn => htm n (List.mem_cons.mpr (Or.inr hn))) hwf2
        refine ⟨hrec.1, ?_⟩
        intro x
        rw [hrec.2 x]
        simp only [List.map_cons]
        rw [covL_cons, covL_cons]
        tauto
      | some existing =>
        by_cases hne : existing = net
        · rw [mergeLoop_cons_dup bits net tm sn (hne ▸ hget)]
          have hrec := ihk tm sn
            (by simp only [List.length_cons] at hk; omega)
            (fun n hn => htm n (List.mem_cons.mpr (Or.inr hn))) hsn
          refine ⟨hrec.1, ?_⟩
          intro x
          rw [hrec.2 x, covL_cons]
          have hmem := assocGet_some_mem _ _ _ (hne ▸ hget)
          constructor
          · rintro (h | h)
            · exact Or.inl (Or.inr h)
            · exact Or.inr h
          · rintro ((h | h) | h)
            · exact Or.inr ⟨net, List.mem_map.mpr ⟨_, hmem, rfl⟩, h⟩
            · exact Or.inl h
            · exact Or.inr h
        · rw [mergeLoop_cons_merge bits net existing tm sn hget hne]
          obtain ⟨l1, l2, hsn_eq, herase, hl1, hl2⟩ := assoc_erase_decomp _ _ _ hsn.1 hget
          have hsub : List.Sublist (assocErase (supernet bits net) sn) sn := by
            unfold assocErase
            exact List.eraseP_sublist _
          have hwf2 : PairsWF bits (assocErase (supernet bits net) sn) := by
            constructor
            · exact (hsub.map Prod.fst).nodup hsn.1
            · intro pr hpr
              exact hsn.2 pr (hsub.subset hpr)
          have hlen : (assocErase (supernet bits net) sn).length + 1 = sn.length := by
            rw [herase, hsn_eq]
            simp only [List.length_append, List.length_cons]
            omega
          have htm2 : ∀ n ∈ supernet bits net :: tm, NetV bits n := by
            intro n hn
            rcases List.mem_cons.mp hn with h | h
            · subst h
              exact supernet_valid bits net (htm net (List.mem_cons_self _ _))
            · exact htm n (List.mem_cons.mpr (Or.inr h))
          have hrec := ihk (supernet bits net :: tm) (assocErase (supernet bits net) sn)
            (by simp only [List.length_cons] at hk ⊢; omega) htm2 hwf2
          refine ⟨hrec.1, ?_⟩
          intro x
          rw [hrec.2 x, covL_cons, covL_cons]
          have hpair := hsn.2 _ (assocGet_some_mem _ _ _ hget)
          have hvnet : NetV bits net := htm net (List.mem_cons_self _ _)
          have hkey := same_supernet_halves bits net existing hvnet hpair.2
            (fun h => hne h.symm) hpair.1 x
          have hsnv : covL bits (sn.map Prod.snd) x ↔
              covN bits existing x ∨
              covL bits ((assocErase (supernet bits net) sn).map Prod.snd) x := by
            rw [herase, hsn_eq]
            simp only [List.map_append, List.map_cons]
            rw [covL_append, covL_cons, covL_append]
            tauto
          rw [hsnv]
          tauto

/-! The subsumption filter and the full collapse. -/

theorem covN_iff_bcast (bits : Nat) (n : Net) (x : Nat) :
    covN bits n x ↔ n.addr ≤ x ∧ x ≤ bcast bits n := by
  unfold covN bcast
  have hp : 0 < 2 ^ (bits - n.plen) := pow_pos (by omega) _
  omega

theorem disjoint_of_netLe_bcast_lt (bits : Nat) (m n : Net) (hm : NetV bits m)
    (hn : NetV bits n) (hle : netLe m n) (hlt : bcast bits m < bcast bits n) :
    netDisjoint bits m n := by
  have hpm : 0 < 2 ^ (bits - m.plen) := pow_pos (by omega) _
  have hpn : 0 < 2 ^ (bits - n.plen) := pow_pos (by omega) _
  rcases nested_or_disjoint bits m n hm hn with hsub | hsub | hdis
  · exfalso
    unfold netSub at hsub
    unfold netLe at hle
    have haddr : m.addr = n.addr := by omega
    have hplen : m.plen ≤ n.plen := by
      rcases hle with h | h
      · omega
      · exact h.2
    have hsz : 2 ^ (bits - n.plen) ≤ 2 ^ (bits - m.plen) :=
      Nat.pow_le_pow_right (by omega) (by omega)
    unfold bcast at hlt
    omega
  · exfalso
    unfold netSub at hsub
    unfold bcast at hlt
    omega
  · exact hdis

theorem filterSubsumed_sublist (bits : Nat) (l : List Net) :
    ∀ kept, List.Sublist (filterSubsumed bits l kept) l := by
  induction l with
  | nil =>
    intro kept
    rw [filterSubsumed]
  | cons net rest ih =>
    intro kept
    cases kept with
    | none =>
      rw [filterSubsumed]
      exact List.Sublist.cons₂ net (ih (some net))
    | some lnet =>
      rw [filterSubsumed]
      by_cases hb : bcast bits net ≤ bcast bits lnet
      · rw [if_pos hb]
        exact List.Sublist.cons net (ih (some lnet))
      · rw [if_neg hb]
        exact List.Sublist.cons₂ net (ih (some net))

theorem filterSubsumed_cov (bits : Nat) (l : List Net) :
    ∀ lnet, (∀ n ∈ l, NetV bits n) → NetV bits lnet →
    l.Sorted netLe → (∀ n ∈ l, lnet.addr ≤ n.addr) →
    ∀ x, (covL bits (filterSubsumed bits l (some lnet)) x ∨ covN bits lnet x ↔
      covL bits l x ∨ covN bits lnet x) := by
  induction l with
  | nil =>
    intro lnet _ _ _ _ x
    rw [filterSubsumed]
  | cons net rest ih =>
    intro lnet hv hvl hs hge x
    have hvr : ∀ n ∈ rest, NetV bits n := fun n hn => hv n (List.mem_cons.mpr (Or.inr hn))
    have hsr : rest.Sorted netLe := hs.of_cons
    rw [filterSubsumed]
    by_cases hb : bcast bits net ≤ bcast bits lnet
    · rw [if_pos hb]
      have hrec := ih lnet hvr hvl hsr (fun n hn => hge n (List.mem_cons.mpr (Or.inr hn))) x
      rw [covL_cons]
      have hkey : covN bits net x → covN bits lnet x := by
        intro hy
        rw [covN_iff_bcast] at hy ⊢
        have := hge net (List.mem_cons_self _ _)
        omega
      tauto
    · rw [if_neg hb]
      have hger : ∀ n ∈ rest, net.addr ≤ n.addr := by
        intro n hn
        have := List.rel_of_sorted_cons hs n hn
        unfold netLe at this
        omega
      have hrec := ih net hvr (hv net (List.mem_cons_self _ _)) hsr hger x
      rw [covL_cons, covL_cons]
      tauto

theorem filterSubsumed_cov_none (bits : Nat) (l : List Net) (hv : ∀ n ∈ l, NetV bits n)
    (hs : l.Sorted netLe) (x : Nat) :
    covL bits (filterSubsumed bits l none) x ↔ covL bits l x := by
  cases l with
  | nil => rw [filterSubsumed]
  | cons net rest =>
    rw [filterSubsumed, covL_cons, covL_cons]
    have hvr : ∀ n ∈ rest, NetV bits n := fun n hn => hv n (List.mem_cons.mpr (Or.inr hn))
    have hger : ∀ n ∈ rest, net.addr ≤ n.addr := by
      intro n hn
      have := List.rel_of_sorted_cons hs n hn
      unfold netLe at this
      omega
    have hrec := filterSubsumed_cov bits rest net hvr (hv net (List.mem_cons_self _ _))
      hs.of_cons hger x
    tauto

theorem filterSubsumed_bcast (bits : Nat) (l : List Net) :
    ∀ lnet, List.Pairwise (fun a b => bcast bits a < bcast bits b)
        (filterSubsumed bits l (some lnet)) ∧
      ∀ n ∈ filterSubsumed bits l (some lnet), bcast bits lnet < bcast bits n := by
  induction l with
  | nil =>
    intro lnet
    rw [filterSubsumed]
    refine ⟨List.Pairwise.nil, ?_⟩
    intro n hn
    simp at hn
  | cons net rest ih =>
    intro lnet
    rw [filterSubsumed]
    by_cases hb : bcast bits net ≤ bcast bits lnet
    · rw [if_pos hb]
      exact ih lnet
    · rw [if_neg hb]
      obtain ⟨hpw, hgt⟩ := ih net
      refine ⟨List.Pairwise.cons hgt hpw, ?_⟩
      intro n hn
      rcases List.mem_cons.mp hn with h | h
      · subst h
        omega
      · have := hgt n h
        omega

theorem filterSubsumed_bcast_none (bits : Nat) (l : List Net) :
    List.Pairwise (fun a b => bcast bits a < bcast bits b) (filterSubsumed bits l none) := by
  cases l with
  | nil =>
    rw [filterSubsumed]
    exact List.Pairwise.nil
  | cons net rest =>
    rw [filterSubsumed]
    obtain ⟨hpw, hgt⟩ := filterSubsumed_bcast bits rest net
    exact List.Pairwise.cons hgt hpw

theorem pairsWF_values_pairwise (bits : Nat) (l : List (Net × Net)) :
    PairsWF bits l →
    List.Pairwise (fun a b => supernet bits a ≠ supernet bits b) (l.map Prod.snd) := by
  induction l with
  | nil =>
    intro _
    exact List.Pairwise.nil
  | cons p t ih =>
    intro h
    have hnd := h.1
    simp only [List.map_cons, List.nodup_cons] at hnd
    simp only [List.map_cons]
    refine List.Pairwise.cons ?_
      (ih ⟨hnd.2, fun pr hpr => h.2 pr (List.mem_cons.mpr (Or.inr hpr))⟩)
    intro b hb
    rw [List.mem_map] at hb
    obtain ⟨q, hq, he⟩ := hb
    have hpk : p.1 = supernet bits p.2 := (h.2 p (List.mem_cons_self _ _)).1
    have hqk : q.1 = supernet bits q.2 := (h.2 q (List.mem_cons.mpr (Or.inr hq))).1
    intro heq
    exact hnd.1 (List.mem_map.mpr ⟨q, hq, by rw [hqk, he, ← heq, ← hpk]⟩)

theorem covL_perm (bits : Nat) (l1 l2 : List Net) (h : l1.Perm l2) (x : Nat) :
    covL bits l1 x ↔ covL bits l2 x := by
  unfold covL
  constructor
  · rintro ⟨n, hn, hc⟩
    exact ⟨n, h.mem_iff.mp hn, hc⟩
  · rintro ⟨n, hn, hc⟩
    exact ⟨n, h.mem_iff.mpr hn, hc⟩

theorem collapseInternal_spec (bits : Nat) (nets : List Net) (hv : ∀ n ∈ nets, NetV bits n) :
    (∀ n ∈ collapseInternal bits nets, NetV bits n) ∧
    (collapseInternal bits nets).Sorted netLe ∧
    List.Pairwise (fun a b => supernet bits a ≠ supernet bits b) (collapseInternal bits nets) ∧
    List.Pairwise (netDisjoint bits) (collapseInternal bits nets) ∧
    (∀ x, covL bits (collapseInternal bits nets) x ↔ covL bits nets x) := by
  have hdef : collapseInternal bits nets =
      filterSubsumed bits (((mergeLoop bits nets.reverse []).map Prod.snd).insertionSort netLe)
        none := rfl
  have hwf0 : PairsWF bits ([] : List (Net × Net)) := by
    constructor
    · simp
    · intro pr hpr
      simp at hpr
  have hml := mergeLoop_spec bits (2 * nets.reverse.length) nets.reverse []
    (by simp) (fun n hn => hv n (List.mem_reverse.mp hn)) hwf0
  have hvals : ∀ n ∈ (mergeLoop bits nets.reverse []).map Prod.snd, NetV bits n := by
    intro n hn
    rw [List.mem_map] at hn
    obtain ⟨pr, hpr, he⟩ := hn
    exact he ▸ (hml.1.2 pr hpr).2
  have hsup := pairsWF_values_pairwise bits _ hml.1
  have hperm : (((mergeLoop bits nets.reverse []).map Prod.snd).insertionSort netLe).Perm
      ((mergeLoop bits nets.reverse []).map Prod.snd) := List.perm_insertionSort _ _
  have hvals2 : ∀ n ∈ ((mergeLoop bits nets.reverse []).map Prod.snd).insertionSort netLe,
      NetV bits n := fun n hn => hvals n (hperm.mem_iff.mp hn)
  have hsort : (((mergeLoop bits nets.reverse []).map Prod.snd).insertionSort netLe).Sorted
      netLe := List.sorted_insertionSort _ _
  have hsup2 : List.Pairwise (fun a b => supernet bits a ≠ supernet bits b)
      (((mergeLoop bits nets.reverse []).map Prod.snd).insertionSort netLe) :=
    (hperm.pairwise_iff fun h heq => h heq.symm).mpr hsup
  have hsubl := filterSubsumed_sublist bits
    (((mergeLoop bits nets.reverse []).map Prod.snd).insertionSort netLe) none
  rw [hdef]
  refine ⟨?_, ?_, ?_, ?_, ?_⟩
  · intro n hn
    exact hvals2 n (hsubl.subset hn)
  · exact hsort.sublist hsubl
  · exact hsup2.sublist hsubl
  · have hbc := filterSubsumed_bcast_none bits
      (((mergeLoop bits nets.reverse []).map Prod.snd).insertionSort netLe)
    have hle : List.Pairwise netLe
        (filterSubsumed bits
          (((mergeLoop bits nets.reverse []).map Prod.snd).insertionSort netLe) none) :=
      hsort.sublist hsubl
    refine List.Pairwise.imp_of_mem ?_ (hle.and hbc)
    intro a b ha hb hab
    exact disjoint_of_netLe_bcast_lt bits a b (hvals2 a (hsubl.subset ha))
      (hvals2 b (hsubl.subset hb)) hab.1 hab.2
  · intro x
    rw [filterSubsumed_cov_none bits _ hvals2 hsort x]
    rw [covL_perm bits _ _ hperm x]
    rw [hml.2 x]
    constructor
    · rintro (h | h)
      · exact (covL_perm bits _ _ nets.reverse_perm x).mp h
      · exact absurd h (by simp [covL_nil])
    · intro h
      exact Or.inl ((covL_perm bits _ _ nets.reverse_perm x).mpr h)

theorem covN_full_iff (bits : Nat) (n : Net) (hp : n.plen = bits) (x : Nat) :
    covN bits n x ↔ x = n.addr := by
  unfold covN
  rw [hp, Nat.sub_self, pow_zero]
  omega

theorem ips_cov (bits : Nat) (input : List Net) (hv : ∀ n ∈ input, NetV bits n) :
    (∀ a ∈ (((input.filter fun n => n.plen == bits).map Net.addr).dedup).insertionSort
        (fun a b => a ≤ b), a < 2 ^ bits) ∧
    (∀ x, x ∈ (((input.filter fun n => n.plen == bits).map Net.addr).dedup).insertionSort
        (fun a b => a ≤ b) ↔ covL bits (input.filter fun n => n.plen == bits) x) := by
  have hmem : ∀ x, x ∈ (((input.filter fun n => n.plen == bits).map Net.addr).dedup).insertionSort
      (fun a b => a ≤ b) ↔ ∃ n ∈ input, n.plen = bits ∧ n.addr = x := by
    intro x
    rw [(List.perm_insertionSort (fun a b => a ≤ b) _).mem_iff, List.mem_dedup, List.mem_map]
    constructor
    · rintro ⟨n, hn, he⟩
      obtain ⟨hni, hnp⟩ := List.mem_filter.mp hn
      exact ⟨n, hni, by simpa using hnp, he⟩
    · rintro ⟨n, hni, hnp, he⟩
      exact ⟨n, List.mem_filter.mpr ⟨hni, by simp [hnp]⟩, he⟩
  constructor
  · intro a ha
    obtain ⟨n, hni, hnp, he⟩ := (hmem a).mp ha
    have hvn := hv n hni
    unfold NetV at hvn
    rw [hnp, Nat.sub_self, pow_zero] at hvn
    omega
  · intro x
    rw [hmem x]
    unfold covL
    constructor
    · rintro ⟨n, hni, hnp, he⟩
      refine ⟨n, List.mem_filter.mpr ⟨hni, by simp [hnp]⟩, ?_⟩
      rw [covN_full_iff bits n hnp]
      omega
    · rintro ⟨n, hn, hc⟩
      obtain ⟨hni, hnp⟩ := List.mem_filter.mp hn
      have hnp2 : n.plen = bits := by simpa using hnp
      rw [covN_full_iff bits n hnp2] at hc
      exact ⟨n, hni, hnp2, hc.symm⟩

theorem covL_filter_split (bits : Nat) (input : List Net) (x : Nat) :
    covL bits input x ↔ covL bits (input.filter fun n => n.plen == bits) x ∨
      covL bits (input.filter fun n => n.plen != bits) x := by
  unfold covL
  constructor
  · rintro ⟨n, hn, hc⟩
    by_cases h : n.plen = bits
    · exact Or.inl ⟨n, List.mem_filter.mpr ⟨hn, by simp [h]⟩, hc⟩
    · exact Or.inr ⟨n, List.mem_filter.mpr ⟨hn, by simp [h]⟩, hc⟩
  · rintro (⟨n, hn, hc⟩ | ⟨n, hn, hc⟩)
    · exact ⟨n, (List.mem_filter.mp hn).1, hc⟩
    · exact ⟨n, (List.mem_filter.mp hn).1, hc⟩

theorem collapse_addresses_spec (bits : Nat) (input : List Net)
    (hv : ∀ n ∈ input, NetV bits n) :
    (∀ n ∈ collapse_addresses bits input, NetV bits n) ∧
    (collapse_addresses bits input).Sorted netLe ∧
    List.Pairwise (fun a b => supernet bits a ≠ supernet bits b)
      (collapse_addresses bits input) ∧
    List.Pairwise (netDisjoint bits) (collapse_addresses bits input) ∧
    (∀ x, covL bits (collapse_addresses bits input) x ↔ covL bits input x) := by
  obtain ⟨hbound, hipsmem⟩ := ips_cov bits input hv
  have hsr := summarized_ranges_spec bits
    ((((input.filter fun n => n.plen == bits).map Net.addr).dedup).insertionSort
      (fun a b => a ≤ b)) hbound
  have hvAN : ∀ n ∈ ((find_address_range
      ((((input.filter fun n => n.plen == bits).map Net.addr).dedup).insertionSort
        (fun a b => a ≤ b))).map fun fl =>
          summarize_address_range bits fl.1 fl.2).flatten ++
        input.filter (fun n => n.plen != bits), NetV bits n := by
    intro n hn
    rcases List.mem_append.mp hn with h | h
    · exact hsr.1 n h
    · exact hv n (List.mem_filter.mp h).1
  have hci := collapseInternal_spec bits _ hvAN
  have hdef : collapse_addresses bits input = collapseInternal bits
      (((find_address_range
        ((((input.filter fun n => n.plen == bits).map Net.addr).dedup).insertionSort
          (fun a b => a ≤ b))).map fun fl =>
            summarize_address_range bits fl.1 fl.2).flatten ++
          input.filter (fun n => n.plen != bits)) := rfl
  rw [hdef]
  refine ⟨hci.1, hci.2.1, hci.2.2.1, hci.2.2.2.1, ?_⟩
  intro x
  rw [hci.2.2.2.2 x, covL_append, hsr.2 x, hipsmem x, covL_filter_split bits input x]

/-! Uniqueness of the collapsed canonical form. -/

theorem mod_zero_of_dvd_of_mod_zero (a b c : Nat) (hd : b ∣ c) (h : a % c = 0) : a % b = 0 := by
  obtain ⟨q, hq⟩ := dvd_trans hd (Nat.dvd_of_mod_eq_zero h)
  rw [hq, Nat.mul_mod_right]

theorem pairwise_mem_rel {R : Net → Net → Prop} (hsym : ∀ a b, R a b → R b a) :
    ∀ (l : List Net), List.Pairwise R l → ∀ a b, a ∈ l → b ∈ l → a ≠ b → R a b := by
  intro l
  induction l with
  | nil =>
    intro _ a b ha
    simp at ha
  | cons c t ih =>
    intro hp a b ha hb hne
    rcases List.mem_cons.mp ha with ha2 | ha2
    · rcases List.mem_cons.mp hb with hb2 | hb2
      · exact absurd (ha2.trans hb2.symm) hne
      · subst ha2
        exact (List.pairwise_cons.mp hp).1 b hb2
    · rcases List.mem_cons.mp hb with hb2 | hb2
      · subst hb2
        exact hsym _ _ ((List.pairwise_cons.mp hp).1 a ha2)
      · exact ih (List.pairwise_cons.mp hp).2 a b ha2 hb2 hne

theorem partition_mem_case (bits : Nat) (l : List Net) (B : Net)
    (hdis : List.Pairwise (netDisjoint bits) l)
    (hcov : ∀ x, covL bits l x ↔ covN bits B x) (hmem : B ∈ l) : l = [B] := by
  obtain ⟨s, t, rfl⟩ := List.append_of_mem hmem
  rw [List.pairwise_append] at hdis
  obtain ⟨hds, hdt, hdst⟩ := hdis
  cases s with
  | cons a s2 =>
    exfalso
    have hacov : covN bits B a.addr :=
      (hcov a.addr).mp ⟨a, by simp, covN_self bits a⟩
    exact hdst a (by simp) B (by simp) a.addr ⟨covN_self bits a, hacov⟩
  | nil =>
    simp only [List.nil_append]
    obtain ⟨hBt, _⟩ := List.pairwise_cons.mp hdt
    cases t with
    | nil => rfl
    | cons a t2 =>
      exfalso
      have hacov : covN bits B a.addr :=
        (hcov a.addr).mp ⟨a, by simp, covN_self bits a⟩
      exact hBt a (by simp) a.addr ⟨hacov, covN_self bits a⟩

theorem half_cover_filter (bits : Nat) (l : List Net) (H1 H2 : Net)
    (hdich : ∀ n ∈ l, netSub bits n H1 ∨ netSub bits n H2)
    (hdisHH : ∀ x, ¬(covN bits H1 x ∧ covN bits H2 x))
    (hcovB : ∀ x, covL bits l x ↔ covN bits H1 x ∨ covN bits H2 x) :
    (∀ x, covL bits (l.filter fun n => decide (netSub bits n H1)) x ↔ covN bits H1 x) ∧
    (∀ x, covL bits (l.filter fun n => !decide (netSub bits n H1)) x ↔ covN bits H2 x) := by
  constructor
  · intro x
    constructor
    · rintro ⟨w, hw, hcw⟩
      obtain ⟨hwl, hwp⟩ := List.mem_filter.mp hw
      have hws : netSub bits w H1 := of_decide_eq_true hwp
      exact covN_of_netSub bits w H1 x hws hcw
    · intro hx
      obtain ⟨w, hwl, hcw⟩ := (hcovB x).mpr (Or.inl hx)
      rcases hdich w hwl with hws | hws
      · exact ⟨w, List.mem_filter.mpr ⟨hwl, decide_eq_true hws⟩, hcw⟩
      · exact absurd ⟨hx, covN_of_netSub bits w H2 x hws hcw⟩ (hdisHH x)
  · intro x
    constructor
    · rintro ⟨w, hw, hcw⟩
      obtain ⟨hwl, hwp⟩ := List.mem_filter.mp hw
      have hwns : ¬netSub bits w H1 := by
        intro h
        rw [decide_eq_true h] at hwp
        exact Bool.noConfusion hwp
      rcases hdich w hwl with hws | hws
      · exact absurd hws hwns
      · exact covN_of_netSub bits w H2 x hws hcw
    · intro hx
      obtain ⟨w, hwl, hcw⟩ := (hcovB x).mpr (Or.inr hx)
      rcases hdich w hwl with hws | hws
      · exact absurd ⟨covN_of_netSub bits w H1 x hws hcw, hx⟩ (hdisHH x)
      · refine ⟨w, List.mem_filter.mpr ⟨hwl, ?_⟩, hcw⟩
        by_cases h : netSub bits w H1
        · exact absurd ⟨covN_of_netSub bits w H1 x h hcw, hx⟩ (hdisHH x)
        · rw [decide_eq_false h]
          rfl

theorem sibling_free_partition (bits : Nat) :
    ∀ (T : Nat) (l : List Net) (B : Net), bits - B.plen ≤ T → NetV bits B →
    (∀ n ∈ l, NetV bits n) →
    List.Pairwise (netDisjoint bits) l →
    List.Pairwise (fun a b => ¬netSiblings bits a b) l →
    (∀ x, covL bits l x ↔ covN bits B x) → l = [B] := by
  intro T
  induction T with
  | zero =>
    intro l B hT hB hv hdis hsib hcov
    by_cases hmem : B ∈ l
    · exact partition_mem_case bits l B hdis hcov hmem
    · exfalso
      have hBp : B.plen = bits := by
        have := hB.1
        omega
      obtain ⟨n, hn, hcn⟩ := (hcov B.addr).mpr (covN_self bits B)
      have hvn := hv n hn
      have hpn : 0 < 2 ^ (bits - n.plen) := pow_pos (by omega) _
      have haddr : n.addr = B.addr := by
        have h1 := (hcov n.addr).mp ⟨n, hn, covN_self bits n⟩
        rw [covN_full_iff bits B hBp] at h1
        exact h1
      have htop : covN bits n (n.addr + 2 ^ (bits - n.plen) - 1) := by
        unfold covN
        omega
      have htopB := (hcov _).mp ⟨n, hn, htop⟩
      rw [covN_full_iff bits B hBp] at htopB
      have hsz : 2 ^ (bits - n.plen) = 1 := by omega
      have hzero : bits - n.plen = 0 := by
        by_contra h
        have : 2 ≤ 2 ^ (bits - n.plen) := by
          calc 2 = 2 ^ 1 := by norm_num
          _ ≤ 2 ^ (bits - n.plen) := Nat.pow_le_pow_right (by omega) (by omega)
        omega
      have hne : n = B := by
        cases n with
        | mk na np =>
          cases B with
          | mk ba bp =>
            simp only [Net.mk.injEq]
            simp only at haddr hzero hBp
            have := hvn.1
            simp only at this
            omega
      exact hmem (hne ▸ hn)
  | succ T ih =>
    intro l B hT hB hv hdis hsib hcov
    by_cases hmem : B ∈ l
    · exact partition_mem_case bits l B hdis hcov hmem
    · have hstrict : ∀ n ∈ l, netSub bits n B ∧ B.plen < n.plen := by
        intro n hn
        have hvn := hv n hn
        have hcnB : covN bits B n.addr := (hcov n.addr).mp ⟨n, hn, covN_self bits n⟩
        have hpn : 0 < 2 ^ (bits - n.plen) := pow_pos (by omega) _
        have neq_of_eq : n.addr = B.addr → 2 ^ (bits - n.plen) = 2 ^ (bits - B.plen) →
            False := by
          intro haddr hszeq
          have hpe : bits - n.plen = bits - B.plen :=
            Nat.pow_right_injective (by omega) hszeq
          have hnB : n = B := by
            cases n with
            | mk na np =>
              cases B with
              | mk ba bp =>
                simp only [Net.mk.injEq]
                simp only at haddr hpe
                have h1 := hvn.1
                have h2 := hB.1
                simp only at h1 h2
                omega
          exact hmem (hnB ▸ hn)
        rcases nested_or_disjoint bits n B hvn hB with hsub | hsub | hd
        · refine ⟨hsub, ?_⟩
          by_contra hple
          push_neg at hple
          have hsz : 2 ^ (bits - B.plen) ≤ 2 ^ (bits - n.plen) :=
            Nat.pow_le_pow_right (by omega) (by omega)
          obtain ⟨h1, h2⟩ := hsub
          exact neq_of_eq (by omega) (by omega)
        · exfalso
          obtain ⟨h1, h2⟩ := hsub
          have htop : covN bits n (n.addr + 2 ^ (bits - n.plen) - 1) := by
            unfold covN
            omega
          have htopB := (hcov _).mp ⟨n, hn, htop⟩
          unfold covN at hcnB htopB
          have hpB : 0 < 2 ^ (bits - B.plen) := pow_pos (by omega) _
          exact neq_of_eq (by omega) (by omega)
        · exact absurd ⟨covN_self bits n, hcnB⟩ (hd n.addr)
      obtain ⟨n0, hn0, hcn0⟩ := (hcov B.addr).mpr (covN_self bits B)
      have hBlt : B.plen < bits := by
        have h1 := (hstrict n0 hn0).2
        have h2 := (hv n0 hn0).1
        omega
      have hpow : 2 ^ (bits - B.plen) = 2 * 2 ^ (bits - B.plen - 1) := by
        have hh : bits - B.plen = (bits - B.plen - 1) + 1 := by omega
        conv_lhs => rw [hh]
        rw [pow_succ]
        ring
      have hhalfpos : 0 < 2 ^ (bits - B.plen - 1) := pow_pos (by omega) _
      have hsub1 : bits - (B.plen + 1) = bits - B.plen - 1 := by omega
      obtain ⟨hb1, hb2, hb3⟩ := hB
      have hmodhalf : B.addr % 2 ^ (bits - B.plen - 1) = 0 :=
        mod_zero_of_dvd_of_mod_zero _ _ _ (pow_dvd_pow 2 (by omega)) hb3
      have hv1 : NetV bits { addr := B.addr, plen := B.plen + 1 } := by
        refine ⟨show B.plen + 1 ≤ bits by omega, ?_, ?_⟩
        · show B.addr + 2 ^ (bits - (B.plen + 1)) ≤ 2 ^ bits
          rw [hsub1]
          omega
        · show B.addr % 2 ^ (bits - (B.plen + 1)) = 0
          rw [hsub1]
          exact hmodhalf
      have hv2 : NetV bits
          { addr := B.addr + 2 ^ (bits - B.plen - 1), plen := B.plen + 1 } := by
        refine ⟨show B.plen + 1 ≤ bits by omega, ?_, ?_⟩
        · show B.addr + 2 ^ (bits - B.plen - 1) + 2 ^ (bits - (B.plen + 1)) ≤ 2 ^ bits
          rw [hsub1]
          omega
        · show (B.addr + 2 ^ (bits - B.plen - 1)) % 2 ^ (bits - (B.plen + 1)) = 0
          rw [hsub1]
          have := Nat.add_mod B.addr (2 ^ (bits - B.plen - 1)) (2 ^ (bits - B.plen - 1))
          rw [hmodhalf, Nat.mod_self] at this
          simpa using this
      have hhalves : ∀ x, covN bits B x ↔
          covN bits { addr := B.addr, plen := B.plen + 1 } x ∨
          covN bits { addr := B.addr + 2 ^ (bits - B.plen - 1), plen := B.plen + 1 } x := by
        intro x
        unfold covN
        simp only
        rw [hsub1]
        omega
      have hdisHH : ∀ x, ¬(covN bits { addr := B.addr, plen := B.plen + 1 } x ∧
          covN bits { addr := B.addr + 2 ^ (bits - B.plen - 1), plen := B.plen + 1 } x) := by
        intro x
        unfold covN
        simp only
        rw [hsub1]
        omega
      have hdich : ∀ n ∈ l, netSub bits n { addr := B.addr, plen := B.plen + 1 } ∨
          netSub bits n { addr := B.addr + 2 ^ (bits - B.plen - 1), plen := B.plen + 1 } := by
        intro n hn
        have hvn := hv n hn
        obtain ⟨hnB, hplt⟩ := hstrict n hn
        obtain ⟨hnB1, hnB2⟩ := hnB
        have hsz : 2 ^ (bits - n.plen) ≤ 2 ^ (bits - B.plen - 1) :=
          Nat.pow_le_pow_right (by omega) (by omega)
        rcases nested_or_disjoint bits n _ hvn hv1 with h | h | hd1
        · exact Or.inl h
        · left
          obtain ⟨h1, h2⟩ := h
          simp only at h1 h2
          rw [hsub1] at h2
          unfold netSub
          simp only
          rw [hsub1]
          omega
        · rcases nested_or_disjoint bits n _ hvn hv2 with h | h | hd2
          · exact Or.inr h
          · right
            obtain ⟨h1, h2⟩ := h
            simp only at h1 h2
            rw [hsub1] at h2
            unfold netSub
            simp only
            rw [hsub1]
            omega
          · exfalso
            have hcb : covN bits B n.addr := (hcov n.addr).mp ⟨n, hn, covN_self bits n⟩
            rcases (hhalves n.addr).mp hcb with h | h
            · exact hd1 n.addr ⟨covN_self bits n, h⟩
            · exact hd2 n.addr ⟨covN_self bits n, h⟩
      have hcovB2 : ∀ x, covL bits l x ↔
          covN bits { addr := B.addr, plen := B.plen + 1 } x ∨
          covN bits { addr := B.addr + 2 ^ (bits - B.plen - 1), plen := B.plen + 1 } x := by
        intro x
        rw [hcov x]
        exact hhalves x
      obtain ⟨hcf1, hcf2⟩ := half_cover_filter bits l _ _ hdich hdisHH hcovB2
      have hl1 := ih (l.filter fun n =>
          decide (netSub bits n { addr := B.addr, plen := B.plen + 1 }))
        { addr := B.addr, plen := B.plen + 1 }
        (by simp only; omega) hv1
        (fun n hn => hv n ((List.filter_sublist l).subset hn))
        (hdis.sublist (List.filter_sublist l))
        (hsib.sublist (List.filter_sublist l)) hcf1
      have hl2 := ih (l.filter fun n =>
          !decide (netSub bits n { addr := B.addr, plen := B.plen + 1 }))
        { addr := B.addr + 2 ^ (bits - B.plen - 1), plen := B.plen + 1 }
        (by simp only; omega) hv2
        (fun n hn => hv n ((List.filter_sublist l).subset hn))
        (hdis.sublist (List.filter_sublist l))
        (hsib.sublist (List.filter_sublist l)) hcf2
      have hm1 : ({ addr := B.addr, plen := B.plen + 1 } : Net) ∈ l := by
        have : ({ addr := B.addr, plen := B.plen + 1 } : Net) ∈
            l.filter fun n =>
              decide (netSub bits n { addr := B.addr, plen := B.plen + 1 }) := by
          rw [hl1]
          simp
        exact (List.filter_sublist l).subset this
      have hm2 : ({ addr := B.addr + 2 ^ (bits - B.plen - 1), plen := B.plen + 1 } : Net) ∈
          l := by
        have : ({ addr := B.addr + 2 ^ (bits - B.plen - 1), plen := B.plen + 1 } : Net) ∈
            l.filter fun n =>
              !decide (netSub bits n { addr := B.addr, plen := B.plen + 1 }) := by
          rw [hl2]
          simp
        exact (List.filter_sublist l).subset this
      exfalso
      have hneq : ({ addr := B.addr, plen := B.plen + 1 } : Net) ≠
          { addr := B.addr + 2 ^ (bits - B.plen - 1), plen := B.plen + 1 } := by
        intro h
        rw [Net.mk.injEq] at h
        omega
      have hnsib := pairwise_mem_rel
        (R := fun a b => ¬netSiblings bits a b)
        (fun a b h hs => h ⟨hs.1.symm, hs.2.1.symm, hs.2.2.symm⟩) l hsib _ _ hm1 hm2 hneq
      apply hnsib
      refine ⟨hneq, rfl, ?_⟩
      show supernet bits { addr := B.addr, plen := B.plen + 1 } =
        supernet bits { addr := B.addr + 2 ^ (bits - B.plen - 1), plen := B.plen + 1 }
      unfold supernet
      rw [if_neg (by simp), if_neg (by simp)]
      simp only [Nat.add_sub_cancel]
      rw [Net.mk.injEq]
      refine ⟨?_, rfl⟩
      rw [hb3]
      have hmod2 : (B.addr + 2 ^ (bits - B.plen - 1)) % 2 ^ (bits - B.plen) =
          2 ^ (bits - B.plen - 1) := by
        obtain ⟨q, hq⟩ := Nat.dvd_of_mod_eq_zero hb3
        rw [hq, Nat.mul_comm, Nat.add_comm, Nat.add_mul_mod_self_right]
        exact Nat.mod_eq_of_lt (by omega)
      rw [hmod2]
      omega

theorem covL_tail_iff (bits : Nat) (u : Net) (t : List Net)
    (hd : List.Pairwise (netDisjoint bits) (u :: t)) (x : Nat) :
    covL bits t x ↔ covL bits (u :: t) x ∧ ¬covN bits u x := by
  obtain ⟨hut, _⟩ := List.pairwise_cons.mp hd
  constructor
  · rintro ⟨n, hn, hc⟩
    refine ⟨⟨n, List.mem_cons.mpr (Or.inr hn), hc⟩, ?_⟩
    intro hu
    exact hut n hn x ⟨hu, hc⟩
  · rintro ⟨⟨n, hn, hc⟩, hnu⟩
    rcases List.mem_cons.mp hn with h | h
    · exact absurd (h ▸ hc) hnu
    · exact ⟨n, h, hc⟩

theorem head_eq_canonical (bits : Nat) (u v : Net) (t1 t2 : List Net)
    (hv1 : ∀ n ∈ u :: t1, NetV bits n)
    (hd1 : List.Pairwise (netDisjoint bits) (u :: t1))
    (hsib1 : List.Pairwise (fun a b => ¬netSiblings bits a b) (u :: t1))
    (hv2 : ∀ n ∈ v :: t2, NetV bits n)
    (hcov : ∀ x, covL bits (u :: t1) x ↔ covL bits (v :: t2) x)
    (haddr : u.addr = v.addr)
    (hsz : 2 ^ (bits - u.plen) ≤ 2 ^ (bits - v.plen)) : u = v := by
  have hvu := hv1 u (List.mem_cons_self _ _)
  have hvv := hv2 v (List.mem_cons_self _ _)
  by_cases hsubvu : netSub bits v u
  · obtain ⟨h1, h2⟩ := hsubvu
    have hsze : 2 ^ (bits - u.plen) = 2 ^ (bits - v.plen) := by omega
    have hpe : bits - u.plen = bits - v.plen := Nat.pow_right_injective (by omega) hsze
    cases u with
    | mk ua up =>
      cases v with
      | mk va vp =>
        rw [Net.mk.injEq]
        have hu1 := hvu.1
        have hv1p := hvv.1
        simp only at haddr hpe hu1 hv1p
        omega
  · have hdich : ∀ w ∈ u :: t1, ∀ x, covN bits w x → covN bits v x → netSub bits w v := by
      intro w hw x hwx hvx
      have hvw := hv1 w hw
      rcases nested_or_disjoint bits w v hvw hvv with h | h | h
      · exact h
      · exfalso
        have hwua : covN bits w u.addr := by
          have : covN bits v v.addr := covN_self bits v
          have hwv := covN_of_netSub bits v w v.addr h this
          rw [← haddr] at hwv
          exact hwv
        have hweq : w = u := by
          by_contra hne
          exact pairwise_mem_rel (fun a b hab x2 hx2 => hab x2 ⟨hx2.2, hx2.1⟩)
            (u :: t1) hd1 w u hw (List.mem_cons_self _ _) hne u.addr
            ⟨hwua, covN_self bits u⟩
        exact hsubvu (hweq ▸ h)
      · exact absurd ⟨hwx, hvx⟩ (h x)
    have hcovlv : ∀ x, covL bits ((u :: t1).filter fun w => decide (netSub bits w v)) x ↔
        covN bits v x := by
      intro x
      constructor
      · rintro ⟨w, hw, hcw⟩
        obtain ⟨hwl, hwp⟩ := List.mem_filter.mp hw
        exact covN_of_netSub bits w v x (of_decide_eq_true hwp) hcw
      · intro hx
        obtain ⟨w, hw, hcw⟩ := (hcov x).mpr ⟨v, List.mem_cons_self _ _, hx⟩
        have hws := hdich w hw x hcw hx
        exact ⟨w, List.mem_filter.mpr ⟨hw, decide_eq_true hws⟩, hcw⟩
    have hlv := sibling_free_partition bits (bits - v.plen)
      ((u :: t1).filter fun w => decide (netSub bits w v)) v le_rfl hvv
      (fun n hn => hv1 n ((List.filter_sublist _).subset hn))
      (hd1.sublist (List.filter_sublist _))
      (hsib1.sublist (List.filter_sublist _)) hcovlv
    have hvmem : v ∈ u :: t1 := by
      have : v ∈ (u :: t1).filter fun w => decide (netSub bits w v) := by
        rw [hlv]
        simp
      exact (List.filter_sublist _).subset this
    by_contra hne
    have hdisj := pairwise_mem_rel (fun a b hab x2 hx2 => hab x2 ⟨hx2.2, hx2.1⟩)
      (u :: t1) hd1 u v (List.mem_cons_self _ _) hvmem hne
    exact hdisj u.addr ⟨covN_self bits u, haddr ▸ covN_self bits v⟩

theorem canonical_unique (bits : Nat) :
    ∀ (l1 l2 : List Net),
    (∀ n ∈ l1, NetV bits n) → l1.Sorted netLe →
    List.Pairwise (netDisjoint bits) l1 →
    List.Pairwise (fun a b => ¬netSiblings bits a b) l1 →
    (∀ n ∈ l2, NetV bits n) → l2.Sorted netLe →
    List.Pairwise (netDisjoint bits) l2 →
    List.Pairwise (fun a b => ¬netSiblings bits a b) l2 →
    (∀ x, covL bits l1 x ↔ covL bits l2 x) → l1 = l2 := by
  intro l1
  induction l1 with
  | nil =>
    intro l2 _ _ _ _ hv2 _ _ _ hcov
    cases l2 with
    | nil => rfl
    | cons v t2 =>
      exact absurd ((hcov v.addr).mpr ⟨v, List.mem_cons_self _ _, covN_self bits v⟩)
        (covL_nil bits v.addr)
  | cons u t1 ih =>
    intro l2 hv1 hs1 hd1 hsib1 hv2 hs2 hd2 hsib2 hcov
    cases l2 with
    | nil =>
      exact absurd ((hcov u.addr).mp ⟨u, List.mem_cons_self _ _, covN_self bits u⟩)
        (covL_nil bits u.addr)
    | cons v t2 =>
      have haddr : u.addr = v.addr := by
        obtain ⟨w, hw, hcw⟩ := (hcov u.addr).mp ⟨u, List.mem_cons_self _ _, covN_self bits u⟩
        obtain ⟨w2, hw2, hcw2⟩ :=
          (hcov v.addr).mpr ⟨v, List.mem_cons_self _ _, covN_self bits v⟩
        have h1 : v.addr ≤ u.addr := by
          have hle : netLe v w := by
            rcases List.mem_cons.mp hw with h | h
            · subst h
              unfold netLe
              omega
            · exact List.rel_of_sorted_cons hs2 w h
          have hwa := hcw.1
          unfold netLe at hle
          omega
        have h2 : u.addr ≤ v.addr := by
          have hle : netLe u w2 := by
            rcases List.mem_cons.mp hw2 with h | h
            · subst h
              unfold netLe
              omega
            · exact List.rel_of_sorted_cons hs1 w2 h
          have hwa := hcw2.1
          unfold netLe at hle
          omega
        omega
      have huv : u = v := by
        rcases le_total (2 ^ (bits - u.plen)) (2 ^ (bits - v.plen)) with h | h
        · exact head_eq_canonical bits u v t1 t2 hv1 hd1 hsib1 hv2 hcov haddr h
        · exact (head_eq_canonical bits v u t2 t1 hv2 hd2 hsib2 hv1
            (fun x => (hcov x).symm) haddr.symm h).symm
      subst huv
      have hcovt : ∀ x, covL bits t1 x ↔ covL bits t2 x := by
        intro x
        rw [covL_tail_iff bits u t1 hd1 x, covL_tail_iff bits u t2 hd2 x, hcov x]
      rw [List.cons_inj_right]
      exact ih t2 (fun n hn => hv1 n (List.mem_cons.mpr (Or.inr hn))) hs1.of_cons
        (List.pairwise_cons.mp hd1).2 (List.pairwise_cons.mp hsib1).2
        (fun n hn => hv2 n (List.mem_cons.mpr (Or.inr hn))) hs2.of_cons
        (List.pairwise_cons.mp hd2).2 (List.pairwise_cons.mp hsib2).2 hcovt

theorem collapse_addresses_idem (bits : Nat) (input : List Net)
    (hv : ∀ n ∈ input, NetV bits n) :
    collapse_addresses bits (collapse_addresses bits input) =
      collapse_addresses bits input := by
  obtain ⟨hva, hsa, hsupa, hda, hcova⟩ := collapse_addresses_spec bits input hv
  obtain ⟨hvb, hsb, hsupb, hdb, hcovb⟩ :=
    collapse_addresses_spec bits (collapse_addresses bits input) hva
  have hsiba : List.Pairwise (fun a b => ¬netSiblings bits a b)
      (collapse_addresses bits input) :=
    hsupa.imp fun h hs => h hs.2.2
  have hsibb : List.Pairwise (fun a b => ¬netSiblings bits a b)
      (collapse_addresses bits (collapse_addresses bits input)) :=
    hsupb.imp fun h hs => h hs.2.2
  exact canonical_unique bits _ _ hvb hsb hdb hsibb hva hsa hda hsiba hcovb

/-! Round trips between network rendering and parsing. -/

theorem joinSep_cons_cons (sep : Char) (p q : List Char) (rest : List (List Char)) :
    joinSep sep (p :: q :: rest) = p ++ sep :: joinSep sep (q :: rest) := rfl

theorem dropWhile_eq_self_of_none (p : Char → Bool) (cs : List Char)
    (h : ∀ c ∈ cs, p c = false) : cs.dropWhile p = cs := by
  cases cs with
  | nil => rfl
  | cons c rest =>
    rw [List.dropWhile_cons_of_neg]
    rw [h c (List.mem_cons_self _ _)]
    exact Bool.false_ne_true

theorem pyStrip_of_no_space (cs : List Char) (h : ∀ c ∈ cs, isPySpace c = false) :
    pyStrip cs = cs := by
  unfold pyStrip
  rw [dropWhile_eq_self_of_none _ cs h,
    dropWhile_eq_self_of_none _ cs.reverse (fun c hc => h c (List.mem_reverse.mp hc)),
    List.reverse_reverse]

theorem splitOnChar_joinSep (sep : Char) :
    ∀ (parts : List (List Char)), parts ≠ [] → (∀ p ∈ parts, sep ∉ p) →
    splitOnChar sep (joinSep sep parts) = parts
  | [], h, _ => absurd rfl h
  | [p], _, hp => by
    show splitOnChar sep (joinSep sep [p]) = [p]
    rw [joinSep]
    exact splitOnChar_of_not_mem sep p (hp p (List.mem_cons_self _ _))
  | p :: q :: rest, _, hp => by
    show splitOnChar sep (joinSep sep (p :: q :: rest)) = p :: q :: rest
    rw [joinSep_cons_cons, splitOnChar_append sep p _ (hp p (List.mem_cons_self _ _))]
    rw [splitOnChar_joinSep sep (q :: rest) (by simp)
      (fun r hr => hp r (List.mem_cons.mpr (Or.inr hr)))]

theorem mem_joinSep (sep : Char) :
    ∀ (parts : List (List Char)) (c : Char), c ∈ joinSep sep parts →
      c = sep ∨ ∃ p ∈ parts, c ∈ p
  | [], c, hc => by
    rw [joinSep] at hc
    simp at hc
  | [p], c, hc => by
    rw [joinSep] at hc
    exact Or.inr ⟨p, List.mem_cons_self _ _, hc⟩
  | p :: q :: rest, c, hc => by
    rw [joinSep_cons_cons] at hc
    rcases List.mem_append.mp hc with h | h
    · exact Or.inr ⟨p, List.mem_cons_self _ _, h⟩
    · rcases List.mem_cons.mp h with h | h
      · exact Or.inl h
      · rcases mem_joinSep sep (q :: rest) c h with h2 | ⟨r, hr, hcr⟩
        · exact Or.inl h2
        · exact Or.inr ⟨r, List.mem_cons.mpr (Or.inr hr), hcr⟩

theorem sep_mem_joinSep (sep : Char) (p q : List Char) (rest : List (List Char)) :
    sep ∈ joinSep sep (p :: q :: rest) := by
  rw [joinSep_cons_cons]
  exact List.mem_append.mpr (Or.inr (List.mem_cons_self _ _))

theorem joinSep_ne_nil_of_two (sep : Char) (p q : List Char) (rest : List (List Char)) :
    joinSep sep (p :: q :: rest) ≠ [] := by
  intro h
  have := sep_mem_joinSep sep p q rest
  rw [h] at this
  simp at this

theorem not_mem_natToDec_of_not_dec (n : Nat) (c : Char) (hc : isDec c = false) :
    c ∉ natToDec n := by
  intro hmem
  have := List.all_eq_true.mp (natToDec_all_isDec n) c hmem
  rw [hc] at this
  exact Bool.noConfusion this

theorem not_mem_natToHex_of_not_hex (n : Nat) (c : Char) (hc : isHexDigit c = false) :
    c ∉ natToHex n := by
  intro hmem
  have := List.all_eq_true.mp (natToHex_all_isHexDigit n) c hmem
  rw [hc] at this
  exact Bool.noConfusion this

theorem natToHex_eq_zero_str (e : Nat) (h : natToHex e = ['0']) : e = 0 := by
  have h2 := hexListVal_natToHex e
  rw [h] at h2
  have h3 : hexListVal ['0'] = 0 := by decide
  omega

theorem isEmpty_false_of_ne_nil (p : List Char) (h : p ≠ []) : p.isEmpty = false := by
  cases p with
  | nil => exact absurd rfl h
  | cons c rest => rfl

theorem mem_fmtV4Addr (a : Nat) (c : Char) (hc : c ∈ fmtV4Addr a) :
    c = '.' ∨ isDec c = true := by
  rcases mem_joinSep '.' _ c hc with h | ⟨p, hp, hcp⟩
  · exact Or.inl h
  · right
    have hp4 : p = natToDec (a / 2 ^ 24) ∨ p = natToDec (a / 2 ^ 16 % 256) ∨
        p = natToDec (a / 2 ^ 8 % 256) ∨ p = natToDec (a % 256) := by
      simpa using hp
    rcases hp4 with h | h | h | h <;>
      exact List.all_eq_true.mp (natToDec_all_isDec _) c (h ▸ hcp)

theorem parseIPv4Int_fmtV4Addr (a : Nat) (ha : a < 2 ^ 32) :
    parseIPv4Int (fmtV4Addr a) = some a := by
  have e24 : (2:Nat) ^ 24 = 16777216 := by norm_num
  have e16 : (2:Nat) ^ 16 = 65536 := by norm_num
  have e8 : (2:Nat) ^ 8 = 256 := by norm_num
  have e32 : (2:Nat) ^ 32 = 4294967296 := by norm_num
  have hb1 : a / 2 ^ 24 ≤ 255 := by
    rw [e24]
    omega
  have hb2 : a / 2 ^ 16 % 256 ≤ 255 := by omega
  have hb3 : a / 2 ^ 8 % 256 ≤ 255 := by omega
  have hb4 : a % 256 ≤ 255 := by omega
  have hsplit : splitOnChar '.' (fmtV4Addr a) =
      [natToDec (a / 2 ^ 24), natToDec (a / 2 ^ 16 % 256), natToDec (a / 2 ^ 8 % 256),
        natToDec (a % 256)] := by
    apply splitOnChar_joinSep
    · simp
    · intro p hp
      have hp4 : p = natToDec (a / 2 ^ 24) ∨ p = natToDec (a / 2 ^ 16 % 256) ∨
          p = natToDec (a / 2 ^ 8 % 256) ∨ p = natToDec (a % 256) := by
        simpa using hp
      rcases hp4 with h | h | h | h <;>
        exact h ▸ not_mem_natToDec_of_not_dec _ '.' (by decide)
  have hne : fmtV4Addr a ≠ [] := joinSep_ne_nil_of_two '.' _ _ _
  unfold parseIPv4Int
  rw [if_neg (by simp [hne])]
  rw [hsplit]
  simp only [parseOctet_natToDec _ hb1, parseOctet_natToDec _ hb2, parseOctet_natToDec _ hb3,
    parseOctet_natToDec _ hb4]
  congr 1
  rw [e24, e16, e8] at *
  omega

theorem parseV4Network_fmtNetV4 (n : Net) (hv : NetV 32 n) :
    parseV4Network (fmtNetV4 n).data = some n := by
  have hdata : (fmtNetV4 n).data = fmtV4Addr n.addr ++ '/' :: natToDec n.plen := rfl
  rw [hdata]
  have hnomem : '/' ∉ fmtV4Addr n.addr := by
    intro hmem
    rcases mem_fmtV4Addr n.addr '/' hmem with h | h
    · exact absurd h (by decide)
    · exact absurd h (by decide)
  have hsl : splitOnChar '/' (fmtV4Addr n.addr ++ '/' :: natToDec n.plen) =
      [fmtV4Addr n.addr, natToDec n.plen] := by
    rw [splitOnChar_append '/' _ _ hnomem]
    rw [splitOnChar_of_not_mem '/' _ (not_mem_natToDec_of_not_dec n.plen '/' (by decide))]
  have haddr : n.addr < 2 ^ 32 := by
    have h2 := hv.2.1
    have hp : 0 < 2 ^ (32 - n.plen) := pow_pos (by omega) _
    omega
  have hm : v4MaskToPlen (natToDec n.plen) = some n.plen := by
    unfold v4MaskToPlen
    rw [parsePlenStr_natToDec 32 n.plen hv.1]
  unfold parseV4Network
  rw [hsl]
  simp only [parseIPv4Int_fmtV4Addr n.addr haddr, hm, hv.2.2, Nat.sub_zero]

theorem ip_network_fmtNetV4 (n : Net) (hv : NetV 32 n) :
    ipNetworkOfChars (fmtNetV4 n).data = some (.v4 n) := by
  unfold ipNetworkOfChars
  rw [parseV4Network_fmtNetV4 n hv]

theorem fmtNetV4_no_space (n : Net) : ∀ c ∈ (fmtNetV4 n).data, isPySpace c = false := by
  intro c hc
  have hdata : (fmtNetV4 n).data = fmtV4Addr n.addr ++ '/' :: natToDec n.plen := rfl
  rw [hdata] at hc
  rcases List.mem_append.mp hc with h | h
  · rcases mem_fmtV4Addr n.addr c h with h2 | h2
    · subst h2
      decide
    · exact (isDec_ne_sep c h2).2.2.2
  · rcases List.mem_cons.mp h with h2 | h2
    · subst h2
      decide
    · exact (isDec_ne_sep c (List.all_eq_true.mp (natToDec_all_isDec _) c h2)).2.2.2

theorem hextetsOf_length (a : Nat) : (hextetsOf a).length = 8 := rfl

theorem hextetsOf_bound (a : Nat) : ∀ h ∈ hextetsOf a, h < 65536 := by
  intro h hh
  have h8 : h = a / 2 ^ 112 % 65536 ∨ h = a / 2 ^ 96 % 65536 ∨ h = a / 2 ^ 80 % 65536 ∨
      h = a / 2 ^ 64 % 65536 ∨ h = a / 2 ^ 48 % 65536 ∨ h = a / 2 ^ 32 % 65536 ∨
      h = a / 2 ^ 16 % 65536 ∨ h = a % 65536 := by
    simpa [hextetsOf] using hh
  rcases h8 with h1 | h1 | h1 | h1 | h1 | h1 | h1 | h1 <;> subst h1 <;> omega

theorem foldl_hextetsOf (a : Nat) (ha : a < 2 ^ 128) :
    (hextetsOf a).foldl (fun acc h => acc * 2 ^ 16 + h) 0 = a := by
  simp only [hextetsOf, List.foldl_cons, List.foldl_nil]
  omega

theorem foldHextets_map (hs : List Nat) :
    ∀ acc, (∀ h ∈ hs, h < 65536) →
    foldHextets (hs.map natToHex) acc =
      some (hs.foldl (fun a h => a * 2 ^ 16 + h) acc) := by
  induction hs with
  | nil =>
    intro acc _
    rfl
  | cons h t ih =>
    intro acc hb
    rw [List.map_cons, foldHextets, parseHextet_natToHex h (hb h (List.mem_cons_self _ _))]
    rw [List.foldl_cons]
    exact ih _ (fun x hx => hb x (List.mem_cons.mpr (Or.inr hx)))

theorem foldl_replicate_zero : ∀ (bl : Nat) (acc : Nat),
    List.foldl (fun a h => a * 2 ^ 16 + h) acc (List.replicate bl 0) =
      acc * 2 ^ (16 * bl) := by
  intro bl
  induction bl with
  | zero =>
    intro acc
    simp
  | succ m ih =>
    intro acc
    rw [List.replicate_succ, List.foldl_cons, ih (acc * 2 ^ 16 + 0), Nat.add_zero]
    have h16 : 16 * (m + 1) = 16 + 16 * m := by ring
    rw [h16, pow_add]
    ring

theorem decomp_of_window {α : Type} (l : List α) (z : α) (s n : Nat)
    (hsn : s + n ≤ l.length)
    (hw : ∀ j, s ≤ j → j < s + n → l.get? j = some z) :
    l = l.take s ++ List.replicate n z ++ l.drop (s + n) := by
  have h2 : (l.drop s).drop n = l.drop (s + n) := by
    rw [List.drop_drop]
  have h3 : (l.drop s).take n = List.replicate n z := by
    rw [List.eq_replicate]
    refine ⟨by rw [List.length_take, List.length_drop]; omega, ?_⟩
    intro b hb
    obtain ⟨j, hj⟩ := List.mem_iff_get?.mp hb
    have hjlen : j < ((l.drop s).take n).length := by
      by_contra hc
      rw [List.get?_eq_none.mpr (by omega)] at hj
      exact Option.noConfusion hj
    have hjn : j < n := by
      rw [List.length_take] at hjlen
      omega
    rw [List.get?_take_eq_if, if_pos hjn, List.get?_drop] at hj
    rw [hw (s + j) (by omega) (by omega)] at hj
    injection hj with hj
    exact hj.symm
  calc l = l.take s ++ l.drop s := (List.take_append_drop s l).symm
  _ = l.take s ++ ((l.drop s).take n ++ (l.drop s).drop n) := by
      rw [List.take_append_drop n (l.drop s)]
  _ = l.take s ++ (List.replicate n z ++ l.drop (s + n)) := by rw [h3, h2]
  _ = l.take s ++ List.replicate n z ++ l.drop (s + n) := by rw [List.append_assoc]

theorem bestZeroRunAux_spec (full : List (List Char)) :
    ∀ (rest : List (List Char)) (idx bs bl cs cl : Nat),
    full.drop idx = rest →
    (∀ j, bs ≤ j → j < bs + bl → full.get? j = some ['0']) →
    (cl ≠ 0 → cs + cl = idx) →
    (∀ j, cs ≤ j → j < cs + cl → full.get? j = some ['0']) →
    ∀ j, (bestZeroRunAux rest idx bs bl cs cl).1 ≤ j →
      j < (bestZeroRunAux rest idx bs bl cs cl).1 + (bestZeroRunAux rest idx bs bl cs cl).2 →
      full.get? j = some ['0'] := by
  intro rest
  induction rest with
  | nil =>
    intro idx bs bl cs cl hdrop hbw hcl hcw j hj1 hj2
    rw [bestZeroRunAux] at hj1 hj2
    exact hbw j hj1 hj2
  | cons p rest2 ih =>
    intro idx bs bl cs cl hdrop hbw hcl hcw j hj1 hj2
    have hget : full.get? idx = some p := by
      have := List.get?_drop full idx 0
      rw [hdrop] at this
      simpa using this.symm
    have hdrop2 : full.drop (idx + 1) = rest2 := by
      have : full.drop (idx + 1) = (full.drop idx).drop 1 := by
        rw [List.drop_drop]
      rw [this, hdrop]
      rfl
    rw [bestZeroRunAux] at hj1 hj2
    by_cases hp : p = ['0']
    · rw [if_pos hp] at hj1 hj2
      have hcw2 : ∀ j2, (if cl = 0 then idx else cs) ≤ j2 →
          j2 < (if cl = 0 then idx else cs) + (cl + 1) → full.get? j2 = some ['0'] := by
        intro j2 hj21 hj22
        by_cases hcl0 : cl = 0
        · rw [if_pos hcl0] at hj21 hj22
          have : j2 = idx := by omega
          rw [this, hget, hp]
        · rw [if_neg hcl0] at hj21 hj22
          have hcs := hcl hcl0
          by_cases hlast : j2 < cs + cl
          · exact hcw j2 hj21 hlast
          · have : j2 = idx := by omega
            rw [this, hget, hp]
      have hcl2 : cl + 1 ≠ 0 → (if cl = 0 then idx else cs) + (cl + 1) = idx + 1 := by
        intro _
        by_cases hcl0 : cl = 0
        · rw [if_pos hcl0]
          omega
        · rw [if_neg hcl0]
          have := hcl hcl0
          omega
      by_cases hbl : bl < cl + 1
      · rw [if_pos hbl] at hj1 hj2
        exact ih (idx + 1) _ _ _ _ hdrop2 hcw2 hcl2 hcw2 j hj1 hj2
      · rw [if_neg hbl] at hj1 hj2
        exact ih (idx + 1) _ _ _ _ hdrop2 hbw hcl2 hcw2 j hj1 hj2
    · rw [if_neg hp] at hj1 hj2
      exact ih (idx + 1) _ _ _ _ hdrop2 hbw (fun h => absurd rfl h)
        (fun j2 h1 h2 => absurd h2 (by omega)) j hj1 hj2

theorem bestZeroRun_spec (parts : List (List Char)) :
    ∀ j, (bestZeroRun parts).1 ≤ j → j < (bestZeroRun parts).1 + (bestZeroRun parts).2 →
      parts.get? j = some ['0'] := by
  intro j hj1 hj2
  exact bestZeroRunAux_spec parts parts 0 0 0 0 0 (by rfl)
    (fun j2 h1 h2 => absurd h2 (by omega)) (fun h => absurd rfl h)
    (fun j2 h1 h2 => absurd h2 (by omega)) j hj1 hj2

theorem findSkip_cons_ne (p : List Char) (rest : List (List Char)) (i : Nat)
    (acc : Option Nat) (h : p.isEmpty = false) :
    findSkip (p :: rest) i acc = findSkip rest (i + 1) acc := by
  show (if p.isEmpty then match acc with
      | some _ => none
      | none => findSkip rest (i + 1) (some i) else findSkip rest (i + 1) acc) = _
  rw [h]
  simp

theorem findSkip_cons_nil (rest : List (List Char)) (i : Nat) :
    findSkip ([] :: rest) i none = findSkip rest (i + 1) (some i) := rfl

theorem findSkip_none_of_no_empty : ∀ (parts : List (List Char)) (i : Nat) (acc : Option Nat),
    (∀ p ∈ parts, p ≠ []) → findSkip parts i acc = some acc
  | [], _, _, _ => rfl
  | p :: rest, i, acc, h => by
    rw [findSkip_cons_ne p rest i acc
      (isEmpty_false_of_ne_nil p (h p (List.mem_cons_self _ _)))]
    exact findSkip_none_of_no_empty rest (i + 1) acc
      (fun q hq => h q (List.mem_cons.mpr (Or.inr hq)))

theorem findSkip_one_empty : ∀ (A B : List (List Char)) (i : Nat),
    (∀ p ∈ A, p ≠ []) → (∀ p ∈ B, p ≠ []) →
    findSkip (A ++ [] :: B) i none = some (some (i + A.length))
  | [], B, i, _, hB => by
    rw [List.nil_append, findSkip_cons_nil, findSkip_none_of_no_empty B (i + 1) (some i) hB]
    simp
  | a :: A2, B, i, hA, hB => by
    rw [List.cons_append, findSkip_cons_ne _ _ _ _
      (isEmpty_false_of_ne_nil a (hA a (List.mem_cons_self _ _)))]
    rw [findSkip_one_empty A2 B (i + 1) (fun q hq => hA q (List.mem_cons.mpr (Or.inr hq))) hB]
    rw [List.length_cons]
    congr 2
    omega

theorem parseOctet_none_of_colon (p : List Char) (h : ':' ∈ p) : parseOctet p = none := by
  have hne : p ≠ [] := by
    rintro rfl
    simp at h
  have hall : p.all isDec = false := by
    rw [List.all_eq_false]
    exact ⟨':', h, by decide⟩
  unfold parseOctet
  rw [if_neg (by simp [List.isEmpty_iff, hne]), if_pos (by rw [hall]; rfl)]

theorem parseIPv4Int_none_of_colon (cs : List Char) (h : ':' ∈ cs) :
    parseIPv4Int cs = none := by
  have hne : cs ≠ [] := by
    rintro rfl
    simp at h
  unfold parseIPv4Int
  rw [if_neg (by simp [List.isEmpty_iff, hne])]
  rcases mem_splitOnChar_of_mem '.' cs ':' h with hc | ⟨p, hp, hcp⟩
  · exact absurd hc (by decide)
  · have ho : parseOctet p = none := parseOctet_none_of_colon p hcp
    rcases hsp : splitOnChar '.' cs with _ | ⟨o1, _ | ⟨o2, _ | ⟨o3, _ | ⟨o4, _ | ⟨o5, rest⟩⟩⟩⟩⟩ <;>
      rw [hsp] at hp <;> try rfl
    have hp4 : p = o1 ∨ p = o2 ∨ p = o3 ∨ p = o4 := by simpa using hp
    rcases hp4 with he | he | he | he <;> rw [he] at ho <;>
      cases h1 : parseOctet o1 <;> cases h2 : parseOctet o2 <;>
        cases h3 : parseOctet o3 <;> cases h4 : parseOctet o4 <;> simp_all

theorem getLast?_mem_of_ne_nil {α : Type} : ∀ (l : List α), l ≠ [] →
    ∃ y, l.getLast? = some y ∧ y ∈ l
  | [x], _ => ⟨x, rfl, List.mem_cons_self _ _⟩
  | x :: y :: t, _ => by
    obtain ⟨z, hz, hmem⟩ := getLast?_mem_of_ne_nil (y :: t) (by simp)
    exact ⟨z, by rw [List.getLast?_cons_cons]; exact hz, List.mem_cons.mpr (Or.inr hmem)⟩

theorem contains_false_of_not_mem (l : List Char) (c : Char) (h : c ∉ l) :
    l.contains c = false := by
  cases hc : l.contains c
  · rfl
  · exact absurd (by simpa using hc) h

theorem fold_decomp (E : List Nat) (bs bl : Nat) (hsn : bs + bl ≤ E.length)
    (hz : ∀ j, bs ≤ j → j < bs + bl → E.get? j = some 0) :
    E.foldl (fun a h => a * 2 ^ 16 + h) 0 =
      (E.drop (bs + bl)).foldl (fun a h => a * 2 ^ 16 + h)
        ((E.take bs).foldl (fun a h => a * 2 ^ 16 + h) 0 * 2 ^ (16 * bl)) := by
  conv_lhs => rw [decomp_of_window E 0 bs bl hsn hz]
  rw [List.foldl_append, List.foldl_append, foldl_replicate_zero]

theorem parseV6Parts_full (E : List Nat) (hlen : E.length = 8) (hb : ∀ h ∈ E, h < 65536) :
    parseV6Parts (E.map natToHex) = some (E.foldl (fun acc h => acc * 2 ^ 16 + h) 0) := by
  have hlh : (E.map natToHex).length = 8 := by rw [List.length_map, hlen]
  have hxne : ∀ p ∈ E.map natToHex, p ≠ [] := by
    intro p hp
    obtain ⟨e, _, rfl⟩ := List.mem_map.mp hp
    exact natToHex_ne_nil e
  obtain ⟨e0, E2, rfl⟩ : ∃ e0 E2, E = e0 :: E2 := by
    cases E with
    | nil => simp at hlen
    | cons e0 E2 => exact ⟨e0, E2, rfl⟩
  have hskip : findSkip (((e0 :: E2).map natToHex).drop 1).dropLast 1 none = some none :=
    findSkip_none_of_no_empty _ 1 none (fun p hp =>
      hxne p ((List.drop_sublist 1 _).subset ((List.dropLast_sublist _).subset hp)))
  have hred : parseV6Parts ((e0 :: E2).map natToHex) =
      (if ((e0 :: E2).map natToHex).length ≠ 8 then none
       else if ((e0 :: E2).map natToHex).head? = some [] then none
       else if ((e0 :: E2).map natToHex).getLast? = some [] then none
       else foldHextets ((e0 :: E2).map natToHex) 0) := by
    unfold parseV6Parts
    rw [if_neg (by omega), hskip]
  rw [hred, if_neg (by omega)]
  rw [if_neg (by
    simp only [List.map_cons, List.head?_cons, Option.some.injEq]
    exact natToHex_ne_nil e0)]
  obtain ⟨y, hy, hymem⟩ := getLast?_mem_of_ne_nil ((e0 :: E2).map natToHex) (by simp)
  rw [if_neg (by
    rw [hy]
    simp only [Option.some.injEq]
    exact hxne y hymem)]
  exact foldHextets_map _ 0 hb

theorem parseIPv6Int_of_parts (P : List (List Char)) (v : Nat)
    (hmem : ∀ p ∈ P, p = [] ∨ ∃ e, p = natToHex e)
    (hlen3 : 3 ≤ P.length)
    (hparts : parseV6Parts P = some v) :
    parseIPv6Int (joinSep ':' P) = some v := by
  have hnocolon : ∀ p ∈ P, ':' ∉ p := by
    intro p hp
    rcases hmem p hp with rfl | ⟨e, rfl⟩
    · simp
    · exact not_mem_natToHex_of_not_hex e ':' (by decide)
  obtain ⟨p, q, rest, rfl⟩ : ∃ p q rest, P = p :: q :: rest := by
    cases P with
    | nil => simp at hlen3
    | cons p P2 =>
      cases P2 with
      | nil => simp at hlen3
      | cons q rest => exact ⟨p, q, rest, rfl⟩
  have hsplit : splitOnChar ':' (joinSep ':' (p :: q :: rest)) = p :: q :: rest :=
    splitOnChar_joinSep ':' _ (by simp) hnocolon
  have hne : joinSep ':' (p :: q :: rest) ≠ [] := joinSep_ne_nil_of_two ':' p q rest
  have hnorm : normalizeV6Parts (p :: q :: rest) = some (p :: q :: rest) := by
    obtain ⟨y, hy, hymem⟩ := getLast?_mem_of_ne_nil (p :: q :: rest) (by simp)
    have hyc : '.' ∉ y := by
      rcases hmem y hymem with rfl | ⟨e, rfl⟩
      · simp
      · exact not_mem_natToHex_of_not_hex e '.' (by decide)
    unfold normalizeV6Parts
    rw [hy]
    simp [hyc]
  unfold parseIPv6Int
  rw [if_neg (by simp [List.isEmpty_iff, hne]), hsplit, if_neg (by omega), hnorm]
  exact hparts

theorem parseV6Parts_skip_mid (E : List Nat) (bs bl : Nat) (hlen : E.length = 8)
    (hb : ∀ h ∈ E, h < 65536) (hbs : 1 ≤ bs) (hbl : 2 ≤ bl) (hlt : bs + bl < 8)
    (hz : ∀ j, bs ≤ j → j < bs + bl → E.get? j = some 0) :
    parseV6Parts ((E.map natToHex).take bs ++ [[]] ++ (E.map natToHex).drop (bs + bl)) =
      some (E.foldl (fun acc h => acc * 2 ^ 16 + h) 0) := by
  have hlh : (E.map natToHex).length = 8 := by rw [List.length_map, hlen]
  have hxne : ∀ p ∈ E.map natToHex, p ≠ [] := by
    intro p hp
    obtain ⟨e, _, rfl⟩ := List.mem_map.mp hp
    exact natToHex_ne_nil e
  obtain ⟨bs2, rfl⟩ : ∃ bs2, bs = bs2 + 1 := ⟨bs - 1, by omega⟩
  have hlA : ((E.map natToHex).take (bs2 + 1)).length = bs2 + 1 := by
    rw [List.length_take]
    omega
  have hlC : ((E.map natToHex).drop (bs2 + 1 + bl)).length = 8 - (bs2 + 1 + bl) := by
    rw [List.length_drop]
    omega
  have hCne : (E.map natToHex).drop (bs2 + 1 + bl) ≠ [] := by
    intro h
    rw [h] at hlC
    simp only [List.length_nil] at hlC
    omega
  have hPlen : ((E.map natToHex).take (bs2 + 1) ++ [[]] ++
      (E.map natToHex).drop (bs2 + 1 + bl)).length = 9 - bl := by
    simp only [List.length_append, hlA, hlC, List.length_cons, List.length_nil]
    omega
  obtain ⟨x0, hxT, hxcons⟩ : ∃ x0 hxT, E.map natToHex = x0 :: hxT := by
    cases hmx : E.map natToHex with
    | nil =>
      rw [hmx] at hlh
      simp at hlh
    | cons a b => exact ⟨a, b, rfl⟩
  have hx0 : x0 ∈ E.map natToHex := by
    rw [hxcons]
    exact List.mem_cons_self _ _
  have hTlen : hxT.length = 7 := by
    have h8 := hlh
    rw [hxcons, List.length_cons] at h8
    omega
  have htake : (E.map natToHex).take (bs2 + 1) = x0 :: hxT.take bs2 := by
    rw [hxcons, List.take_succ_cons]
  have hPcons : (E.map natToHex).take (bs2 + 1) ++ [[]] ++
      (E.map natToHex).drop (bs2 + 1 + bl) =
      x0 :: (hxT.take bs2 ++ [[]] ++ (E.map natToHex).drop (bs2 + 1 + bl)) := by
    rw [htake]
    simp [List.cons_append, List.append_assoc]
  have hhead : ((E.map natToHex).take (bs2 + 1) ++ [[]] ++
      (E.map natToHex).drop (bs2 + 1 + bl)).head? = some x0 := by
    rw [hPcons]
    rfl
  have hheadne : ¬(((E.map natToHex).take (bs2 + 1) ++ [[]] ++
      (E.map natToHex).drop (bs2 + 1 + bl)).head? = some []) := by
    rw [hhead]
    simp only [Option.some.injEq]
    exact hxne x0 hx0
  obtain ⟨y, hyC, hymemC⟩ := getLast?_mem_of_ne_nil _ hCne
  have hygl : ((E.map natToHex).take (bs2 + 1) ++ [[]] ++
      (E.map natToHex).drop (bs2 + 1 + bl)).getLast? = some y := by
    rw [List.getLast?_append_of_ne_nil _ hCne]
    exact hyC
  have hglne : ¬(((E.map natToHex).take (bs2 + 1) ++ [[]] ++
      (E.map natToHex).drop (bs2 + 1 + bl)).getLast? = some []) := by
    rw [hygl]
    simp only [Option.some.injEq]
    intro h
    exact hxne y ((List.drop_sublist _ _).subset hymemC) h
  have hint : ((((E.map natToHex).take (bs2 + 1) ++ [[]] ++
      (E.map natToHex).drop (bs2 + 1 + bl))).drop 1).dropLast =
      hxT.take bs2 ++ [[]] ++ ((E.map natToHex).drop (bs2 + 1 + bl)).dropLast := by
    rw [hPcons]
    rw [List.drop_one, List.tail_cons]
    rw [List.dropLast_append_of_ne_nil _ hCne]
  have hskip : findSkip (hxT.take bs2 ++ [[]] ++
      ((E.map natToHex).drop (bs2 + 1 + bl)).dropLast) 1 none = some (some (bs2 + 1)) := by
    have h1 : hxT.take bs2 ++ [[]] ++ ((E.map natToHex).drop (bs2 + 1 + bl)).dropLast =
        hxT.take bs2 ++ [] :: ((E.map natToHex).drop (bs2 + 1 + bl)).dropLast := by
      simp
    rw [h1, findSkip_one_empty _ _ 1
      (fun p hp => hxne p (by
        rw [hxcons]
        exact List.mem_cons.mpr (Or.inr ((List.take_sublist _ _).subset hp))))
      (fun p hp => hxne p
        ((List.drop_sublist _ _).subset ((List.dropLast_sublist _).subset hp)))]
    congr 2
    rw [List.length_take]
    omega
  have hhi : v6Hi ((E.map natToHex).take (bs2 + 1) ++ [[]] ++
      (E.map natToHex).drop (bs2 + 1 + bl)) (bs2 + 1) = bs2 + 1 := by
    unfold v6Hi
    rw [if_neg hheadne]
  have hlo : v6Lo ((E.map natToHex).take (bs2 + 1) ++ [[]] ++
      (E.map natToHex).drop (bs2 + 1 + bl)) (bs2 + 1) = 8 - bl - (bs2 + 1) := by
    unfold v6Lo
    rw [if_neg hglne, hPlen]
    omega
  have htakeP : ((E.map natToHex).take (bs2 + 1) ++ [[]] ++
      (E.map natToHex).drop (bs2 + 1 + bl)).take (bs2 + 1) =
      (E.map natToHex).take (bs2 + 1) := by
    rw [List.append_assoc]
    exact List.take_left' hlA
  have hfoldA : foldHextets ((E.map natToHex).take (bs2 + 1)) 0 =
      some ((E.take (bs2 + 1)).foldl (fun a h => a * 2 ^ 16 + h) 0) := by
    rw [← List.map_take]
    exact foldHextets_map _ 0 (fun h hh => hb h ((List.take_sublist _ _).subset hh))
  have hfoldC : ∀ acc, foldHextets ((E.map natToHex).drop (bs2 + 1 + bl)) acc =
      some ((E.drop (bs2 + 1 + bl)).foldl (fun a h => a * 2 ^ 16 + h) acc) := by
    intro acc
    rw [← List.map_drop]
    exact foldHextets_map _ acc (fun h hh => hb h ((List.drop_sublist _ _).subset hh))
  have hws : parseV6WithSkip ((E.map natToHex).take (bs2 + 1) ++ [[]] ++
      (E.map natToHex).drop (bs2 + 1 + bl)) (bs2 + 1) =
      some (E.foldl (fun acc h => acc * 2 ^ 16 + h) 0) := by
    calc parseV6WithSkip ((E.map natToHex).take (bs2 + 1) ++ [[]] ++
        (E.map natToHex).drop (bs2 + 1 + bl)) (bs2 + 1)
        = foldHextets (((E.map natToHex).take (bs2 + 1) ++ [[]] ++
            (E.map natToHex).drop (bs2 + 1 + bl)).drop
              (((E.map natToHex).take (bs2 + 1) ++ [[]] ++
                (E.map natToHex).drop (bs2 + 1 + bl)).length -
                v6Lo ((E.map natToHex).take (bs2 + 1) ++ [[]] ++
                  (E.map natToHex).drop (bs2 + 1 + bl)) (bs2 + 1)))
            ((E.take (bs2 + 1)).foldl (fun a h => a * 2 ^ 16 + h) 0 *
              2 ^ (16 * (8 - (bs2 + 1 + v6Lo ((E.map natToHex).take (bs2 + 1) ++ [[]] ++
                (E.map natToHex).drop (bs2 + 1 + bl)) (bs2 + 1))))) := by
          unfold parseV6WithSkip
          rw [if_neg (fun hand => hheadne hand.1), if_neg (fun hand => hglne hand.1),
            if_neg (by rw [hhi, hlo]; omega), if_neg (by rw [hhi, hlo]; omega),
            hhi, htakeP, hfoldA]
      _ = foldHextets ((E.map natToHex).drop (bs2 + 1 + bl))
            ((E.take (bs2 + 1)).foldl (fun a h => a * 2 ^ 16 + h) 0 * 2 ^ (16 * bl)) := by
          rw [hlo, hPlen]
          rw [show 9 - bl - (8 - bl - (bs2 + 1)) = bs2 + 2 from by omega]
          have hlA1 : ((E.map natToHex).take (bs2 + 1) ++ [[]]).length = bs2 + 2 := by
            simp [hlA]
          rw [List.drop_left' hlA1]
          rw [show 16 * (8 - (bs2 + 1 + (8 - bl - (bs2 + 1)))) = 16 * bl from by omega]
      _ = some ((E.drop (bs2 + 1 + bl)).foldl (fun a h => a * 2 ^ 16 + h)
            ((E.take (bs2 + 1)).foldl (fun a h => a * 2 ^ 16 + h) 0 * 2 ^ (16 * bl))) :=
          hfoldC _
      _ = some (E.foldl (fun acc h => acc * 2 ^ 16 + h) 0) := by
          rw [← fold_decomp E (bs2 + 1) bl (by rw [hlen]; omega) hz]
  have hred : parseV6Parts ((E.map natToHex).take (bs2 + 1) ++ [[]] ++
      (E.map natToHex).drop (bs2 + 1 + bl)) =
      parseV6WithSkip ((E.map natToHex).take (bs2 + 1) ++ [[]] ++
        (E.map natToHex).drop (bs2 + 1 + bl)) (bs2 + 1) := by
    unfold parseV6Parts
    rw [if_neg (by omega), hint, hskip]
  rw [hred, hws]

theorem get?_lt_length {α : Type} (l : List α) (n : Nat) (a : α) (h : l.get? n = some a) :
    n < l.length := by
  by_contra hc
  rw [List.get?_eq_none.mpr (by omega)] at h
  exact Option.noConfusion h

theorem parseV6Parts_skip_start (E : List Nat) (bl : Nat) (hlen : E.length = 8)
    (hb : ∀ h ∈ E, h < 65536) (hbl : 2 ≤ bl) (hlt : bl < 8)
    (hz : ∀ j, j < bl → E.get? j = some 0) :
    parseV6Parts ([] :: [] :: (E.map natToHex).drop bl) =
      some (E.foldl (fun acc h => acc * 2 ^ 16 + h) 0) := by
  have hlh : (E.map natToHex).length = 8 := by rw [List.length_map, hlen]
  have hxne : ∀ p ∈ E.map natToHex, p ≠ [] := by
    intro p hp
    obtain ⟨e, _, rfl⟩ := List.mem_map.mp hp
    exact natToHex_ne_nil e
  have hlC : ((E.map natToHex).drop bl).length = 8 - bl := by
    rw [List.length_drop]
    omega
  have hCne : (E.map natToHex).drop bl ≠ [] := by
    intro h
    rw [h] at hlC
    simp only [List.length_nil] at hlC
    omega
  have hPlen : (([] : List Char) :: [] :: (E.map natToHex).drop bl).length = 10 - bl := by
    simp only [List.length_cons, hlC]
    omega
  obtain ⟨y, hyC, hymemC⟩ := getLast?_mem_of_ne_nil _ hCne
  have hygl : (([] : List Char) :: [] :: (E.map natToHex).drop bl).getLast? = some y := by
    rw [show (([] : List Char) :: [] :: (E.map natToHex).drop bl) =
      [[], []] ++ (E.map natToHex).drop bl from rfl]
    rw [List.getLast?_append_of_ne_nil _ hCne]
    exact hyC
  have hglne : ¬((([] : List Char) :: [] :: (E.map natToHex).drop bl).getLast? = some []) := by
    rw [hygl]
    simp only [Option.some.injEq]
    intro h
    exact hxne y ((List.drop_sublist _ _).subset hymemC) h
  have hint : (((([] : List Char) :: [] :: (E.map natToHex).drop bl)).drop 1).dropLast =
      [[]] ++ ((E.map natToHex).drop bl).dropLast := by
    rw [List.drop_one, List.tail_cons]
    rw [show (([] : List Char) :: (E.map natToHex).drop bl) =
      [[]] ++ (E.map natToHex).drop bl from rfl]
    rw [List.dropLast_append_of_ne_nil _ hCne]
  have hskip : findSkip ([[]] ++ ((E.map natToHex).drop bl).dropLast) 1 none =
      some (some 1) := by
    rw [show ([[]] ++ ((E.map natToHex).drop bl).dropLast : List (List Char)) =
      [] ++ [] :: ((E.map natToHex).drop bl).dropLast from rfl]
    rw [findSkip_one_empty [] _ 1 (by intro p hp; simp at hp)
      (fun p hp => hxne p
        ((List.drop_sublist _ _).subset ((List.dropLast_sublist _).subset hp)))]
    rfl
  have hhi : v6Hi (([] : List Char) :: [] :: (E.map natToHex).drop bl) 1 = 0 := by
    unfold v6Hi
    simp
  have hlo : v6Lo (([] : List Char) :: [] :: (E.map natToHex).drop bl) 1 = 8 - bl := by
    unfold v6Lo
    rw [if_neg hglne, hPlen]
    omega
  have hfoldC : ∀ acc, foldHextets ((E.map natToHex).drop bl) acc =
      some ((E.drop bl).foldl (fun a h => a * 2 ^ 16 + h) acc) := by
    intro acc
    rw [← List.map_drop]
    exact foldHextets_map _ acc (fun h hh => hb h ((List.drop_sublist _ _).subset hh))
  have hws : parseV6WithSkip (([] : List Char) :: [] :: (E.map natToHex).drop bl) 1 =
      some (E.foldl (fun acc h => acc * 2 ^ 16 + h) 0) := by
    calc parseV6WithSkip (([] : List Char) :: [] :: (E.map natToHex).drop bl) 1
        = foldHextets ((([] : List Char) :: [] :: (E.map natToHex).drop bl).drop
            ((([] : List Char) :: [] :: (E.map natToHex).drop bl).length -
              v6Lo (([] : List Char) :: [] :: (E.map natToHex).drop bl) 1))
            (0 * 2 ^ (16 * (8 - (0 +
              v6Lo (([] : List Char) :: [] :: (E.map natToHex).drop bl) 1)))) := by
          unfold parseV6WithSkip
          rw [if_neg (fun hand => hand.2 rfl), if_neg (fun hand => hglne hand.1),
            if_neg (by rw [hhi, hlo]; omega), if_neg (by rw [hhi, hlo]; omega),
            hhi, List.take_zero]
          rfl
      _ = foldHextets ((E.map natToHex).drop bl) (0 * 2 ^ (16 * bl)) := by
          rw [hlo, hPlen]
          rw [show 10 - bl - (8 - bl) = 2 from by omega]
          rw [show ((([] : List Char) :: [] :: (E.map natToHex).drop bl)).drop 2 =
            (E.map natToHex).drop bl from rfl]
          rw [show 16 * (8 - (0 + (8 - bl))) = 16 * bl from by omega]
      _ = some ((E.drop bl).foldl (fun a h => a * 2 ^ 16 + h) (0 * 2 ^ (16 * bl))) :=
          hfoldC _
      _ = some (E.foldl (fun acc h => acc * 2 ^ 16 + h) 0) := by
          have hfd := fold_decomp E 0 bl (by rw [hlen]; omega)
            (fun j h1 h2 => hz j (by omega))
          rw [List.take_zero, List.foldl_nil, Nat.zero_add] at hfd
          rw [← hfd]
  have hred : parseV6Parts (([] : List Char) :: [] :: (E.map natToHex).drop bl) =
      parseV6WithSkip (([] : List Char) :: [] :: (E.map natToHex).drop bl) 1 := by
    unfold parseV6Parts
    rw [if_neg (by omega), hint, hskip]
  rw [hred, hws]

theorem parseV6Parts_skip_end (E : List Nat) (bs : Nat) (hlen : E.length = 8)
    (hb : ∀ h ∈ E, h < 65536) (hbs : 1 ≤ bs) (hle : bs ≤ 6)
    (hz : ∀ j, bs ≤ j → j < 8 → E.get? j = some 0) :
    parseV6Parts ((E.map natToHex).take bs ++ [[], []]) =
      some (E.foldl (fun acc h => acc * 2 ^ 16 + h) 0) := by
  have hlh : (E.map natToHex).length = 8 := by rw [List.length_map, hlen]
  have hxne : ∀ p ∈ E.map natToHex, p ≠ [] := by
    intro p hp
    obtain ⟨e, _, rfl⟩ := List.mem_map.mp hp
    exact natToHex_ne_nil e
  obtain ⟨bs2, rfl⟩ : ∃ bs2, bs = bs2 + 1 := ⟨bs - 1, by omega⟩
  have hlA : ((E.map natToHex).take (bs2 + 1)).length = bs2 + 1 := by
    rw [List.length_take]
    omega
  have hPlen : ((E.map natToHex).take (bs2 + 1) ++ [[], []]).length = bs2 + 3 := by
    simp only [List.length_append, hlA, List.length_cons, List.length_nil]
  obtain ⟨x0, hxT, hxcons⟩ : ∃ x0 hxT, E.map natToHex = x0 :: hxT := by
    cases hmx : E.map natToHex with
    | nil =>
      rw [hmx] at hlh
      simp at hlh
    | cons a b => exact ⟨a, b, rfl⟩
  have hx0 : x0 ∈ E.map natToHex := by
    rw [hxcons]
    exact List.mem_cons_self _ _
  have htake : (E.map natToHex).take (bs2 + 1) = x0 :: hxT.take bs2 := by
    rw [hxcons, List.take_succ_cons]
  have hPcons : (E.map natToHex).take (bs2 + 1) ++ [[], []] =
      x0 :: (hxT.take bs2 ++ [[], []]) := by
    rw [htake]
    simp [List.cons_append]
  have hhead : ((E.map natToHex).take (bs2 + 1) ++ [[], []]).head? = some x0 := by
    rw [hPcons]
    rfl
  have hheadne : ¬(((E.map natToHex).take (bs2 + 1) ++ [[], []]).head? = some []) := by
    rw [hhead]
    simp only [Option.some.injEq]
    exact hxne x0 hx0
  have hygl : ((E.map natToHex).take (bs2 + 1) ++ [[], []]).getLast? = some [] := by
    rw [List.getLast?_append_of_ne_nil _ (by simp : ([[], []] : List (List Char)) ≠ [])]
    rfl
  have hint : ((((E.map natToHex).take (bs2 + 1) ++ [[], []])).drop 1).dropLast =
      hxT.take bs2 ++ [[]] := by
    rw [hPcons]
    rw [List.drop_one, List.tail_cons]
    rw [List.dropLast_append_of_ne_nil _ (by simp : ([[], []] : List (List Char)) ≠ [])]
    rfl
  have hskip : findSkip (hxT.take bs2 ++ [[]]) 1 none = some (some (bs2 + 1)) := by
    rw [show (hxT.take bs2 ++ [[]] : List (List Char)) = hxT.take bs2 ++ [] :: [] from rfl]
    rw [findSkip_one_empty _ [] 1
      (fun p hp => hxne p (by
        rw [hxcons]
        exact List.mem_cons.mpr (Or.inr ((List.take_sublist _ _).subset hp))))
      (by intro p hp; simp at hp)]
    congr 2
    have hTlen : hxT.length = 7 := by
      have h8 := hlh
      rw [hxcons, List.length_cons] at h8
      omega
    rw [List.length_take]
    omega
  have hhi : v6Hi ((E.map natToHex).take (bs2 + 1) ++ [[], []]) (bs2 + 1) = bs2 + 1 := by
    unfold v6Hi
    rw [if_neg hheadne]
  have hlo : v6Lo ((E.map natToHex).take (bs2 + 1) ++ [[], []]) (bs2 + 1) = 0 := by
    unfold v6Lo
    rw [if_pos hygl, hPlen]
    omega
  have htakeP : ((E.map natToHex).take (bs2 + 1) ++ [[], []]).take (bs2 + 1) =
      (E.map natToHex).take (bs2 + 1) :=
    List.take_left' hlA
  have hfoldA : foldHextets ((E.map natToHex).take (bs2 + 1)) 0 =
      some ((E.take (bs2 + 1)).foldl (fun a h => a * 2 ^ 16 + h) 0) := by
    rw [← List.map_take]
    exact foldHextets_map _ 0 (fun h hh => hb h ((List.take_sublist _ _).subset hh))
  have hws : parseV6WithSkip ((E.map natToHex).take (bs2 + 1) ++ [[], []]) (bs2 + 1) =
      some (E.foldl (fun acc h => acc * 2 ^ 16 + h) 0) := by
    calc parseV6WithSkip ((E.map natToHex).take (bs2 + 1) ++ [[], []]) (bs2 + 1)
        = foldHextets (((E.map natToHex).take (bs2 + 1) ++ [[], []]).drop
            (((E.map natToHex).take (bs2 + 1) ++ [[], []]).length -
              v6Lo ((E.map natToHex).take (bs2 + 1) ++ [[], []]) (bs2 + 1)))
            ((E.take (bs2 + 1)).foldl (fun a h => a * 2 ^ 16 + h) 0 *
              2 ^ (16 * (8 - (bs2 + 1 +
                v6Lo ((E.map natToHex).take (bs2 + 1) ++ [[], []]) (bs2 + 1))))) := by
          unfold parseV6WithSkip
          rw [if_neg (fun hand => hheadne hand.1),
            if_neg (fun hand => hand.2 (by rw [hPlen]; omega)),
            if_neg (by rw [hhi, hlo]; omega), if_neg (by rw [hhi, hlo]; omega),
            hhi, htakeP, hfoldA]
      _ = some ((E.take (bs2 + 1)).foldl (fun a h => a * 2 ^ 16 + h) 0 *
            2 ^ (16 * (8 - (bs2 + 1)))) := by
          rw [hlo, Nat.sub_zero, List.drop_length]
          rw [show 16 * (8 - (bs2 + 1 + 0)) = 16 * (8 - (bs2 + 1)) from by omega]
          rfl
      _ = some (E.foldl (fun acc h => acc * 2 ^ 16 + h) 0) := by
          have hfd := fold_decomp E (bs2 + 1) (8 - (bs2 + 1)) (by rw [hlen]; omega)
            (fun j h1 h2 => hz j h1 (by omega))
          rw [show bs2 + 1 + (8 - (bs2 + 1)) = 8 from by omega] at hfd
          rw [show E.drop 8 = [] from by rw [← hlen, List.drop_length], List.foldl_nil] at hfd
          rw [← hfd]
  have hred : parseV6Parts ((E.map natToHex).take (bs2 + 1) ++ [[], []]) =
      parseV6WithSkip ((E.map natToHex).take (bs2 + 1) ++ [[], []]) (bs2 + 1) := by
    unfold parseV6Parts
    rw [if_neg (by omega), hint, hskip]
  rw [hred, hws]

theorem parseV6Parts_all_zero (E : List Nat) (hlen : E.length = 8)
    (hz : ∀ j, j < 8 → E.get? j = some 0) :
    parseV6Parts [[], [], []] = some (E.foldl (fun acc h => acc * 2 ^ 16 + h) 0) := by
  have hE : E = List.replicate 8 0 := by
    have hd := decomp_of_window E 0 0 8 (by omega) (fun j _ h2 => hz j h2)
    rw [List.take_zero, List.nil_append] at hd
    rw [show E.drop (0 + 8) = [] from by rw [Nat.zero_add, ← hlen, List.drop_length]] at hd
    rw [List.append_nil] at hd
    exact hd
  rw [hE, foldl_replicate_zero, Nat.zero_mul]
  rfl

theorem parseIPv6Int_fmt_core (E : List Nat) (hlen : E.length = 8)
    (hb : ∀ h ∈ E, h < 65536) :
    parseIPv6Int (joinSep ':' (compressHextets (E.map natToHex))) =
      some (E.foldl (fun acc h => acc * 2 ^ 16 + h) 0) := by
  have hlh : (E.map natToHex).length = 8 := by rw [List.length_map, hlen]
  have hclass : ∀ p ∈ E.map natToHex, p = [] ∨ ∃ e, p = natToHex e := by
    intro p hp
    obtain ⟨e, _, rfl⟩ := List.mem_map.mp hp
    exact Or.inr ⟨e, rfl⟩
  rcases hbr : bestZeroRun (E.map natToHex) with ⟨bs, bl⟩
  have hzs : ∀ j, bs ≤ j → j < bs + bl → E.get? j = some 0 := by
    intro j h1 h2
    have hs := bestZeroRun_spec (E.map natToHex) j
      (by rw [hbr]; exact h1) (by rw [hbr]; exact h2)
    rw [List.get?_map] at hs
    obtain ⟨e, he, hne⟩ := Option.map_eq_some'.mp hs
    rw [he, natToHex_eq_zero_str e hne]
  by_cases hbl2 : 1 < bl
  · have hwin : bs + bl ≤ 8 := by
      have hg := hzs (bs + bl - 1) (by omega) (by omega)
      have := get?_lt_length E _ _ hg
      omega
    by_cases hend : bs + bl = 8
    · by_cases hs0 : bs = 0
      · have hbl8 : bl = 8 := by omega
        have hP : compressHextets (E.map natToHex) = [[], [], []] := by
          have hdrop8 : (E.map natToHex ++ [[]]).drop (bs + bl) = [[]] := by
            rw [hs0, hbl8]
            rw [show (0 : Nat) + 8 = 8 from rfl]
            rw [← hlh, List.drop_left]
          have htake0 : (E.map natToHex ++ [[]]).take bs = [] := by
            rw [hs0, List.take_zero]
          simp only [compressHextets, hbr]
          rw [if_pos hbl2, if_pos hs0]
          rw [if_pos (show bs + bl = (E.map natToHex).length by rw [hlh]; exact hend)]
          rw [htake0, hdrop8]
          rfl
        rw [hP]
        exact parseIPv6Int_of_parts [[], [], []]
          (E.foldl (fun acc h => acc * 2 ^ 16 + h) 0)
          (by
            intro p hp
            left
            have hp3 : p = [] ∨ p = [] ∨ p = [] := by simpa using hp
            rcases hp3 with h | h | h <;> exact h)
          (by simp)
          (parseV6Parts_all_zero E hlen (fun j hj => hzs j (by omega) (by omega)))
      · have hP : compressHextets (E.map natToHex) =
            (E.map natToHex).take bs ++ [[], []] := by
          have hdrop8 : (E.map natToHex ++ [[]]).drop (bs + bl) = [[]] := by
            rw [hend, ← hlh, List.drop_left]
          have htakeb : (E.map natToHex ++ [[]]).take bs =
              (E.map natToHex).take bs := by
            rw [List.take_append_of_le_length (by rw [hlh]; omega)]
          simp only [compressHextets, hbr]
          rw [if_pos hbl2, if_neg hs0]
          rw [if_pos (show bs + bl = (E.map natToHex).length by rw [hlh]; exact hend)]
          rw [htakeb, hdrop8]
          simp
        rw [hP]
        refine parseIPv6Int_of_parts _ _ ?_ ?_ ?_
        · intro p hp
          rcases List.mem_append.mp hp with h | h
          · exact hclass p ((List.take_sublist _ _).subset h)
          · left
            have h2 : p = [] ∨ p = [] := by simpa using h
            rcases h2 with h2 | h2 <;> exact h2
        · rw [List.length_append, List.length_take]
          simp only [List.length_cons, List.length_nil]
          omega
        · exact parseV6Parts_skip_end E bs hlen hb (by omega) (by omega)
            (fun j h1 h2 => hzs j h1 (by omega))
    · by_cases hs0 : bs = 0
      · have hP : compressHextets (E.map natToHex) =
            [] :: [] :: (E.map natToHex).drop bl := by
          simp only [compressHextets, hbr]
          rw [if_pos hbl2, if_pos hs0]
          rw [if_neg (show ¬bs + bl = (E.map natToHex).length by rw [hlh]; omega)]
          rw [hs0]
          simp
        rw [hP]
        refine parseIPv6Int_of_parts _ _ ?_ ?_ ?_
        · intro p hp
          rcases List.mem_cons.mp hp with h | hp2
          · exact Or.inl h
          · rcases List.mem_cons.mp hp2 with h | h
            · exact Or.inl h
            · exact hclass p ((List.drop_sublist _ _).subset h)
        · simp only [List.length_cons, List.length_drop, hlh]
          omega
        · exact parseV6Parts_skip_start E bl hlen hb (by omega) (by omega)
            (fun j hj => hzs j (by omega) (by omega))
      · have hP : compressHextets (E.map natToHex) =
            (E.map natToHex).take bs ++ [[]] ++ (E.map natToHex).drop (bs + bl) := by
          simp only [compressHextets, hbr]
          rw [if_pos hbl2, if_neg hs0]
          rw [if_neg (show ¬bs + bl = (E.map natToHex).length by rw [hlh]; omega)]
        rw [hP]
        refine parseIPv6Int_of_parts _ _ ?_ ?_ ?_
        · intro p hp
          rcases List.mem_append.mp hp with h | h
          · rcases List.mem_append.mp h with h2 | h2
            · exact hclass p ((List.take_sublist _ _).subset h2)
            · left
              simpa using h2
          · exact hclass p ((List.drop_sublist _ _).subset h)
        · rw [List.length_append, List.length_append, List.length_take, List.length_drop, hlh]
          simp only [List.length_cons, List.length_nil]
          omega
        · exact parseV6Parts_skip_mid E bs bl hlen hb (by omega) (by omega) (by omega) hzs
  · have hP : compressHextets (E.map natToHex) = E.map natToHex := by
      simp only [compressHextets, hbr]
      rw [if_neg hbl2]
    rw [hP]
    exact parseIPv6Int_of_parts _ _ hclass (by omega) (parseV6Parts_full E hlen hb)

theorem parseIPv6Int_fmtV6Addr (a : Nat) (ha : a < 2 ^ 128) :
    parseIPv6Int (fmtV6Addr a) = some a := by
  have h := parseIPv6Int_fmt_core (hextetsOf a) (hextetsOf_length a) (hextetsOf_bound a)
  rw [foldl_hextetsOf a ha] at h
  exact h

theorem colon_mem_of_parseIPv6Int (cs : List Char) (v : Nat) (h : parseIPv6Int cs = some v) :
    ':' ∈ cs := by
  unfold parseIPv6Int at h
  by_cases h1 : cs.isEmpty
  · rw [if_pos h1] at h
    exact Option.noConfusion h
  · rw [if_neg h1] at h
    by_cases h2 : (splitOnChar ':' cs).length < 3
    · rw [if_pos h2] at h
      exact Option.noConfusion h
    · exact mem_of_splitOnChar_length ':' cs (by omega)

theorem mem_compressHextets (parts : List (List Char)) (p : List Char)
    (hp : p ∈ compressHextets parts) : p = [] ∨ p ∈ parts := by
  have hwt : ∀ q ∈ (if (bestZeroRun parts).1 + (bestZeroRun parts).2 = parts.length
      then parts ++ [[]] else parts), q = [] ∨ q ∈ parts := by
    intro q hq
    split at hq
    · rcases List.mem_append.mp hq with h | h
      · exact Or.inr h
      · left
        simpa using h
    · exact Or.inr hq
  simp only [compressHextets] at hp
  split at hp
  · split at hp
    · rcases List.mem_cons.mp hp with h | h
      · exact Or.inl h
      · rcases List.mem_append.mp h with h2 | h2
        · rcases List.mem_append.mp h2 with h3 | h3
          · exact hwt p ((List.take_sublist _ _).subset h3)
          · left
            simpa using h3
        · exact hwt p ((List.drop_sublist _ _).subset h2)
    · rcases List.mem_append.mp hp with h2 | h2
      · rcases List.mem_append.mp h2 with h3 | h3
        · exact hwt p ((List.take_sublist _ _).subset h3)
        · left
          simpa using h3
      · exact hwt p ((List.drop_sublist _ _).subset h2)
  · exact Or.inr hp

theorem mem_fmtV6Addr (a : Nat) (c : Char) (hc : c ∈ fmtV6Addr a) :
    c = ':' ∨ isHexDigit c = true := by
  rw [show fmtV6Addr a =
    joinSep ':' (compressHextets ((hextetsOf a).map natToHex)) from rfl] at hc
  rcases mem_joinSep ':' _ c hc with h | ⟨p, hp, hcp⟩
  · exact Or.inl h
  · rcases mem_compressHextets _ p hp with rfl | hpx
    · simp at hcp
    · right
      obtain ⟨e, _, rfl⟩ := List.mem_map.mp hpx
      exact List.all_eq_true.mp (natToHex_all_isHexDigit e) c hcp

theorem ip_network_fmtNetV6 (n : Net) (hv : NetV 128 n) :
    ipNetworkOfChars (fmtNetV6 n).data = some (.v6 n) := by
  have hdata : (fmtNetV6 n).data = fmtV6Addr n.addr ++ '/' :: natToDec n.plen := rfl
  have haddr : n.addr < 2 ^ 128 := by
    have h2 := hv.2.1
    have hp : 0 < 2 ^ (128 - n.plen) := pow_pos (by omega) _
    omega
  have hp6 := parseIPv6Int_fmtV6Addr n.addr haddr
  have hcolon : ':' ∈ fmtV6Addr n.addr := colon_mem_of_parseIPv6Int _ _ hp6
  have hnomem : '/' ∉ fmtV6Addr n.addr := by
    intro hmem
    rcases mem_fmtV6Addr n.addr '/' hmem with h | h
    · exact absurd h (by decide)
    · exact absurd h (by decide)
  have hsl : splitOnChar '/' (fmtV6Addr n.addr ++ '/' :: natToDec n.plen) =
      [fmtV6Addr n.addr, natToDec n.plen] := by
    rw [splitOnChar_append '/' _ _ hnomem,
      splitOnChar_of_not_mem '/' _ (not_mem_natToDec_of_not_dec n.plen '/' (by decide))]
  have hv4 : parseV4Network (fmtV6Addr n.addr ++ '/' :: natToDec n.plen) = none := by
    unfold parseV4Network
    rw [hsl]
    simp only [parseIPv4Int_none_of_colon _ hcolon]
  have hv6 : parseV6Network (fmtV6Addr n.addr ++ '/' :: natToDec n.plen) = some n := by
    unfold parseV6Network
    rw [hsl]
    simp only [hp6, parsePlenStr_natToDec 128 n.plen hv.1, hv.2.2, Nat.sub_zero]
  unfold ipNetworkOfChars
  rw [hdata, hv4, hv6]
  rfl

theorem fmtNetV6_no_space (n : Net) : ∀ c ∈ (fmtNetV6 n).data, isPySpace c = false := by
  intro c hc
  have hdata : (fmtNetV6 n).data = fmtV6Addr n.addr ++ '/' :: natToDec n.plen := rfl
  rw [hdata] at hc
  rcases List.mem_append.mp hc with h | h
  · rcases mem_fmtV6Addr n.addr c h with h2 | h2
    · subst h2
      decide
    · exact (isHexDigit_ne_sep c h2).2.2.2
  · rcases List.mem_cons.mp h with h2 | h2
    · subst h2
      decide
    · exact (isDec_ne_sep c (List.all_eq_true.mp (natToDec_all_isDec _) c h2)).2.2.2

/-! Lemmas about the summarizer pipeline. -/

theorem summarize_ip_blocks_eq (entries : List SumRec) :
    summarize_ip_blocks entries =
      ((collapse_addresses 32 (ipv4Inputs entries)).map fun n =>
        ({ ip_address := fmtNetV4 n } : OutItem)) ++
      ((collapse_addresses 128 (ipv6Inputs entries)).map fun n =>
        ({ ip_address := fmtNetV6 n } : OutItem)) := rfl

theorem parsedNet_some (e : SumRec) (x : IPNet) (h : parsedNet e = some x) :
    ∃ raw, e.ip_address = some raw ∧ ipNetworkOfChars (pyStrip raw.data) = some x := by
  unfold parsedNet at h
  split at h
  · exact Option.noConfusion h
  · cases hip : e.ip_address with
    | none =>
      rw [hip] at h
      exact Option.noConfusion h
    | some raw =>
      rw [hip] at h
      replace h : (if raw = "" then none else ipNetworkOfChars (pyStrip raw.data)) = some x := h
      by_cases hraw : raw = ""
      · rw [if_pos hraw] at h
        exact Option.noConfusion h
      · rw [if_neg hraw] at h
        exact ⟨raw, rfl, h⟩

theorem ipv4Inputs_valid (l : List SumRec) : ∀ n ∈ ipv4Inputs l, NetV 32 n := by
  intro n hn
  obtain ⟨e, _, hf⟩ := List.mem_filterMap.mp hn
  cases hp : parsedNet e with
  | none =>
    rw [hp] at hf
    exact Option.noConfusion hf
  | some ip =>
    cases ip with
    | v4 m =>
      rw [hp] at hf
      injection hf with hf
      obtain ⟨raw, _, hnet⟩ := parsedNet_some e _ hp
      rw [← hf]
      exact ipNetworkOfChars_v4_valid _ m hnet
    | v6 m =>
      rw [hp] at hf
      exact Option.noConfusion hf

theorem ipv6Inputs_valid (l : List SumRec) : ∀ n ∈ ipv6Inputs l, NetV 128 n := by
  intro n hn
  obtain ⟨e, _, hf⟩ := List.mem_filterMap.mp hn
  cases hp : parsedNet e with
  | none =>
    rw [hp] at hf
    exact Option.noConfusion hf
  | some ip =>
    cases ip with
    | v4 m =>
      rw [hp] at hf
      exact Option.noConfusion hf
    | v6 m =>
      rw [hp] at hf
      injection hf with hf
      obtain ⟨raw, _, hnet⟩ := parsedNet_some e _ hp
      rw [← hf]
      exact ipNetworkOfChars_v6_valid _ m hnet

theorem ipv4Inputs_append (l1 l2 : List SumRec) :
    ipv4Inputs (l1 ++ l2) = ipv4Inputs l1 ++ ipv4Inputs l2 :=
  List.filterMap_append _ _ _

theorem ipv6Inputs_append (l1 l2 : List SumRec) :
    ipv6Inputs (l1 ++ l2) = ipv6Inputs l1 ++ ipv6Inputs l2 :=
  List.filterMap_append _ _ _

theorem ipv4Inputs_cons_skip (e : SumRec) (l : List SumRec) (h : parsedNet e = none) :
    ipv4Inputs (e :: l) = ipv4Inputs l := by
  unfold ipv4Inputs
  rw [List.filterMap_cons_none]
  rw [h]

theorem ipv6Inputs_cons_skip (e : SumRec) (l : List SumRec) (h : parsedNet e = none) :
    ipv6Inputs (e :: l) = ipv6Inputs l := by
  unfold ipv6Inputs
  rw [List.filterMap_cons_none]
  rw [h]

theorem summarize_skip_entry (e : SumRec) (l1 l2 : List SumRec) (h : parsedNet e = none) :
    summarize_ip_blocks (l1 ++ e :: l2) = summarize_ip_blocks (l1 ++ l2) := by
  rw [summarize_ip_blocks_eq, summarize_ip_blocks_eq]
  rw [ipv4Inputs_append, ipv6Inputs_append, ipv4Inputs_append, ipv6Inputs_append]
  rw [ipv4Inputs_cons_skip e l2 h, ipv6Inputs_cons_skip e l2 h]

theorem filterMap_all_none {α β : Type} (f : α → Option β) :
    ∀ (l : List α), (∀ a ∈ l, f a = none) → l.filterMap f = [] := by
  intro l
  induction l with
  | nil => intro _; rfl
  | cons a t ih =>
    intro h
    rw [List.filterMap_cons_none]
    · exact ih (fun b hb => h b (List.mem_cons.mpr (Or.inr hb)))
    · exact h a (List.mem_cons_self _ _)

theorem filterMap_all_id {α β : Type} (f : α → Option β) (g : β → α) :
    ∀ (l : List β), (∀ b ∈ l, f (g b) = some b) → (l.map g).filterMap f = l := by
  intro l
  induction l with
  | nil => intro _; rfl
  | cons b t ih =>
    intro h
    rw [List.map_cons, List.filterMap_cons_some (h b (List.mem_cons_self _ _))]
    rw [ih (fun c hc => h c (List.mem_cons.mpr (Or.inr hc)))]

theorem collapse_addresses_nil (bits : Nat) : collapse_addresses bits [] = [] := by
  rw [show collapse_addresses bits [] = collapseInternal bits [] from rfl]
  rw [show collapseInternal bits [] =
    filterSubsumed bits (((mergeLoop bits ([] : List Net).reverse []).map Prod.snd).insertionSort
      netLe) none from rfl]
  rw [show ([] : List Net).reverse = [] from rfl, mergeLoop_nil]
  rfl

theorem collapse_addresses_single_net (bits : Nat) (n : Net) (h : (n.plen == bits) = false) :
    collapse_addresses bits [n] = [n] := by
  have hfilter1 : ([n].filter fun m => m.plen == bits) = [] := by
    simp [List.filter, h]
  have hfilter2 : ([n].filter fun m => m.plen != bits) = [n] := by
    have hb : (n.plen != bits) = true := by
      simp [bne, h]
    simp [List.filter, hb]
  have hred : collapse_addresses bits [n] = collapseInternal bits [n] := by
    unfold collapse_addresses
    rw [hfilter1, hfilter2]
    rfl
  rw [hred]
  have hml : mergeLoop bits [n] [] = [(supernet bits n, n)] := by
    rw [mergeLoop_cons_none bits n [] [] rfl, mergeLoop_nil]
  rw [show collapseInternal bits [n] =
    filterSubsumed bits (((mergeLoop bits ([n] : List Net).reverse []).map Prod.snd).insertionSort
      netLe) none from rfl]
  rw [show ([n] : List Net).reverse = [n] from rfl, hml]
  rfl

theorem parsedNet_refeed (o : OutItem) : parsedNet (refeedItem o) = none := rfl

theorem summarize_refeed_empty (l : List OutItem) :
    summarize_ip_blocks (l.map refeedItem) = [] := by
  have h4 : ipv4Inputs (l.map refeedItem) = [] := by
    unfold ipv4Inputs
    rw [List.filterMap_map]
    apply filterMap_all_none
    intro o _
    show (match parsedNet (refeedItem o) with
      | some (.v4 n) => some n
      | _ => none) = none
    rw [parsedNet_refeed]
  have h6 : ipv6Inputs (l.map refeedItem) = [] := by
    unfold ipv6Inputs
    rw [List.filterMap_map]
    apply filterMap_all_none
    intro o _
    show (match parsedNet (refeedItem o) with
      | some (.v6 n) => some n
      | _ => none) = none
    rw [parsedNet_refeed]
  rw [summarize_ip_blocks_eq, h4, h6, collapse_addresses_nil, collapse_addresses_nil]
  rfl

theorem parsedNet_refeedReady (s : String) :
    parsedNet (refeedReadyItem { ip_address := s }) =
      if s = "" then none else ipNetworkOfChars (pyStrip s.data) := rfl

theorem fmtNetV4_ne_empty (n : Net) : fmtNetV4 n ≠ "" := by
  intro h
  have hd := congrArg String.data h
  rw [show (fmtNetV4 n).data = fmtV4Addr n.addr ++ '/' :: natToDec n.plen from rfl] at hd
  simp at hd

theorem fmtNetV6_ne_empty (n : Net) : fmtNetV6 n ≠ "" := by
  intro h
  have hd := congrArg String.data h
  rw [show (fmtNetV6 n).data = fmtV6Addr n.addr ++ '/' :: natToDec n.plen from rfl] at hd
  simp at hd

theorem parsedNet_refeedReady_v4 (n : Net) (hv : NetV 32 n) :
    parsedNet (refeedReadyItem { ip_address := fmtNetV4 n }) = some (.v4 n) := by
  rw [parsedNet_refeedReady, if_neg (fmtNetV4_ne_empty n),
    pyStrip_of_no_space _ (fmtNetV4_no_space n), ip_network_fmtNetV4 n hv]

theorem parsedNet_refeedReady_v6 (n : Net) (hv : NetV 128 n) :
    parsedNet (refeedReadyItem { ip_address := fmtNetV6 n }) = some (.v6 n) := by
  rw [parsedNet_refeedReady, if_neg (fmtNetV6_ne_empty n),
    pyStrip_of_no_space _ (fmtNetV6_no_space n), ip_network_fmtNetV6 n hv]

theorem inputs_refeed_ready (A B : List Net) (hvA : ∀ n ∈ A, NetV 32 n)
    (hvB : ∀ n ∈ B, NetV 128 n) :
    ipv4Inputs (((A.map fun n => ({ ip_address := fmtNetV4 n } : OutItem)) ++
        (B.map fun n => ({ ip_address := fmtNetV6 n } : OutItem))).map refeedReadyItem) = A ∧
    ipv6Inputs (((A.map fun n => ({ ip_address := fmtNetV4 n } : OutItem)) ++
        (B.map fun n => ({ ip_address := fmtNetV6 n } : OutItem))).map refeedReadyItem) = B := by
  constructor
  · unfold ipv4Inputs
    rw [List.map_append, List.filterMap_append, List.map_map, List.map_map]
    rw [filterMap_all_id _ _ A (by
      intro n hn
      show (match parsedNet (refeedReadyItem { ip_address := fmtNetV4 n }) with
        | some (.v4 m) => some m
        | _ => none) = some n
      rw [parsedNet_refeedReady_v4 n (hvA n hn)])]
    rw [filterMap_all_none _ _ (by
      intro n hn
      obtain ⟨m, hm, rfl⟩ := List.mem_map.mp hn
      show (match parsedNet (refeedReadyItem { ip_address := fmtNetV6 m }) with
        | some (.v4 k) => some k
        | _ => none) = none
      rw [parsedNet_refeedReady_v6 m (hvB m hm)])]
    rw [List.append_nil]
  · unfold ipv6Inputs
    rw [List.map_append, List.filterMap_append, List.map_map, List.map_map]
    rw [filterMap_all_none _ _ (by
      intro n hn
      obtain ⟨m, hm, rfl⟩ := List.mem_map.mp hn
      show (match parsedNet (refeedReadyItem { ip_address := fmtNetV4 m }) with
        | some (.v6 k) => some k
        | _ => none) = none
      rw [parsedNet_refeedReady_v4 m (hvA m hm)])]
    rw [filterMap_all_id _ _ B (by
      intro n hn
      show (match parsedNet (refeedReadyItem { ip_address := fmtNetV6 n }) with
        | some (.v6 m) => some m
        | _ => none) = some n
      rw [parsedNet_refeedReady_v6 n (hvB n hn)])]
    rw [List.nil_append]

theorem natToDec_small (n : Nat) (h : n < 10) : natToDec n = [decChar n] := by
  rw [natToDec, dif_pos h]

theorem natToDec_step (n : Nat) (h : ¬n < 10) :
    natToDec n = natToDec (n / 10) ++ [decChar (n % 10)] := by
  rw [natToDec]
  rw [dif_neg h]

theorem natToDec_10 : natToDec 10 = ['1', '0'] := by
  rw [natToDec_step 10 (by omega)]
  rw [show (10 : Nat) / 10 = 1 from by norm_num, show (10 : Nat) % 10 = 0 from by norm_num]
  rw [natToDec_small 1 (by omega)]
  rfl

theorem natToDec_0 : natToDec 0 = ['0'] := by
  rw [natToDec_small 0 (by omega)]
  rfl

theorem natToDec_24 : natToDec 24 = ['2', '4'] := by
  rw [natToDec_step 24 (by omega)]
  rw [show (24 : Nat) / 10 = 2 from by norm_num, show (24 : Nat) % 10 = 4 from by norm_num]
  rw [natToDec_small 2 (by omega)]
  rfl

theorem fmt_net_10_24 : fmtNetV4 { addr := 167772160, plen := 24 } = "10.0.0.0/24" := by
  show String.mk (fmtV4Addr 167772160 ++ '/' :: natToDec 24) = "10.0.0.0/24"
  rw [show fmtV4Addr 167772160 = joinSep '.'
    [natToDec (167772160 / 2 ^ 24), natToDec (167772160 / 2 ^ 16 % 256),
     natToDec (167772160 / 2 ^ 8 % 256), natToDec (167772160 % 256)] from rfl]
  rw [show (167772160 : Nat) / 2 ^ 24 = 10 from by norm_num,
      show (167772160 : Nat) / 2 ^ 16 % 256 = 0 from by norm_num,
      show (167772160 : Nat) / 2 ^ 8 % 256 = 0 from by norm_num,
      show (167772160 : Nat) % 256 = 0 from by norm_num]
  rw [natToDec_10, natToDec_0, natToDec_24]
  rfl

theorem summarize_single24 :
    summarize_ip_blocks [{ ip_address := some "10.0.0.0/24", ready := some (.bool true) }] =
      [{ ip_address := "10.0.0.0/24" }] := by
  rw [summarize_ip_blocks_eq]
  rw [show ipv4Inputs [{ ip_address := some "10.0.0.0/24", ready := some (.bool true) }] =
    [{ addr := 167772160, plen := 24 }] from rfl]
  rw [show ipv6Inputs [{ ip_address := some "10.0.0.0/24", ready := some (.bool true) }] =
    ([] : List Net) from rfl]
  rw [collapse_addresses_single_net 32 _ (by decide), collapse_addresses_nil]
  rw [List.map_cons, List.map_nil, fmt_net_10_24]
  rfl

theorem summarize_scenario3 :
    summarize_ip_blocks [{ ip_address := some "bad-string", ready := some (.bool true) },
      { ip_address := some "10.0.0.0/24", ready := some (.bool true) }] =
      [{ ip_address := "10.0.0.0/24" }] := by
  rw [summarize_ip_blocks_eq]
  rw [show ipv4Inputs [{ ip_address := some "bad-string", ready := some (.bool true) },
    { ip_address := some "10.0.0.0/24", ready := some (.bool true) }] =
    [{ addr := 167772160, plen := 24 }] from rfl]
  rw [show ipv6Inputs [{ ip_address := some "bad-string", ready := some (.bool true) },
    { ip_address := some "10.0.0.0/24", ready := some (.bool true) }] =
    ([] : List Net) from rfl]
  rw [collapse_addresses_single_net 32 _ (by decide), collapse_addresses_nil]
  rw [List.map_cons, List.map_nil, fmt_net_10_24]
  rfl

/-! Lemmas about the extractor. -/

theorem anyNoteId3_cons_obj (g : List (String × JVal)) (rest : List JVal) :
    anyNoteId3 (JVal.obj g :: rest) =
      if isNum3 ((jLookup g "id").getD .null) then .ok true else anyNoteId3 rest := rfl

theorem anyNoteId3_spec : ∀ (notes : List JVal) (b : Bool), anyNoteId3 notes = .ok b →
    (b = true ↔ ∃ note ∈ notes, noteCarries3 note) := by
  intro notes
  induction notes with
  | nil =>
    intro b hb
    injection hb with hb
    subst hb
    simp
  | cons note rest ih =>
    intro b hb
    cases note with
    | obj g =>
      rw [anyNoteId3_cons_obj g rest] at hb
      by_cases h3 : isNum3 ((jLookup g "id").getD .null) = true
      · rw [if_pos h3] at hb
        injection hb with hb
        subst hb
        constructor
        · intro _
          refine ⟨JVal.obj g, List.mem_cons_self _ _, g, rfl, ?_⟩
          cases hl : jLookup g "id" with
          | none =>
            rw [hl] at h3
            exact absurd h3 (by decide)
          | some v =>
            rw [hl] at h3
            unfold isNum3 at h3
            split at h3
            · rename_i x heq
              have hv : v = JVal.num 3 := by
                rw [Option.getD_some] at heq
                exact heq
              rw [hv]
            · exact Bool.noConfusion h3
        · intro _
          rfl
      · rw [if_neg h3] at hb
        have hrec := ih b hb
        constructor
        · intro hbt
          obtain ⟨note2, hmem, hc⟩ := hrec.mp hbt
          exact ⟨note2, List.mem_cons.mpr (Or.inr hmem), hc⟩
        · rintro ⟨note2, hmem, hc⟩
          rcases List.mem_cons.mp hmem with heq | hmem2
          · exfalso
            obtain ⟨g2, hg2, hid⟩ := hc
            rw [heq] at hg2
            injection hg2 with hg2
            subst hg2
            rw [hid] at h3
            exact h3 rfl
          · exact hrec.mpr ⟨note2, hmem2, hc⟩
    | null =>
      exfalso
      have hred : anyNoteId3 (JVal.null :: rest) = .error () := rfl
      rw [hred] at hb
      exact Except.noConfusion hb
    | bool b2 =>
      exfalso
      have hred : anyNoteId3 (JVal.bool b2 :: rest) = .error () := rfl
      rw [hred] at hb
      exact Except.noConfusion hb
    | num n2 =>
      exfalso
      have hred : anyNoteId3 (JVal.num n2 :: rest) = .error () := rfl
      rw [hred] at hb
      exact Except.noConfusion hb
    | str s2 =>
      exfalso
      have hred : anyNoteId3 (JVal.str s2 :: rest) = .error () := rfl
      rw [hred] at hb
      exact Except.noConfusion hb
    | arr l2 =>
      exfalso
      have hred : anyNoteId3 (JVal.arr l2 :: rest) = .error () := rfl
      rw [hred] at hb
      exact Except.noConfusion hb

theorem mkLeafRecord_obj (mv : Bool) (f : List (String × JVal)) :
    mkLeafRecord mv (JVal.obj f) =
      (pyIter ((jLookup f "notes").getD (.arr [])) >>= fun notes =>
        anyNoteId3 notes >>= fun has3 =>
          .ok { ip_address := (jLookup f "ip_address").getD .null,
                region := (jLookup f "region").getD .null,
                location := (jLookup f "location").getD .null,
                multivip := mv, ready := !has3 }) := rfl

theorem except_bind_ok {α β : Type} (a : α) (f : α → Except Unit β) :
    ((Except.ok a : Except Unit α) >>= f) = f a := rfl

theorem except_bind_err {α β : Type} (f : α → Except Unit β) :
    ((Except.error () : Except Unit α) >>= f) = .error () := rfl

theorem except_pure {α : Type} (a : α) : (pure a : Except Unit α) = .ok a := rfl

theorem mkLeafRecord_not_obj (mv : Bool) (entry : JVal) (h : ∀ f, entry ≠ JVal.obj f) :
    mkLeafRecord mv entry = .error () := by
  cases entry with
  | obj f => exact absurd rfl (h f)
  | null => rfl
  | bool b => rfl
  | num n => rfl
  | str s => rfl
  | arr l => rfl

theorem mkLeafRecord_spec (mv : Bool) (entry : JVal) (r : AddressRecord)
    (h : mkLeafRecord mv entry = .ok r) :
    ∃ f notes, entry = JVal.obj f ∧
      pyIter ((jLookup f "notes").getD (.arr [])) = .ok notes ∧
      (r.ready = false ↔ ∃ note ∈ notes, noteCarries3 note) ∧ r.multivip = mv := by
  cases entry with
  | obj f =>
    rw [mkLeafRecord_obj] at h
    cases hit : pyIter ((jLookup f "notes").getD (.arr [])) with
    | error e =>
      rw [hit, except_bind_err] at h
      exact Except.noConfusion h
    | ok notes =>
      rw [hit, except_bind_ok] at h
      cases han : anyNoteId3 notes with
      | error e =>
        rw [han, except_bind_err] at h
        exact Except.noConfusion h
      | ok has3 =>
        rw [han, except_bind_ok] at h
        injection h with h
        subst h
        refine ⟨f, notes, rfl, hit, ?_, rfl⟩
        have hiff := anyNoteId3_spec notes has3 han
        show (!has3) = false ↔ ∃ note ∈ notes, noteCarries3 note
        cases has3 with
        | true =>
          constructor
          · intro _
            exact hiff.mp rfl
          · intro _
            rfl
        | false =>
          constructor
          · intro hcontra
            exact Bool.noConfusion hcontra
          · intro hex
            exact Bool.noConfusion (hiff.mpr hex)
  | null =>
    rw [mkLeafRecord_not_obj mv _ (by intro f2 h2; exact JVal.noConfusion h2)] at h
    exact Except.noConfusion h
  | bool b =>
    rw [mkLeafRecord_not_obj mv _ (by intro f2 h2; exact JVal.noConfusion h2)] at h
    exact Except.noConfusion h
  | num n =>
    rw [mkLeafRecord_not_obj mv _ (by intro f2 h2; exact JVal.noConfusion h2)] at h
    exact Except.noConfusion h
  | str s =>
    rw [mkLeafRecord_not_obj mv _ (by intro f2 h2; exact JVal.noConfusion h2)] at h
    exact Except.noConfusion h
  | arr l =>
    rw [mkLeafRecord_not_obj mv _ (by intro f2 h2; exact JVal.noConfusion h2)] at h
    exact Except.noConfusion h

theorem mapM_ok_pairs {α β : Type} (f : α → Except Unit β) :
    ∀ (l : List α) (res : List β), l.mapM f = .ok res →
    ∃ pairs : List (α × β), pairs.map Prod.fst = l ∧ pairs.map Prod.snd = res ∧
      ∀ pr ∈ pairs, f pr.1 = .ok pr.2 := by
  intro l
  induction l with
  | nil =>
    intro res h
    rw [List.mapM_nil, except_pure] at h
    injection h with h
    subst h
    refine ⟨[], rfl, rfl, ?_⟩
    intro pr hpr
    simp at hpr
  | cons a t ih =>
    intro res h
    rw [List.mapM_cons] at h
    cases hfa : f a with
    | error e =>
      rw [hfa, except_bind_err] at h
      exact Except.noConfusion h
    | ok b =>
      rw [hfa, except_bind_ok] at h
      cases hmt : t.mapM f with
      | error e =>
        rw [hmt, except_bind_err] at h
        exact Except.noConfusion h
      | ok res2 =>
        rw [hmt, except_bind_ok, except_pure] at h
        injection h with h
        subst h
        obtain ⟨pairs, hp1, hp2, hp3⟩ := ih res2 hmt
        refine ⟨(a, b) :: pairs, by simp [hp1], by simp [hp2], ?_⟩
        intro pr hpr
        rcases List.mem_cons.mp hpr with heq | hpr2
        · rw [heq]
          exact hfa
        · exact hp3 pr hpr2

theorem mapM_ok_of_all {α β : Type} (f : α → Except Unit β) :
    ∀ (l : List α), (∀ a ∈ l, ∃ b, f a = .ok b) → ∃ res, l.mapM f = .ok res := by
  intro l
  induction l with
  | nil =>
    intro _
    exact ⟨[], rfl⟩
  | cons a t ih =>
    intro h
    obtain ⟨b, hb⟩ := h a (List.mem_cons_self _ _)
    obtain ⟨res, hres⟩ := ih (fun c hc => h c (List.mem_cons.mpr (Or.inr hc)))
    refine ⟨b :: res, ?_⟩
    rw [List.mapM_cons, hb, except_bind_ok, hres, except_bind_ok, except_pure]

theorem recordsOfEntry_obj (f : List (String × JVal)) :
    recordsOfEntry (JVal.obj f) =
      if pyTruthy ((jLookup f "multivip").getD .null) then
        (pyIter ((jLookup f "data").getD (.arr [])) >>= fun subs =>
          subs.mapM (mkLeafRecord true))
      else (mkLeafRecord false (JVal.obj f) >>= fun r => .ok [r]) := rfl

theorem recordsOfEntry_not_obj (entry : JVal) (h : ∀ f, entry ≠ JVal.obj f) :
    recordsOfEntry entry = .error () := by
  cases entry with
  | obj f => exact absurd rfl (h f)
  | null => rfl
  | bool b => rfl
  | num n => rfl
  | str s => rfl
  | arr l => rfl

theorem recordsOfEntry_spec (entry : JVal) (rs : List AddressRecord)
    (h : recordsOfEntry entry = .ok rs) :
    ∃ f, entry = JVal.obj f ∧
      (if pyTruthy ((jLookup f "multivip").getD .null) then
        ∃ subs, pyIter ((jLookup f "data").getD (.arr [])) = .ok subs ∧
          ∃ pairs : List (JVal × AddressRecord), pairs.map Prod.fst = subs ∧
            pairs.map Prod.snd = rs ∧ ∀ pr ∈ pairs, mkLeafRecord true pr.1 = .ok pr.2
      else ∃ r, rs = [r] ∧ mkLeafRecord false entry = .ok r) := by
  cases entry with
  | obj f =>
    refine ⟨f, rfl, ?_⟩
    rw [recordsOfEntry_obj] at h
    by_cases hmv : pyTruthy ((jLookup f "multivip").getD .null)
    · rw [if_pos hmv] at h
      rw [if_pos hmv]
      cases hit : pyIter ((jLookup f "data").getD (.arr [])) with
      | error e =>
        rw [hit, except_bind_err] at h
        exact Except.noConfusion h
      | ok subs =>
        rw [hit, except_bind_ok] at h
        obtain ⟨pairs, hp1, hp2, hp3⟩ := mapM_ok_pairs _ subs rs h
        exact ⟨subs, rfl, pairs, hp1, hp2, hp3⟩
    · rw [if_neg hmv] at h
      rw [if_neg hmv]
      cases hmk : mkLeafRecord false (JVal.obj f) with
      | error e =>
        rw [hmk, except_bind_err] at h
        exact Except.noConfusion h
      | ok r =>
        rw [hmk, except_bind_ok] at h
        injection h with h
        exact ⟨r, h.symm, rfl⟩
  | null =>
    rw [recordsOfEntry_not_obj _ (by intro f2 h2; exact JVal.noConfusion h2)] at h
    exact Except.noConfusion h
  | bool b =>
    rw [recordsOfEntry_not_obj _ (by intro f2 h2; exact JVal.noConfusion h2)] at h
    exact Except.noConfusion h
  | num n =>
    rw [recordsOfEntry_not_obj _ (by intro f2 h2; exact JVal.noConfusion h2)] at h
    exact Except.noConfusion h
  | str s =>
    rw [recordsOfEntry_not_obj _ (by intro f2 h2; exact JVal.noConfusion h2)] at h
    exact Except.noConfusion h
  | arr l =>
    rw [recordsOfEntry_not_obj _ (by intro f2 h2; exact JVal.noConfusion h2)] at h
    exact Except.noConfusion h

theorem notes_iter_ok (f : List (String × JVal)) (hwt : notesWT f) :
    ∃ notes, pyIter ((jLookup f "notes").getD (.arr [])) = .ok notes ∧
      ∀ n ∈ notes, ∃ g, n = JVal.obj g := by
  cases hl : jLookup f "notes" with
  | none =>
    refine ⟨[], rfl, ?_⟩
    intro n hn
    simp at hn
  | some nv =>
    obtain ⟨ns, rfl, hns⟩ := hwt nv hl
    exact ⟨ns, rfl, hns⟩

theorem anyNoteId3_ok (notes : List JVal) (hwt : ∀ n ∈ notes, ∃ g, n = JVal.obj g) :
    ∃ b, anyNoteId3 notes = .ok b := by
  induction notes with
  | nil => exact ⟨false, rfl⟩
  | cons note rest ih =>
    obtain ⟨g, rfl⟩ := hwt note (List.mem_cons_self _ _)
    rw [anyNoteId3_cons_obj]
    by_cases h3 : isNum3 ((jLookup g "id").getD .null) = true
    · rw [if_pos h3]
      exact ⟨true, rfl⟩
    · rw [if_neg h3]
      exact ih (fun n hn => hwt n (List.mem_cons.mpr (Or.inr hn)))

theorem mkLeafRecord_ok (mv : Bool) (f : List (String × JVal)) (hwt : notesWT f) :
    ∃ r, mkLeafRecord mv (JVal.obj f) = .ok r := by
  obtain ⟨notes, hit, hobj⟩ := notes_iter_ok f hwt
  obtain ⟨b, hb⟩ := anyNoteId3_ok notes hobj
  refine ⟨{ ip_address := (jLookup f "ip_address").getD .null,
            region := (jLookup f "region").getD .null,
            location := (jLookup f "location").getD .null,
            multivip := mv, ready := !b }, ?_⟩
  rw [mkLeafRecord_obj, hit, except_bind_ok, hb, except_bind_ok]

theorem recordsOfEntry_ok (e : JVal) (hwt : entryWT e) : ∃ rs, recordsOfEntry e = .ok rs := by
  obtain ⟨f, rfl, hrest⟩ := hwt
  rw [recordsOfEntry_obj]
  by_cases hmv : pyTruthy ((jLookup f "multivip").getD .null)
  · rw [if_pos hmv]
    rw [if_pos hmv] at hrest
    cases hl : jLookup f "data" with
    | none => exact ⟨[], rfl⟩
    | some dv =>
      obtain ⟨subs, rfl, hsubs⟩ := hrest dv hl
      rw [show pyIter ((some (JVal.arr subs)).getD (JVal.arr [])) = Except.ok subs from rfl,
        except_bind_ok]
      apply mapM_ok_of_all
      intro s hs
      obtain ⟨g, rfl, hg⟩ := hsubs s hs
      exact mkLeafRecord_ok true g hg
  · rw [if_neg hmv]
    rw [if_neg hmv] at hrest
    obtain ⟨r, hr⟩ := mkLeafRecord_ok false f hrest
    refine ⟨[r], ?_⟩
    rw [hr, except_bind_ok]

theorem recordsOfCol_obj (f : List (String × JVal)) :
    recordsOfCol (JVal.obj f) =
      (pyIter ((jLookup f "data").getD (.arr [])) >>= fun items =>
        items.mapM recordsOfEntry >>= fun rss => .ok rss.flatten) := rfl

theorem recordsOfCol_ok (c : JVal) (hwt : colWT c) : ∃ rs, recordsOfCol c = .ok rs := by
  obtain ⟨f, rfl, hrest⟩ := hwt
  rw [recordsOfCol_obj]
  cases hl : jLookup f "data" with
  | none => exact ⟨[], rfl⟩
  | some dv =>
    obtain ⟨es, rfl, hes⟩ := hrest dv hl
    rw [show pyIter ((some (JVal.arr es)).getD (JVal.arr [])) = Except.ok es from rfl,
      except_bind_ok]
    obtain ⟨rss, hrss⟩ := mapM_ok_of_all recordsOfEntry es
      (fun e he => recordsOfEntry_ok e (hes e he))
    refine ⟨rss.flatten, ?_⟩
    rw [hrss, except_bind_ok]

theorem recordsOfRow_obj (f : List (String × JVal)) :
    recordsOfRow (JVal.obj f) =
      (pyIter ((jLookup f "cols").getD (.arr [])) >>= fun cols =>
        cols.mapM recordsOfCol >>= fun rss => .ok rss.flatten) := rfl

theorem recordsOfRow_ok (r : JVal) (hwt : rowWT r) : ∃ rs, recordsOfRow r = .ok rs := by
  obtain ⟨f, rfl, hrest⟩ := hwt
  rw [recordsOfRow_obj]
  cases hl : jLookup f "cols" with
  | none => exact ⟨[], rfl⟩
  | some cv =>
    obtain ⟨cs, rfl, hcs⟩ := hrest cv hl
    rw [show pyIter ((some (JVal.arr cs)).getD (JVal.arr [])) = Except.ok cs from rfl,
      except_bind_ok]
    obtain ⟨rss, hrss⟩ := mapM_ok_of_all recordsOfCol cs
      (fun c hc => recordsOfCol_ok c (hcs c hc))
    refine ⟨rss.flatten, ?_⟩
    rw [hrss, except_bind_ok]

theorem fetch_eq (doc : JVal) :
    fetch_zscaler_egress_ips doc =
      (sectionRows doc >>= fun entriesVal =>
        pyIter entriesVal >>= fun entries =>
          entries.mapM recordsOfRow >>= fun rss => .ok rss.flatten) := rfl

/-! Helper lemmas shared by the claim-level theorems. -/

theorem parsedNet_none_of_not_ready (e : SumRec) (h : readyTruthy e = false) :
    parsedNet e = none := by
  unfold parsedNet
  rw [h]
  rfl

theorem netDisjoint_not_sub (bits : Nat) (a b : Net) (h : netDisjoint bits a b) :
    ¬netSub bits a b ∧ ¬netSub bits b a := by
  constructor
  · intro hsub
    exact h a.addr ⟨covN_self bits a, covN_of_netSub bits a b a.addr hsub (covN_self bits a)⟩
  · intro hsub
    exact h b.addr ⟨covN_of_netSub bits b a b.addr hsub (covN_self bits b), covN_self bits b⟩

theorem not_siblings_of_supernet_ne (bits : Nat) (a b : Net)
    (h : supernet bits a ≠ supernet bits b) : ¬netSiblings bits a b := by
  intro hs
  exact h hs.2.2

theorem bool_eq_true_iff_not (b : Bool) (P : Prop) (h : b = false ↔ P) : b = true ↔ ¬P := by
  constructor
  · intro hb hP
    rw [h.mpr hP] at hb
    exact Bool.noConfusion hb
  · intro hnp
    cases b with
    | false => exact absurd (h.mp rfl) hnp
    | true => rfl

/-- Claim C1: coverage is exact.  The output of `summarize_ip_blocks` is the
collapsed IPv4 blocks followed by the collapsed IPv6 blocks, and within each
family the collapsed list covers an address exactly when some valid parsed
ready input network covers it: no address is lost and none is gained. -/
theorem summarize_coverage_exact (entries : List SumRec) :
    summarize_ip_blocks entries =
      ((collapse_addresses 32 (ipv4Inputs entries)).map fun n =>
        ({ ip_address := fmtNetV4 n } : OutItem)) ++
      ((collapse_addresses 128 (ipv6Inputs entries)).map fun n =>
        ({ ip_address := fmtNetV6 n } : OutItem)) ∧
    (∀ x, covL 32 (collapse_addresses 32 (ipv4Inputs entries)) x ↔
      covL 32 (ipv4Inputs entries) x) ∧
    (∀ x, covL 128 (collapse_addresses 128 (ipv6Inputs entries)) x ↔
      covL 128 (ipv6Inputs entries) x) := by
  refine ⟨rfl, ?_, ?_⟩
  · exact (collapse_addresses_spec 32 _ (ipv4Inputs_valid entries)).2.2.2.2
  · exact (collapse_addresses_spec 128 _ (ipv6Inputs_valid entries)).2.2.2.2

/-- Claim C2: the output block list is minimal.  Within each family the
collapsed blocks that `summarize_ip_blocks` emits are pairwise disjoint (so
none is contained in another, stated separately via `netSub`), no two are
mergeable adjacent siblings, and the list is a fixed point of the collapse
step. -/
theorem summarize_minimal (entries : List SumRec) :
    summarize_ip_blocks entries =
      ((collapse_addresses 32 (ipv4Inputs entries)).map fun n =>
        ({ ip_address := fmtNetV4 n } : OutItem)) ++
      ((collapse_addresses 128 (ipv6Inputs entries)).map fun n =>
        ({ ip_address := fmtNetV6 n } : OutItem)) ∧
    (List.Pairwise (netDisjoint 32) (collapse_addresses 32 (ipv4Inputs entries)) ∧
     List.Pairwise (fun a b => ¬netSub 32 a b ∧ ¬netSub 32 b a)
       (collapse_addresses 32 (ipv4Inputs entries)) ∧
     List.Pairwise (fun a b => ¬netSiblings 32 a b)
       (collapse_addresses 32 (ipv4Inputs entries)) ∧
     collapse_addresses 32 (collapse_addresses 32 (ipv4Inputs entries)) =
       collapse_addresses 32 (ipv4Inputs entries)) ∧
    (List.Pairwise (netDisjoint 128) (collapse_addresses 128 (ipv6Inputs entries)) ∧
     List.Pairwise (fun a b => ¬netSub 128 a b ∧ ¬netSub 128 b a)
       (collapse_addresses 128 (ipv6Inputs entries)) ∧
     List.Pairwise (fun a b => ¬netSiblings 128 a b)
       (collapse_addresses 128 (ipv6Inputs entries)) ∧
     collapse_addresses 128 (collapse_addresses 128 (ipv6Inputs entries)) =
       collapse_addresses 128 (ipv6Inputs entries)) := by
  obtain ⟨_, _, hsup4, hd4, _⟩ := collapse_addresses_spec 32 _ (ipv4Inputs_valid entries)
  obtain ⟨_, _, hsup6, hd6, _⟩ := collapse_addresses_spec 128 _ (ipv6Inputs_valid entries)
  refine ⟨rfl,
    ⟨hd4, ?_, ?_, collapse_addresses_idem 32 _ (ipv4Inputs_valid entries)⟩,
    ⟨hd6, ?_, ?_, collapse_addresses_idem 128 _ (ipv6Inputs_valid entries)⟩⟩
  · exact hd4.imp fun hab => netDisjoint_not_sub 32 _ _ hab
  · exact hsup4.imp fun hab => not_siblings_of_supernet_ne 32 _ _ hab
  · exact hd6.imp fun hab => netDisjoint_not_sub 128 _ _ hab
  · exact hsup6.imp fun hab => not_siblings_of_supernet_ne 128 _ _ hab

/-- Claim C3: the two families are never merged or compared.  The output of
`summarize_ip_blocks` is the IPv4 run followed by the IPv6 run, each run sorted
ascending by (network address, prefix length), and each emitted string parses
back in its own family. -/
theorem summarize_family_order (entries : List SumRec) :
    summarize_ip_blocks entries =
      ((collapse_addresses 32 (ipv4Inputs entries)).map fun n =>
        ({ ip_address := fmtNetV4 n } : OutItem)) ++
      ((collapse_addresses 128 (ipv6Inputs entries)).map fun n =>
        ({ ip_address := fmtNetV6 n } : OutItem)) ∧
    (collapse_addresses 32 (ipv4Inputs entries)).Sorted netLe ∧
    (collapse_addresses 128 (ipv6Inputs entries)).Sorted netLe ∧
    (∀ n ∈ collapse_addresses 32 (ipv4Inputs entries),
      ip_network (fmtNetV4 n) = some (.v4 n)) ∧
    (∀ n ∈ collapse_addresses 128 (ipv6Inputs entries),
      ip_network (fmtNetV6 n) = some (.v6 n)) := by
  obtain ⟨hv4, hs4, _, _, _⟩ := collapse_addresses_spec 32 _ (ipv4Inputs_valid entries)
  obtain ⟨hv6, hs6, _, _, _⟩ := collapse_addresses_spec 128 _ (ipv6Inputs_valid entries)
  refine ⟨rfl, hs4, hs6, ?_, ?_⟩
  · intro n hn
    show ipNetworkOfChars (fmtNetV4 n).data = some (.v4 n)
    exact ip_network_fmtNetV4 n (hv4 n hn)
  · intro n hn
    show ipNetworkOfChars (fmtNetV6 n).data = some (.v6 n)
    exact ip_network_fmtNetV6 n (hv6 n hn)

/-- Claim C4: the readiness filter.  A record whose `ready` value is not
truthy never contributes to the output (removing it leaves the output
unchanged, wherever it sits and whatever its address), and an input whose
records are all not ready yields the empty list, not an error. -/
theorem summarize_readiness_filter (e : SumRec) (l1 l2 l : List SumRec)
    (h : readyTruthy e = false) (hall : ∀ x ∈ l, readyTruthy x = false) :
    summarize_ip_blocks (l1 ++ e :: l2) = summarize_ip_blocks (l1 ++ l2) ∧
    summarize_ip_blocks l = [] := by
  constructor
  · exact summarize_skip_entry e l1 l2 (parsedNet_none_of_not_ready e h)
  · rw [summarize_ip_blocks_eq]
    have h4 : ipv4Inputs l = [] := by
      unfold ipv4Inputs
      apply filterMap_all_none
      intro a ha
      show (match parsedNet a with
        | some (.v4 n) => some n
        | _ => none) = none
      rw [parsedNet_none_of_not_ready a (hall a ha)]
    have h6 : ipv6Inputs l = [] := by
      unfold ipv6Inputs
      apply filterMap_all_none
      intro a ha
      show (match parsedNet a with
        | some (.v6 n) => some n
        | _ => none) = none
      rw [parsedNet_none_of_not_ready a (hall a ha)]
    rw [h4, h6, collapse_addresses_nil, collapse_addresses_nil]
    rfl

/-- Witness for C4: a not-ready record with the same address as a ready one
contributes nothing, and an all-not-ready input summarizes to the empty
list. -/
theorem summarize_readiness_filter_witness :
    summarize_ip_blocks ([] ++
        ({ ip_address := some "10.0.0.0/24", ready := some (.bool false) } : SumRec) ::
        [{ ip_address := some "10.0.0.0/24", ready := some (.bool true) }]) =
      summarize_ip_blocks ([] ++
        [{ ip_address := some "10.0.0.0/24", ready := some (.bool true) }]) ∧
    summarize_ip_blocks
      [({ ip_address := some "10.0.0.0/24", ready := some (.bool false) } : SumRec)] = [] :=
  summarize_readiness_filter
    { ip_address := some "10.0.0.0/24", ready := some (.bool false) } []
    [{ ip_address := some "10.0.0.0/24", ready := some (.bool true) }]
    [{ ip_address := some "10.0.0.0/24", ready := some (.bool false) }] rfl
    (by
      intro x hx
      rw [List.mem_singleton] at hx
      subst hx
      rfl)

/-- Claim C5: skip and continue.  `summarize_ip_blocks` is a total function
(the caught `ValueError` is the only exception on its path), a record whose
address fails to parse is skipped without affecting the rest, and the
spec's Scenario 3 holds concretely. -/
theorem summarize_skip_continue (e : SumRec) (l1 l2 : List SumRec)
    (h : parsedNet e = none) :
    summarize_ip_blocks (l1 ++ e :: l2) = summarize_ip_blocks (l1 ++ l2) ∧
    summarize_ip_blocks
      [{ ip_address := some "bad-string", ready := some (.bool true) },
       { ip_address := some "10.0.0.0/24", ready := some (.bool true) }] =
      [{ ip_address := "10.0.0.0/24" }] :=
  ⟨summarize_skip_entry e l1 l2 h, summarize_scenario3⟩

/-- Witness for C5: the unparseable address "bad-string" is skipped and the
remaining record is still summarized. -/
theorem summarize_skip_continue_witness :
    summarize_ip_blocks ([] ++
        ({ ip_address := some "bad-string", ready := some (.bool true) } : SumRec) ::
        [{ ip_address := some "10.0.0.0/24", ready := some (.bool true) }]) =
      summarize_ip_blocks ([] ++
        [{ ip_address := some "10.0.0.0/24", ready := some (.bool true) }]) ∧
    summarize_ip_blocks
      [{ ip_address := some "bad-string", ready := some (.bool true) },
       { ip_address := some "10.0.0.0/24", ready := some (.bool true) }] =
      [{ ip_address := "10.0.0.0/24" }] :=
  summarize_skip_continue { ip_address := some "bad-string", ready := some (.bool true) }
    [] [{ ip_address := some "10.0.0.0/24", ready := some (.bool true) }] rfl

/-- Claim C6: parse semantics.  A bare IPv4 literal parses as a /32 network
and a bare IPv6 literal as a /128 network; an <addr>/<prefix> string parses
non-strictly, the host bits outside the prefix mask being cleared
(`ip - ip % 2 ^ (bits - p)`) rather than rejected; and a ready record's
address goes through exactly this parser after stripping. -/
theorem ip_network_parse_semantics (a4 m4 a6 m6 : List Char) (ip4 p4 ip6 p6 : Nat)
    (ha4 : parseIPv4Int a4 = some ip4) (hs4 : '/' ∉ a4)
    (hm4 : v4MaskToPlen m4 = some p4) (hsm4 : '/' ∉ m4)
    (ha6 : parseIPv6Int a6 = some ip6) (hs6 : '/' ∉ a6)
    (hm6 : parsePlenStr 128 m6 = some p6) (hsm6 : '/' ∉ m6) :
    ipNetworkOfChars a4 = some (.v4 { addr := ip4, plen := 32 }) ∧
    ipNetworkOfChars a6 = some (.v6 { addr := ip6, plen := 128 }) ∧
    ipNetworkOfChars (a4 ++ '/' :: m4) =
      some (.v4 { addr := ip4 - ip4 % 2 ^ (32 - p4), plen := p4 }) ∧
    ipNetworkOfChars (a6 ++ '/' :: m6) =
      some (.v6 { addr := ip6 - ip6 % 2 ^ (128 - p6), plen := p6 }) ∧
    parsedNet { ip_address := some (String.mk a4), ready := some (.bool true) } =
      ipNetworkOfChars (pyStrip a4) := by
  have hcolon : ':' ∈ a6 := colon_mem_of_parseIPv6Int a6 ip6 ha6
  have h4n : parseIPv4Int a6 = none := parseIPv4Int_none_of_colon a6 hcolon
  have hb4 : parseV4Network a4 = some { addr := ip4, plen := 32 } := by
    unfold parseV4Network
    rw [splitOnChar_of_not_mem '/' a4 hs4]
    simp only [ha4, Option.map_some']
  have hb6 : parseV6Network a6 = some { addr := ip6, plen := 128 } := by
    unfold parseV6Network
    rw [splitOnChar_of_not_mem '/' a6 hs6]
    simp only [ha6, Option.map_some']
  have hv4none : parseV4Network a6 = none := by
    unfold parseV4Network
    rw [splitOnChar_of_not_mem '/' a6 hs6]
    simp only [h4n, Option.map_none']
  have hsl4 : splitOnChar '/' (a4 ++ '/' :: m4) = [a4, m4] := by
    rw [splitOnChar_append '/' a4 m4 hs4, splitOnChar_of_not_mem '/' m4 hsm4]
  have hsl6 : splitOnChar '/' (a6 ++ '/' :: m6) = [a6, m6] := by
    rw [splitOnChar_append '/' a6 m6 hs6, splitOnChar_of_not_mem '/' m6 hsm6]
  have hc4 : parseV4Network (a4 ++ '/' :: m4) =
      some { addr := ip4 - ip4 % 2 ^ (32 - p4), plen := p4 } := by
    unfold parseV4Network
    rw [hsl4]
    simp only [ha4, hm4]
  have hc6 : parseV6Network (a6 ++ '/' :: m6) =
      some { addr := ip6 - ip6 % 2 ^ (128 - p6), plen := p6 } := by
    unfold parseV6Network
    rw [hsl6]
    simp only [ha6, hm6]
  have hc6v4 : parseV4Network (a6 ++ '/' :: m6) = none := by
    unfold parseV4Network
    rw [hsl6]
    simp only [h4n]
  have hne : a4 ≠ [] := by
    intro h0
    rw [h0] at ha4
    exact Option.noConfusion ha4
  have hsne : String.mk a4 ≠ "" := by
    intro h0
    exact hne (congrArg String.data h0)
  refine ⟨?_, ?_, ?_, ?_, ?_⟩
  · unfold ipNetworkOfChars
    rw [hb4]
  · unfold ipNetworkOfChars
    rw [hv4none]
    show (parseV6Network a6).map IPNet.v6 = some (.v6 { addr := ip6, plen := 128 })
    rw [hb6]
    rfl
  · unfold ipNetworkOfChars
    rw [hc4]
  · unfold ipNetworkOfChars
    rw [hc6v4]
    show (parseV6Network (a6 ++ '/' :: m6)).map IPNet.v6 =
      some (.v6 { addr := ip6 - ip6 % 2 ^ (128 - p6), plen := p6 })
    rw [hc6]
    rfl
  · show (if String.mk a4 = "" then none
      else ipNetworkOfChars (pyStrip (String.mk a4).data)) = ipNetworkOfChars (pyStrip a4)
    rw [if_neg hsne]

/-- Witness for C6 at the spec's Scenario 2 address "10.0.0.5" (and the v6
literal "2400:7aa0::"): the bare literals get /32 and /128 and the slash
forms get their host bits cleared. -/
theorem ip_network_parse_semantics_witness :
    ipNetworkOfChars "10.0.0.5".data = some (.v4 { addr := 167772165, plen := 32 }) ∧
    ipNetworkOfChars "2400:7aa0::".data =
      some (.v6 { addr := 604011168 * 2 ^ 96, plen := 128 }) ∧
    ipNetworkOfChars ("10.0.0.5".data ++ '/' :: "24".data) =
      some (.v4 { addr := 167772165 - 167772165 % 2 ^ (32 - 24), plen := 24 }) ∧
    ipNetworkOfChars ("2400:7aa0::".data ++ '/' :: "33".data) =
      some (.v6 { addr := 604011168 * 2 ^ 96 - 604011168 * 2 ^ 96 % 2 ^ (128 - 33),
                  plen := 33 }) ∧
    parsedNet { ip_address := some (String.mk "10.0.0.5".data),
                ready := some (.bool true) } =
      ipNetworkOfChars (pyStrip "10.0.0.5".data) :=
  ip_network_parse_semantics "10.0.0.5".data "24".data "2400:7aa0::".data "33".data
    167772165 24 (604011168 * 2 ^ 96) 33
    (by decide) (by decide) (by decide) (by decide)
    (by decide) (by decide) (by decide) (by decide)

/-- Counterexample to C7 as stated: output items carry no `ready` key, so
feeding the output back verbatim filters every item out and yields the empty
list, not the output again. -/
theorem summarize_refeed_cex :
    summarize_ip_blocks
      [{ ip_address := some "10.0.0.0/24", ready := some (.bool true) }] =
      [{ ip_address := "10.0.0.0/24" }] ∧
    summarize_ip_blocks
      ((summarize_ip_blocks
        [{ ip_address := some "10.0.0.0/24", ready := some (.bool true) }]).map
          refeedItem) = [] ∧
    ([] : List OutItem) ≠ [{ ip_address := "10.0.0.0/24" }] := by
  refine ⟨summarize_single24, summarize_refeed_empty _, ?_⟩
  intro h0
  exact List.noConfusion h0

/-- Claim C7 (amended): summarization is idempotent once the missing `ready`
marker is supplied: re-running `summarize_ip_blocks` on its own output with
`ready: true` added to each emitted item yields the same output again. -/
theorem summarize_refeed_ready_idem (entries : List SumRec) :
    summarize_ip_blocks ((summarize_ip_blocks entries).map refeedReadyItem) =
      summarize_ip_blocks entries := by
  have hv4 := (collapse_addresses_spec 32 _ (ipv4Inputs_valid entries)).1
  have hv6 := (collapse_addresses_spec 128 _ (ipv6Inputs_valid entries)).1
  obtain ⟨h4, h6⟩ := inputs_refeed_ready _ _ hv4 hv6
  rw [summarize_ip_blocks_eq entries]
  rw [summarize_ip_blocks_eq]
  rw [h4, h6]
  rw [collapse_addresses_idem 32 (ipv4Inputs entries) (ipv4Inputs_valid entries)]
  rw [collapse_addresses_idem 128 (ipv6Inputs entries) (ipv6Inputs_valid entries)]

/-- Claim C8: the ready bit of every emitted record.  Every record an entry
contributes (as a plain leaf or as a member of a truthy-`multivip` group)
comes from a leaf mapping whose `notes` iterate successfully, its `ready`
field is `false` exactly when some note carries identifier `3` and `true`
exactly otherwise — always a definite boolean. -/
theorem ready_bit_spec (entry : JVal) (rs : List AddressRecord) (r : AddressRecord)
    (h : recordsOfEntry entry = .ok rs) (hr : r ∈ rs) :
    ∃ f notes,
      ((JVal.obj f = entry ∧ r.multivip = false) ∨
       (∃ fe subs, entry = JVal.obj fe ∧
          pyIter ((jLookup fe "data").getD (.arr [])) = .ok subs ∧
          JVal.obj f ∈ subs ∧ r.multivip = true)) ∧
      pyIter ((jLookup f "notes").getD (.arr [])) = .ok notes ∧
      (r.ready = false ↔ ∃ note ∈ notes, noteCarries3 note) ∧
      (r.ready = true ↔ ¬∃ note ∈ notes, noteCarries3 note) := by
  obtain ⟨f0, rfl, hbr⟩ := recordsOfEntry_spec _ _ h
  by_cases hmv : pyTruthy ((jLookup f0 "multivip").getD .null)
  · rw [if_pos hmv] at hbr
    obtain ⟨subs, hsubs, pairs, hfst, hsnd, hall⟩ := hbr
    rw [← hsnd] at hr
    obtain ⟨pr, hpr, hpr2⟩ := List.mem_map.mp hr
    have hmk := hall pr hpr
    obtain ⟨g, notes, hleaf, hit, hiff, hmvr⟩ := mkLeafRecord_spec true pr.1 pr.2 hmk
    subst hpr2
    refine ⟨g, notes, Or.inr ⟨f0, subs, rfl, hsubs, ?_, hmvr⟩, hit, hiff,
      bool_eq_true_iff_not _ _ hiff⟩
    rw [← hleaf, ← hfst]
    exact List.mem_map_of_mem Prod.fst hpr
  · rw [if_neg hmv] at hbr
    obtain ⟨r0, hrs, hmk⟩ := hbr
    subst hrs
    rw [List.mem_singleton] at hr
    subst hr
    obtain ⟨g, notes, hobj, hit, hiff, hmvr⟩ := mkLeafRecord_spec _ _ _ hmk
    exact ⟨g, notes, Or.inl ⟨hobj.symm, hmvr⟩, hit, hiff, bool_eq_true_iff_not _ _ hiff⟩

/-- Witness for C8 at the spec's Scenario 6 group: a group entry with two
sub-entries, the first flagged by a note with id 3; its emitted record has
`ready = false` (so `false = false` holds and `false = true` is equivalent to
the negation). -/
theorem ready_bit_spec_witness :
    ∃ f notes,
      ((JVal.obj f = JVal.obj [("multivip", JVal.bool true),
          ("data", JVal.arr [JVal.obj [("ip_address", JVal.str "1.2.3.4"),
              ("notes", JVal.arr [JVal.obj [("id", JVal.num 3)]])],
            JVal.obj [("ip_address", JVal.str "5.6.7.8")]])] ∧
        true = false) ∨
       (∃ fe subs, JVal.obj [("multivip", JVal.bool true),
          ("data", JVal.arr [JVal.obj [("ip_address", JVal.str "1.2.3.4"),
              ("notes", JVal.arr [JVal.obj [("id", JVal.num 3)]])],
            JVal.obj [("ip_address", JVal.str "5.6.7.8")]])] = JVal.obj fe ∧
          pyIter ((jLookup fe "data").getD (.arr [])) = .ok subs ∧
          JVal.obj f ∈ subs ∧ true = true)) ∧
      pyIter ((jLookup f "notes").getD (.arr [])) = .ok notes ∧
      (false = false ↔ ∃ note ∈ notes, noteCarries3 note) ∧
      (false = true ↔ ¬∃ note ∈ notes, noteCarries3 note) :=
  ready_bit_spec
    (JVal.obj [("multivip", JVal.bool true),
      ("data", JVal.arr [JVal.obj [("ip_address", JVal.str "1.2.3.4"),
          ("notes", JVal.arr [JVal.obj [("id", JVal.num 3)]])],
        JVal.obj [("ip_address", JVal.str "5.6.7.8")]])])
    [{ ip_address := JVal.str "1.2.3.4", region := JVal.null, location := JVal.null,
       multivip := true, ready := false },
     { ip_address := JVal.str "5.6.7.8", region := JVal.null, location := JVal.null,
       multivip := true, ready := true }]
    { ip_address := JVal.str "1.2.3.4", region := JVal.null, location := JVal.null,
      multivip := true, ready := false }
    rfl (List.mem_cons_self _ _)

/-- Counterexample to C9 as stated: a document whose mandatory section path
is fully present still makes the extractor raise, because a column's `data`
sequence holds a bare number and `.get` is called on it. -/
theorem fetch_nondict_cex :
    mandatoryPathOk (JVal.obj [("data", JVal.arr [JVal.null, JVal.null, JVal.null,
      JVal.null, JVal.null, JVal.null,
      JVal.obj [("body", JVal.obj [("json", JVal.obj [("rows", JVal.arr [JVal.null,
        JVal.obj [("cols", JVal.arr [JVal.obj [("data",
          JVal.arr [JVal.num 5])]])]])])])]])]) = true ∧
    fetch_zscaler_egress_ips (JVal.obj [("data", JVal.arr [JVal.null, JVal.null,
      JVal.null, JVal.null, JVal.null, JVal.null,
      JVal.obj [("body", JVal.obj [("json", JVal.obj [("rows", JVal.arr [JVal.null,
        JVal.obj [("cols", JVal.arr [JVal.obj [("data",
          JVal.arr [JVal.num 5])]])]])])])]])]) = .error () :=
  ⟨rfl, rfl⟩

/-- Claim C9 (amended): the extractor fails when the mandatory
section-selection path is structurally absent, and succeeds whenever that
path is present and every traversed nested element is a mapping with
sequence-valued optional collections (absent optional fields degrade to
defaults); it can also fail on a present path whose collections hold
non-mapping elements. -/
theorem fetch_shape_policy (doc : JVal) :
    (mandatoryPathOk doc = false → fetch_zscaler_egress_ips doc = .error ()) ∧
    (∀ rowsVal rows, sectionRows doc = .ok rowsVal → pyIter rowsVal = .ok rows →
      (∀ row ∈ rows, rowWT row) → ∃ rs, fetch_zscaler_egress_ips doc = .ok rs) := by
  constructor
  · intro h
    unfold mandatoryPathOk at h
    cases hs : sectionRows doc with
    | ok v =>
      rw [hs] at h
      exact Bool.noConfusion h
    | error e =>
      cases e
      rw [fetch_eq, hs, except_bind_err]
  · intro rowsVal rows h1 h2 h3
    obtain ⟨rss, hrss⟩ := mapM_ok_of_all recordsOfRow rows
      (fun rr hrr => recordsOfRow_ok rr (h3 rr hrr))
    refine ⟨rss.flatten, ?_⟩
    rw [fetch_eq, h1, except_bind_ok, h2, except_bind_ok, hrss, except_bind_ok]

/-- Witness for C9 (amended) at a concrete well-shaped document: the
mandatory path is present, the single row is a bare mapping, and extraction
succeeds. -/
theorem fetch_shape_policy_witness :
    ∃ rs, fetch_zscaler_egress_ips (JVal.obj [("data", JVal.arr [JVal.null, JVal.null,
      JVal.null, JVal.null, JVal.null, JVal.null,
      JVal.obj [("body", JVal.obj [("json", JVal.obj [("rows",
        JVal.arr [JVal.null, JVal.obj []])])])]])]) = .ok rs :=
  (fetch_shape_policy (JVal.obj [("data", JVal.arr [JVal.null, JVal.null,
      JVal.null, JVal.null, JVal.null, JVal.null,
      JVal.obj [("body", JVal.obj [("json", JVal.obj [("rows",
        JVal.arr [JVal.null, JVal.obj []])])])]])])).2
    (JVal.arr [JVal.obj []]) [JVal.obj []] rfl rfl
    (fun rr hrr => by
      rw [List.mem_singleton] at hrr
      subst hrr
      exact ⟨[], rfl, fun cv hcv => Option.noConfusion hcv⟩)

/-- Claim C10: an absent `ready` key, or any falsy `ready` value, excludes
the record exactly as an explicit `ready: false` does, and such a record
never contributes to the output. -/
theorem falsy_ready_excluded (e : SumRec) (l1 l2 : List SumRec)
    (h : e.ready = none ∨ pyTruthy (e.ready.getD (.bool false)) = false) :
    summarize_ip_blocks (l1 ++ e :: l2) =
      summarize_ip_blocks (l1 ++ ({ ip_address := e.ip_address,
                                    ready := some (.bool false) } : SumRec) :: l2) ∧
    summarize_ip_blocks (l1 ++ e :: l2) = summarize_ip_blocks (l1 ++ l2) := by
  have hrt : readyTruthy e = false := by
    cases h with
    | inl h0 =>
      unfold readyTruthy
      rw [h0]
      rfl
    | inr h0 => exact h0
  have hpn : parsedNet e = none := parsedNet_none_of_not_ready e hrt
  have hpn2 : parsedNet ({ ip_address := e.ip_address,
                           ready := some (.bool false) } : SumRec) = none := rfl
  refine ⟨?_, summarize_skip_entry e l1 l2 hpn⟩
  rw [summarize_skip_entry e l1 l2 hpn, summarize_skip_entry _ l1 l2 hpn2]

/-- Witness for C10: a record with no `ready` key at all behaves exactly as
one with `ready: false` and contributes nothing. -/
theorem falsy_ready_excluded_witness :
    summarize_ip_blocks ([] ++
        ({ ip_address := some "10.0.0.0/24", ready := none } : SumRec) ::
        [{ ip_address := some "10.0.0.0/24", ready := some (.bool true) }]) =
      summarize_ip_blocks ([] ++
        ({ ip_address := some "10.0.0.0/24", ready := some (.bool false) } : SumRec) ::
        [{ ip_address := some "10.0.0.0/24", ready := some (.bool true) }]) ∧
    summarize_ip_blocks ([] ++
        ({ ip_address := some "10.0.0.0/24", ready := none } : SumRec) ::
        [{ ip_address := some "10.0.0.0/24", ready := some (.bool true) }]) =
      summarize_ip_blocks ([] ++
        [{ ip_address := some "10.0.0.0/24", ready := some (.bool true) }]) :=
  falsy_ready_excluded { ip_address := some "10.0.0.0/24", ready := none } []
    [{ ip_address := some "10.0.0.0/24", ready := some (.bool true) }] (Or.inl rfl)

end ZscalerEgress
